import Mathlib

/-
  A verification development for a C++ memory-allocator laboratory
  consisting of a buddy allocator (`allocator.cpp` / `allocator.hpp`) and a
  TLSF allocator (`tlsf_allocator.cpp` / `tlsf_allocator.hpp`) over a
  simulated byte arena.

  Machine integers (`size_t`) are modelled as `Nat`; the places where the
  64-bit representation matters (the bit-smearing `next_power_2`, the
  `& ~(x-1)` alignment trick, subtractions that may wrap) carry an explicit
  `% 2^64` or an additive `+ 2^64` before subtracting, mirroring unsigned
  wraparound.  Raw heap memory of the TLSF allocator is modelled as an
  association list from byte offsets (relative to `first_block`) to header
  records; a read of bytes that were never written as a header has no
  defined value in the C++ program and is modelled by `Option.none`
  propagating out of the operation.
-/

namespace AllocModel

/-- `2^64`, the modulus of `size_t` arithmetic. -/
def U64 : Nat := 2 ^ 64

/-- Fuel-driven helper for `ctz` (the fuel only drives structural
recursion; `ctz x` supplies `x`, which always suffices). -/
def ctzAux : Nat → Nat → Nat
  | 0, _ => 0
  | fuel + 1, n => if n % 2 = 0 ∧ n ≠ 0 then ctzAux fuel (n / 2) + 1 else 0

/-- Number of trailing zero bits (`__builtin_ctz`); the source never
applies it to `0` on the paths we verify (`__builtin_ctz(0)` is undefined
in C++; we return `0` there). -/
def ctz (x : Nat) : Nat := ctzAux x x

/-- Fuel-driven helper for `fls` (the fuel only drives structural
recursion; `fls x` supplies `x`, which always suffices). -/
def flsAux : Nat → Nat → Nat
  | 0, _ => 0
  | fuel + 1, n => if n = 0 then 0 else flsAux fuel (n / 2) + 1

/-- `fls` from `tlsf_allocator.hpp`: `x ? 64 - clzll(x) : 0`, i.e. the bit
length of `x` (for values in `size_t` range). -/
def fls (x : Nat) : Nat := flsAux x x

/-- `ffs` from `tlsf_allocator.hpp`: `__builtin_ffsll`, one plus the index
of the lowest set bit, `0` for `0`. -/
def ffs (x : Nat) : Nat := if x = 0 then 0 else ctz x + 1

/-- The 64-bit bit-smearing `next_power_2` of `allocator.hpp`:
`x--`, six or-shift steps, `x++`, all in `size_t` arithmetic. -/
def next_power_2 (x0 : Nat) : Nat :=
  let x := (x0 % U64 + U64 - 1) % U64
  let x := x ||| (x >>> 1)
  let x := x ||| (x >>> 2)
  let x := x ||| (x >>> 4)
  let x := x ||| (x >>> 8)
  let x := x ||| (x >>> 16)
  let x := x ||| (x >>> 32)
  (x + 1) % U64

namespace Buddy

/-- `MemoryAllocator::MIN_BLOCK_SIZE`. -/
def MIN_BLOCK_SIZE : Nat := 16

/-- `MemoryAllocator::BLOCK_SIZES_COUNT`. -/
def BLOCK_SIZES_COUNT : Nat := 28

/-- `MemoryAllocator::MemoryBlock`. -/
structure MemoryBlock where
  size : Nat
  allocated : Nat
  is_free : Bool
deriving DecidableEq, Repr

/-- The buddy allocator state: `std::map<size_t, MemoryBlock> blocks` is
modelled as a list of key-value pairs kept sorted by key through
`mapInsert` (as `std::map` iteration order is ascending by key). -/
structure MemoryAllocator where
  total_size : Nat
  allocated_size : Nat
  next_address : Nat
  blocks : List (Nat × MemoryBlock)
deriving DecidableEq, Repr

/-- Sorted-map insertion (`blocks[k] = v`): replaces the binding of `k`
or inserts it in key order. -/
def mapInsert (k : Nat) (v : MemoryBlock) : List (Nat × MemoryBlock) → List (Nat × MemoryBlock)
  | [] => [(k, v)]
  | (a, b) :: t =>
    if k < a then (k, v) :: (a, b) :: t
    else if k = a then (k, v) :: t
    else (a, b) :: mapInsert k v t

/-- `blocks.find(k)`. -/
def mapFind? (k : Nat) : List (Nat × MemoryBlock) → Option MemoryBlock
  | [] => none
  | (a, b) :: t => if a = k then some b else mapFind? k t

/-- `blocks.erase(k)`. -/
def mapErase (k : Nat) : List (Nat × MemoryBlock) → List (Nat × MemoryBlock)
  | [] => []
  | (a, b) :: t => if a = k then t else (a, b) :: mapErase k t

/-- `MemoryAllocator::calculate_block_size`. -/
def calculate_block_size (size : Nat) : Nat :=
  max (next_power_2 size) MIN_BLOCK_SIZE

/-- The `MemoryAllocator(size_t)` constructor: one free block of the
rounded-up total size at address 0. -/
def mkAllocator (size : Nat) : MemoryAllocator :=
  { total_size := next_power_2 size
    allocated_size := 0
    next_address := 0
    blocks := [(0, ⟨next_power_2 size, 0, true⟩)] }

/-- The scan of `MemoryAllocator::alloc`: first free block (in ascending
address order) whose size is at least `want`. -/
def allocFind (want : Nat) : List (Nat × MemoryBlock) → Option (Nat × MemoryBlock)
  | [] => none
  | (addr, b) :: rest =>
    if b.is_free ∧ want ≤ b.size then some (addr, b) else allocFind want rest

/-- The split loop of `MemoryAllocator::alloc`:
`while (size > want && size > MIN) { insert upper half free; halve }`.
The per-iteration `block.size = new_size` stores are all overwritten by the
caller's final store of the chosen block, so only the inserted halves and
the final size are threaded.  (`size >> 1` is written `size / 2`.) -/
def splitLoopB (addr want : Nat) : Nat → Nat → List (Nat × MemoryBlock) → Nat × List (Nat × MemoryBlock)
  | 0, sz, bs => (sz, bs)
  | fuel + 1, sz, bs =>
    if want < sz ∧ MIN_BLOCK_SIZE < sz then
      let new_size := sz / 2
      splitLoopB addr want fuel new_size (mapInsert (addr + new_size) ⟨new_size, 0, true⟩ bs)
    else (sz, bs)

/-- `MemoryAllocator::alloc`.  `none` models `throw std::bad_alloc()`. -/
def MemoryAllocator.alloc (m : MemoryAllocator) (size : Nat) : Option (Nat × MemoryAllocator) :=
  if size = 0 then some (0, m) else
  let block_size := calculate_block_size size
  match allocFind block_size m.blocks with
  | none => none
  | some (addr, b) =>
    let fb := splitLoopB addr block_size b.size b.size m.blocks
    some (addr, { m with
      allocated_size := m.allocated_size + size
      blocks := mapInsert addr ⟨fb.1, size, false⟩ fb.2 })

/-- The single error of the buddy engine:
`std::invalid_argument("Invalid deallocation")`, thrown both for an
unknown address and for an already-free block. -/
inductive BuddyErr where
  | invalidDealloc
deriving DecidableEq, Repr

/-- The eager-coalescing do-while loop of `MemoryAllocator::dealloc`.
Each merging pass erases one map entry, so `blocks.length + 1` passes of
fuel always suffice; the fuel-exhausted branch is unreachable. -/
def mergeGo (total : Nat) : Nat → Nat → List (Nat × MemoryBlock) → Nat × List (Nat × MemoryBlock)
  | 0, addr, bs => (addr, bs)
  | fuel + 1, addr, bs =>
    match mapFind? addr bs with
    | none => (addr, bs)
    | some b =>
      let size := b.size
      -- `addr & size` non-zero: we are the right buddy (C++ branches flipped
      -- to a positive test)
      let buddy_addr := if addr &&& size = 0 then addr + size else addr - size
      match mapFind? buddy_addr bs with
      | none => (addr, bs)
      | some bd =>
        if bd.is_free ∧ bd.size = size then
          if buddy_addr < addr then
            -- merge into left buddy (`buddy->second.size <<= 1; erase(it)`)
            let bs' := mapInsert buddy_addr ⟨bd.size * 2, bd.allocated, bd.is_free⟩ (mapErase addr bs)
            if size * 2 < total then mergeGo total fuel buddy_addr bs' else (buddy_addr, bs')
          else
            -- merge into current block (`it->second.size <<= 1; erase(buddy)`)
            let bs' := mapInsert addr ⟨b.size * 2, b.allocated, b.is_free⟩ (mapErase buddy_addr bs)
            if size * 2 < total then mergeGo total fuel addr bs' else (addr, bs')
        else (addr, bs)

/-- `MemoryAllocator::dealloc`. -/
def MemoryAllocator.dealloc (m : MemoryAllocator) (address : Nat) : Except BuddyErr MemoryAllocator :=
  match mapFind? address m.blocks with
  | none => .error .invalidDealloc
  | some b =>
    if b.is_free then .error .invalidDealloc else
    let bs := mapInsert address ⟨b.size, 0, true⟩ m.blocks
    let r := mergeGo m.total_size (bs.length + 1) address bs
    .ok { m with
      allocated_size := m.allocated_size - b.allocated
      blocks := r.2 }

/-- The scan of `MemoryAllocator::align_alloc`: skip non-free or too-small
blocks, then require the aligned grid position (plus `want`) to fit. -/
def alignFind (want : Nat) : List (Nat × MemoryBlock) → Option (Nat × MemoryBlock)
  | [] => none
  | (addr, b) :: rest =>
    if ¬ b.is_free ∨ b.size < want then alignFind want rest
    else
      let grid_pos := ((addr + want - 1) / want) * want
      let offset := grid_pos - addr
      if offset + want ≤ b.size then some (addr, b) else alignFind want rest

/-- The first (alignment) loop of `MemoryAllocator::align_alloc`:
`while (offset > 0) { insert lower-half block free; halve the block at the
original address; advance addr }`.  `offset -= new_size` is `size_t`
arithmetic, hence the `+ U64 ... % U64`.  The loop is given fuel; on every
state in which the buddy invariant holds the guard is false at entry
(`offset = 0`), so the fuel is irrelevant there. -/
def alignLoop1 : Nat → Nat → Nat → Nat → List (Nat × MemoryBlock) → Nat × Nat × List (Nat × MemoryBlock)
  | 0, addr, sz, _, bs => (addr, sz, bs)
  | fuel + 1, addr, sz, offset, bs =>
    if 0 < offset then
      let new_size := sz / 2
      alignLoop1 fuel (addr + new_size) new_size ((offset + U64 - new_size) % U64)
        (mapInsert (addr + new_size) ⟨new_size, 0, true⟩ bs)
    else (addr, sz, bs)

/-- `MemoryAllocator::align_alloc`.  Note that the source's `block`
reference keeps denoting the entry at the block's original address
while `addr` advances, so the final marking writes to the original
address but the advanced `addr` is returned. -/
def MemoryAllocator.align_alloc (m : MemoryAllocator) (size : Nat) : Option (Nat × MemoryAllocator) :=
  if size = 0 then some (0, m) else
  let block_size := calculate_block_size size
  match alignFind block_size m.blocks with
  | none => none
  | some (addr0, b) =>
    let grid_pos := ((addr0 + block_size - 1) / block_size) * block_size
    let offset := grid_pos - addr0
    let r1 := alignLoop1 (b.size + 1) addr0 b.size offset m.blocks
    let fb := splitLoopB r1.1 block_size r1.2.1 r1.2.1 r1.2.2
    some (r1.1, { m with
      allocated_size := m.allocated_size + size
      blocks := mapInsert addr0 ⟨fb.1, size, false⟩ fb.2 })

/-- Spec-side split loop, transcribed from the specification sentence
"While `block.size > want` and `block.size > MIN`, split: halve `size`,
insert a new free block at `offset + size` with the new size; the
original offset keeps the lower half."  Stated separately from
`splitLoopB` (which is transcribed from the source) so that the two can
be compared. -/
def splitWhile (offset want : Nat) : Nat → Nat → List (Nat × MemoryBlock) → Nat × List (Nat × MemoryBlock)
  | 0, size, bs => (size, bs)
  | fuel + 1, size, bs =>
    if want < size ∧ MIN_BLOCK_SIZE < size then
      splitWhile offset want fuel (size / 2)
        (mapInsert (offset + size / 2) ⟨size / 2, 0, true⟩ bs)
    else (size, bs)

/-- Spec-side `Allocate(req)`, transcribed from the specification: return
0 for `req = 0`; `want = max(nextPow2(req), MIN)`; choose the fitting
free block of least offset ("scan the block map in ascending offset
order; select the first free block with `size ≥ want`"); split downward;
mark allocated with `allocated = req` and add `req` to `allocated_size`;
`none` ("OutOfMemory") exactly when no fitting free block exists. -/
def allocSpec (m : MemoryAllocator) (req : Nat) : Option (Nat × MemoryAllocator) :=
  if req = 0 then some (0, m) else
  let want := max (next_power_2 req) MIN_BLOCK_SIZE
  match ((m.blocks.filter (fun p => p.2.is_free && decide (want ≤ p.2.size))).map Prod.fst).min? with
  | none => none
  | some a =>
    match mapFind? a m.blocks with
    | none => none
    | some b =>
      let r := splitWhile a want b.size b.size m.blocks
      some (a, { m with
        allocated_size := m.allocated_size + req
        blocks := mapInsert a ⟨r.1, req, false⟩ r.2 })

/-- `MemoryAllocator::find_last_allocated_address`. -/
def MemoryAllocator.find_last_allocated_address (m : MemoryAllocator) : Nat :=
  m.blocks.foldl (fun last p => if ¬ p.2.is_free then p.1 + p.2.size else last) m.next_address

/-- `MemoryAllocator::get_internal_fragmentation`, with `double` modelled
as exact rational arithmetic. -/
def MemoryAllocator.get_internal_fragmentation (m : MemoryAllocator) : ℚ :=
  if m.allocated_size = 0 then 0 else
  let total_wasted : Nat :=
    m.blocks.foldl (fun acc p => if p.2.is_free then acc else acc + (p.2.size - p.2.allocated)) 0
  (total_wasted : ℚ) / (m.allocated_size : ℚ)

/-- `MemoryAllocator::get_block_size_index`:
`__builtin_ctz(size) - __builtin_ctz(MIN_BLOCK_SIZE)` (the intrinsic takes
an `unsigned int`, hence the 32-bit truncation). -/
def get_block_size_index (size : Nat) : Nat :=
  ctz (size % 2 ^ 32) - ctz MIN_BLOCK_SIZE

/-- The prefix of the block map visited before
`if (max_address && pair.first >= max_address) break`. -/
def prefixBlocks (max_address : Nat) (bs : List (Nat × MemoryBlock)) : List (Nat × MemoryBlock) :=
  bs.takeWhile (fun p => max_address = 0 ∨ p.1 < max_address)

/-- The third loop of `MemoryAllocator::calculate_external_fragmentation`,
processing class indices `0 .. n-1` in ascending order and returning the
pair (weighted_sum, total_weight).  The source `break`s at the first class
whose block size exceeds `total_free`; since the class size is increasing
in `i`, skipping every such class is equivalent. -/
def extThird (actual : Nat → Nat) (total_free : Nat) : Nat → ℚ × Nat
  | 0 => (0, 0)
  | i + 1 =>
    let acc := extThird actual total_free i
    let block_size := MIN_BLOCK_SIZE * 2 ^ i
    if total_free < block_size then acc
    else
      let potential_blocks := total_free / block_size
      if potential_blocks = 0 then acc
      else (acc.1 + (actual i : ℚ) / (potential_blocks : ℚ), acc.2 + 1)

/-- `MemoryAllocator::calculate_external_fragmentation(max_address)`.
The first two passes build the per-class free-block counts and the
augmented counts `actual[i] += actual[j] * (1 << (j-i))` (the inner loop
reads the not-yet-augmented higher entries); the third pass is
`extThird`. -/
def MemoryAllocator.calculate_external_fragmentation (m : MemoryAllocator) (max_address : Nat) : ℚ :=
  if m.blocks = [] ∨ m.allocated_size = 0 then 0 else
  let pre := prefixBlocks max_address m.blocks
  let total_free : Nat := pre.foldl (fun acc p => if p.2.is_free then acc + p.2.size else acc) 0
  if total_free = 0 then 0 else
  let cnt : Nat → Nat := pre.foldl
    (fun f p => if p.2.is_free then
        (fun i => if i = get_block_size_index p.2.size then f i + 1 else f i)
      else f)
    (fun _ => 0)
  let actual : Nat → Nat := fun i =>
    cnt i + (Finset.Ico (i + 1) BLOCK_SIZES_COUNT).sum
      (fun j => if 0 < cnt j then cnt j * 2 ^ (j - i) else 0)
  let acc := extThird actual total_free BLOCK_SIZES_COUNT
  if 0 < acc.2 then 1 - acc.1 / (acc.2 : ℚ) else 0

/-- `MemoryAllocator::get_external_fragmentation`. -/
def MemoryAllocator.get_external_fragmentation (m : MemoryAllocator) : ℚ :=
  m.calculate_external_fragmentation 0

/-- `MemoryAllocator::get_trimmed_external_fragmentation`. -/
def MemoryAllocator.get_trimmed_external_fragmentation (m : MemoryAllocator) : ℚ :=
  m.calculate_external_fragmentation m.find_last_allocated_address

end Buddy

namespace TLSF

/-- `TLSFAllocator::MIN_BLOCK_SIZE`. -/
def MIN_BLOCK_SIZE : Nat := 16

/-- `TLSFAllocator::SL_INDEX_COUNT`. -/
def SL_INDEX_COUNT : Nat := 32

/-- `TLSFAllocator::FL_INDEX_COUNT`. -/
def FL_INDEX_COUNT : Nat := 32

/-- `sizeof(TLSFAllocator::Block)`: two `size_t` (8+8), a padded `bool`
(8), three pointers (8+8+8) = 48 bytes. -/
def sizeofBlock : Nat := 48

/-- `TLSFAllocator::Block`.  Pointers are byte offsets of the pointed-to
header relative to `first_block`; `none` is the null pointer. -/
structure Block where
  size : Nat
  allocated : Nat
  is_free : Bool
  prev_physical : Option Nat
  next_free : Option Nat
  prev_free : Option Nat
deriving DecidableEq, Repr

/-- The TLSF allocator state.  `mem` maps a byte offset (relative to
`first_block`) to the header record last written there; headers absorbed
by a merge keep their stale bytes, exactly as in raw memory.
`segregated_lists` is the 32 x 32 matrix of list heads,
`fl_bitmap` the single summary word, `sl_bitmap` the per-`fl` words. -/
structure TLSFAllocator where
  total_size : Nat
  allocated_size : Nat
  mem : List (Nat × Block)
  segregated_lists : List (List (Option Nat))
  fl_bitmap : Nat
  sl_bitmap : List Nat
deriving DecidableEq, Repr

/-- Read the header stored at offset `a`; `none` when those bytes were
never written as a header (reading them has no defined value in C++). -/
def getH (mem : List (Nat × Block)) (a : Nat) : Option Block :=
  match mem with
  | [] => none
  | (x, y) :: t => if x = a then some y else getH t a

/-- Store a header at offset `a` (overwriting the previous one there). -/
def setH (mem : List (Nat × Block)) (a : Nat) (b : Block) : List (Nat × Block) :=
  match mem with
  | [] => [(a, b)]
  | (x, y) :: t => if x = a then (a, b) :: t else (x, y) :: setH t a b

/-- Update the fields of the header at `a`; `none` if it is absent. -/
def updH (mem : List (Nat × Block)) (a : Nat) (f : Block → Block) : Option (List (Nat × Block)) :=
  match getH mem a with
  | none => none
  | some b => some (setH mem a (f b))

/-- `segregated_lists[fl][sl]`. -/
def cellGet (lists : List (List (Option Nat))) (fl sl : Nat) : Option Nat :=
  ((lists.getD fl []).getD sl none)

/-- `segregated_lists[fl][sl] = v`. -/
def cellSet (lists : List (List (Option Nat))) (fl sl : Nat) (v : Option Nat) : List (List (Option Nat)) :=
  lists.set fl ((lists.getD fl []).set sl v)

/-- `sl_bitmap[fl]`. -/
def slGet (slb : List Nat) (fl : Nat) : Nat := slb.getD fl 0

/-- `sl_bitmap[fl] = v`. -/
def slSet (slb : List Nat) (fl : Nat) (v : Nat) : List Nat := slb.set fl v

/-- `TLSFAllocator::mapping_indexes`.  (`fl - ctz(MIN)` cannot go below
zero since the size is clamped to `MIN` first, so the source's
`if (fl < 0)` branch is dead; `size & sl_mask` is `Nat.land`.) -/
def mapping_indexes (size0 : Nat) : Nat × Nat :=
  let size := if size0 < MIN_BLOCK_SIZE then MIN_BLOCK_SIZE else size0
  let fl := fls size - ctz MIN_BLOCK_SIZE
  let sl_size := 2 ^ (fl + ctz MIN_BLOCK_SIZE)
  let sl_mask := sl_size - 1
  let sl := if size &&& sl_mask = 0 then 0 else ((size &&& sl_mask) * SL_INDEX_COUNT) / sl_size
  if FL_INDEX_COUNT ≤ fl then (FL_INDEX_COUNT - 1, SL_INDEX_COUNT - 1)
  else if SL_INDEX_COUNT ≤ sl then (fl, SL_INDEX_COUNT - 1)
  else (fl, sl)

/-- `TLSFAllocator::mapping_insert`.  The null-block guard of the source
cannot fire (all call sites pass a real header).  Returns `none` when a
touched header offset holds no header (an undefined C++ read/write). -/
def TLSFAllocator.mapping_insert (t : TLSFAllocator) (size blockOff : Nat) : Option TLSFAllocator :=
  let fl := (mapping_indexes size).1
  let sl := (mapping_indexes size).2
  if FL_INDEX_COUNT ≤ fl ∨ SL_INDEX_COUNT ≤ sl then some t else
  match getH t.mem blockOff with
  | none => none
  | some b =>
    let head := cellGet t.segregated_lists fl sl
    let mem1 := setH t.mem blockOff { b with next_free := head, prev_free := none }
    let mem2 := match head with
      | some h => updH mem1 h (fun hb => { hb with prev_free := some blockOff })
      | none => some mem1
    match mem2 with
    | none => none
    | some mem2 =>
      some { t with
        mem := mem2
        segregated_lists := cellSet t.segregated_lists fl sl (some blockOff)
        fl_bitmap := t.fl_bitmap ||| 2 ^ fl
        sl_bitmap := slSet t.sl_bitmap fl ((slGet t.sl_bitmap fl) ||| 2 ^ sl) }

/-- `TLSFAllocator::mapping_remove`. -/
def TLSFAllocator.mapping_remove (t : TLSFAllocator) (size blockOff : Nat) : Option TLSFAllocator :=
  let fl := (mapping_indexes size).1
  let sl := (mapping_indexes size).2
  if FL_INDEX_COUNT ≤ fl ∨ SL_INDEX_COUNT ≤ sl then some t else
  match getH t.mem blockOff with
  | none => none
  | some b =>
    let step1 : Option (List (Nat × Block) × List (List (Option Nat))) :=
      match b.prev_free with
      | some p =>
        (updH t.mem p (fun pb => { pb with next_free := b.next_free })).map
          (fun mem => (mem, t.segregated_lists))
      | none =>
        if cellGet t.segregated_lists fl sl = some blockOff then
          some (t.mem, cellSet t.segregated_lists fl sl b.next_free)
        else some (t.mem, t.segregated_lists)
    match step1 with
    | none => none
    | some (mem1, lists) =>
      let mem2 := match b.next_free with
        | some nx => updH mem1 nx (fun nb => { nb with prev_free := b.prev_free })
        | none => some mem1
      match mem2 with
      | none => none
      | some mem2 =>
        let mem3 := setH mem2 blockOff { b with next_free := none, prev_free := none }
        if cellGet lists fl sl = none then
          let slb := (slGet t.sl_bitmap fl) &&& ((U64 - 1) ^^^ 2 ^ sl)
          some { t with
            mem := mem3
            segregated_lists := lists
            sl_bitmap := slSet t.sl_bitmap fl slb
            fl_bitmap := if slb = 0 then t.fl_bitmap &&& ((U64 - 1) ^^^ 2 ^ fl) else t.fl_bitmap }
        else
          some { t with mem := mem3, segregated_lists := lists }

/-- The `fl+1 .. FL_INDEX_COUNT-1` scan of `TLSFAllocator::mapping_find`,
given as fuel the number of remaining levels.  Result: `some (some off)`
found, `some none` no fit, `none` an undefined header read. -/
def TLSFAllocator.findAbove (t : TLSFAllocator) (size : Nat) : Nat → Nat → Option (Option Nat)
  | 0, _ => some none
  | k + 1, curr_fl =>
    if curr_fl < FL_INDEX_COUNT then
      if slGet t.sl_bitmap curr_fl = 0 then t.findAbove size k (curr_fl + 1)
      else
        let sl_index := ffs (slGet t.sl_bitmap curr_fl) - 1
        if sl_index < SL_INDEX_COUNT then
          match cellGet t.segregated_lists curr_fl sl_index with
          | some h =>
            match getH t.mem h with
            | none => none
            | some hb =>
              if size ≤ hb.size then some (some h)
              else t.findAbove size k (curr_fl + 1)
          | none => t.findAbove size k (curr_fl + 1)
        else t.findAbove size k (curr_fl + 1)
    else some none

/-- `TLSFAllocator::mapping_find`.  `~0ULL << sl` is `2^64 - 2^sl`. -/
def TLSFAllocator.mapping_find (t : TLSFAllocator) (size : Nat) : Option (Option Nat) :=
  let fl := (mapping_indexes size).1
  let sl := (mapping_indexes size).2
  if FL_INDEX_COUNT ≤ fl then some none else
  let sl_map := (slGet t.sl_bitmap fl) &&& (U64 - 2 ^ sl)
  if sl_map = 0 then t.findAbove size (FL_INDEX_COUNT - (fl + 1)) (fl + 1)
  else
    let sl_index := ffs sl_map - 1
    if sl_index < SL_INDEX_COUNT then
      match cellGet t.segregated_lists fl sl_index with
      | some h =>
        match getH t.mem h with
        | none => none
        | some hb =>
          if size ≤ hb.size then some (some h)
          else t.findAbove size (FL_INDEX_COUNT - (fl + 1)) (fl + 1)
      | none => t.findAbove size (FL_INDEX_COUNT - (fl + 1)) (fl + 1)
    else t.findAbove size (FL_INDEX_COUNT - (fl + 1)) (fl + 1)

/-- `TLSFAllocator::split_block`.  `size = (size + 7) & ~7` is written as
rounding up to a multiple of 8; `block->size - size` is `size_t`
arithmetic (the subtraction cannot wrap on the verified call paths, where
`size` is already rounded and no larger than `block->size`). -/
def TLSFAllocator.split_block (t : TLSFAllocator) (blockOff size0 : Nat) : Option (Nat × TLSFAllocator) :=
  match getH t.mem blockOff with
  | none => none
  | some b =>
    if b.size ≤ size0 then some (blockOff, t) else
    let size := let s := (size0 + 7) / 8 * 8; if s < MIN_BLOCK_SIZE then MIN_BLOCK_SIZE else s
    let total_remaining := (b.size + U64 - size) % U64
    if total_remaining < MIN_BLOCK_SIZE + sizeofBlock then some (blockOff, t) else
    let block_end := blockOff + sizeofBlock + b.size
    let next_physical : Option Nat := if block_end < t.total_size then some block_end else none
    let newOff := blockOff + sizeofBlock + size
    let mem1 := setH t.mem newOff
      ⟨total_remaining - sizeofBlock, 0, true, some blockOff, none, none⟩
    let mem2 := setH mem1 blockOff { b with size := size }
    let mem3 : Option (List (Nat × Block)) :=
      match next_physical with
      | some np =>
        match getH mem2 np with
        | none => none
        | some nb =>
          if nb.prev_physical = some blockOff then
            some (setH mem2 np { nb with prev_physical := some newOff })
          else some mem2
      | none => some mem2
    match mem3 with
    | none => none
    | some mem3 =>
      match TLSFAllocator.mapping_insert { t with mem := mem3 } (total_remaining - sizeofBlock) newOff with
      | none => none
      | some t2 => some (blockOff, t2)

/-- The forward-merge section of `TLSFAllocator::merge_block` (the source
captures `first_block_end` once at entry; it is `fbEnd` here).  Result:
`some (some (t, size))` falls through to the backward section with the
subject block's current size, `some none` is the source's early `return`
on a broken chain, `none` an undefined header read. -/
def TLSFAllocator.mergeFwd (t0 : TLSFAllocator) (blockOff : Nat) (b0 : Block) (fbEnd : Nat) :
    Option (Option (TLSFAllocator × Nat)) :=
  let next_addr := blockOff + sizeofBlock + b0.size
  if next_addr + sizeofBlock ≤ fbEnd then
    match getH t0.mem next_addr with
    | none => none
    | some nb =>
      if MIN_BLOCK_SIZE ≤ nb.size ∧ nb.size ≤ fbEnd - next_addr ∧ nb.is_free then
        let next_next_addr := next_addr + sizeofBlock + nb.size
        let nn : Option (Option Nat) :=
          if next_next_addr + sizeofBlock ≤ fbEnd then
            match getH t0.mem next_next_addr with
            | none => none
            | some nnb =>
              if nnb.prev_physical = some next_addr then some (some next_next_addr)
              else none
          else some none
        match nn with
        | none =>
          match getH t0.mem next_next_addr with
          | none => (none : Option (Option (TLSFAllocator × Nat)))
          | some _ => some none            -- broken chain: `return`
        | some nnOff =>
          match t0.mapping_remove nb.size next_addr with
          | none => none
          | some t1 =>
            let new_size := b0.size + sizeofBlock + nb.size
            if fbEnd < new_size then some none   -- overflow check: `return`
            else
              match updH t1.mem blockOff (fun bb => { bb with size := new_size }) with
              | none => none
              | some mem1 =>
                let mem2 : Option (List (Nat × Block)) :=
                  match nnOff with
                  | some nn2 => updH mem1 nn2 (fun nnb => { nnb with prev_physical := some blockOff })
                  | none => some mem1
                match mem2 with
                | none => none
                | some mem2 => some (some ({ t1 with mem := mem2 }, new_size))
      else some (some (t0, b0.size))
  else some (some (t0, b0.size))

/-- The backward-merge section of `TLSFAllocator::merge_block`.
`prev0` is the subject's `prev_physical` (unchanged by the forward merge),
`bsize` its current size.  Result: `some (some t)` is a completed merge
(the source `return`s), `some none` falls through to the final insert,
`none` an undefined header read. -/
def TLSFAllocator.mergeBwd (t1 : TLSFAllocator) (blockOff : Nat) (prev0 : Option Nat)
    (bsize fbEnd : Nat) : Option (Option TLSFAllocator) :=
  match prev0 with
  | none => some none
  | some prevOff =>
    match getH t1.mem prevOff with
    | none => none
    | some pb =>
      if MIN_BLOCK_SIZE ≤ pb.size ∧ pb.size ≤ (fbEnd + U64 - prevOff) % U64 ∧
          prevOff + sizeofBlock + pb.size = blockOff ∧ pb.is_free then
        let next_addr := blockOff + sizeofBlock + bsize
        let nn : Option (Option Nat) :=
          if next_addr + sizeofBlock ≤ fbEnd then
            match getH t1.mem next_addr with
            | none => none
            | some nb2 =>
              if nb2.prev_physical = some blockOff then some (some next_addr)
              else none
          else some none
        match nn with
        | none =>
          match getH t1.mem next_addr with
          | none => (none : Option (Option TLSFAllocator))
          | some _ => some (some t1)       -- broken chain: `return`
        | some nnOff =>
          match t1.mapping_remove pb.size prevOff with
          | none => none
          | some t2 =>
            match t2.mapping_remove bsize blockOff with
            | none => none
            | some t3 =>
              let new_size := pb.size + sizeofBlock + bsize
              if fbEnd < new_size then some (some t3)   -- overflow check: `return`
              else
                match updH t3.mem prevOff (fun pp => { pp with size := new_size }) with
                | none => none
                | some mem1 =>
                  let mem2 : Option (List (Nat × Block)) :=
                    match nnOff with
                    | some nn2 => updH mem1 nn2 (fun nnb => { nnb with prev_physical := some prevOff })
                    | none => some mem1
                  match mem2 with
                  | none => none
                  | some mem2 =>
                    match TLSFAllocator.mapping_insert { t3 with mem := mem2 } new_size prevOff with
                    | none => none
                    | some t4 => some (some t4)     -- merged: `return`
      else some none

/-- `TLSFAllocator::merge_block`: forward section, backward section, and
the final insert of the subject when no backward merge happened. -/
def TLSFAllocator.merge_block (t0 : TLSFAllocator) (blockOff : Nat) : Option TLSFAllocator :=
  match getH t0.mem blockOff with
  | none => none
  | some b0 =>
    if ¬ b0.is_free then some t0 else
    match t0.mergeFwd blockOff b0 t0.total_size with
    | none => none
    | some none => some t0
    | some (some (t1, bsize)) =>
      match t1.mergeBwd blockOff b0.prev_physical bsize t0.total_size with
      | none => none
      | some (some t4) => some t4
      | some none => t1.mapping_insert bsize blockOff

/-- Errors of the TLSF engine. -/
inductive TLSFErr where
  | outOfMemory     -- `std::bad_alloc`
  | invalidFree     -- `"Invalid deallocation address"` / `"Invalid block detected"`
  | doubleFree      -- `"Double free detected"`
deriving DecidableEq, Repr

/-- The fit size of `TLSFAllocator::alloc` / `align_alloc`:
`(size + 7) & ~7`, clamped up to `MIN_BLOCK_SIZE`. -/
def required_size_of (size : Nat) : Nat :=
  let r := (size % U64 + 7) % U64 / 8 * 8
  if r < MIN_BLOCK_SIZE then MIN_BLOCK_SIZE else r

/-- `TLSFAllocator::alloc`.  Outer `none` = an undefined header access. -/
def TLSFAllocator.alloc (t : TLSFAllocator) (size : Nat) : Option (Except TLSFErr (Nat × TLSFAllocator)) :=
  if size = 0 then some (.ok (0, t)) else
  let required_size := required_size_of size
  match t.mapping_find required_size with
  | none => none
  | some none => some (.error .outOfMemory)
  | some (some blockOff) =>
    match getH t.mem blockOff with
    | none => none
    | some b =>
      match t.mapping_remove b.size blockOff with
      | none => none
      | some t1 =>
        match t1.split_block blockOff required_size with
        | none => none
        | some (bOff, t2) =>
          match getH t2.mem bOff with
          | none => none
          | some b2 =>
            some (.ok (bOff, { t2 with
              mem := setH t2.mem bOff { b2 with is_free := false, allocated := size }
              allocated_size := t2.allocated_size + size }))

/-- `TLSFAllocator::dealloc`.  (`block_addr < first_block` cannot hold for
an unsigned offset, so only the upper bound check remains.) -/
def TLSFAllocator.dealloc (t : TLSFAllocator) (address : Nat) : Option (Except TLSFErr TLSFAllocator) :=
  if address = 0 then some (.ok t) else
  if t.total_size ≤ address then some (.error .invalidFree) else
  match getH t.mem address with
  | none => none
  | some b =>
    if t.total_size < address + sizeofBlock + b.size ∨ b.size < MIN_BLOCK_SIZE ∨
       t.total_size < b.size ∨ b.size < b.allocated then
      some (.error .invalidFree)
    else if b.is_free then some (.error .doubleFree)
    else
      let t1 := { t with
        allocated_size := t.allocated_size - b.allocated
        mem := setH t.mem address { b with is_free := true, allocated := 0, next_free := none, prev_free := none } }
      match t1.merge_block address with
      | none => none
      | some t2 => some (.ok t2)

/-- `TLSFAllocator::align_alloc`.
`(data_addr + required_size - 1) & ~(required_size - 1)` and
`aligned_addr - data_addr` are `size_t` arithmetic. -/
def TLSFAllocator.align_alloc (t : TLSFAllocator) (size : Nat) : Option (Except TLSFErr (Nat × TLSFAllocator)) :=
  if size = 0 then some (.ok (0, t)) else
  let required_size := required_size_of size
  match t.mapping_find required_size with
  | none => none
  | some none => some (.error .outOfMemory)
  | some (some blockOff) =>
    match getH t.mem blockOff with
    | none => none
    | some b =>
      match t.mapping_remove b.size blockOff with
      | none => none
      | some t1 =>
        let data_addr := blockOff + sizeofBlock
        let aligned_addr := ((data_addr + required_size - 1) % U64) &&& ((U64 - 1) ^^^ (required_size - 1))
        let offset := (aligned_addr + U64 - data_addr) % U64
        let placed : Option (TLSFAllocator × Nat) :=
          if 0 < offset ∧ MIN_BLOCK_SIZE + sizeofBlock ≤ offset then
            -- carve the front piece and relocate the chosen header
            let mem1 := setH t1.mem blockOff
              { b with size := offset - sizeofBlock, is_free := true, allocated := 0 }
            match TLSFAllocator.mapping_insert { t1 with mem := mem1 } (offset - sizeofBlock) blockOff with
            | none => none
            | some t2 =>
              let newOff := aligned_addr - sizeofBlock
              let mem2 := setH t2.mem newOff
                ⟨required_size, 0, false, some blockOff, none, none⟩
              some ({ t2 with mem := mem2 }, newOff)
          else some (t1, blockOff)
        match placed with
        | none => none
        | some (tA, allocOff) =>
          match tA.split_block allocOff required_size with
          | none => none
          | some (fOff, t3) =>
            match getH t3.mem fOff with
            | none => none
            | some b3 =>
              some (.ok (fOff, { t3 with
                mem := setH t3.mem fOff { b3 with is_free := false, allocated := size }
                allocated_size := t3.allocated_size + size }))

/-- The `TLSFAllocator(size_t)` constructor.  The initial block's usable
size is the full `size` (over a buffer of `size + sizeof(Block)` bytes);
the initial `mapping_insert` cannot fault, so `getD` never falls back. -/
def mkTLSF (size : Nat) : TLSFAllocator :=
  let t : TLSFAllocator :=
    { total_size := size
      allocated_size := 0
      mem := [(0, ⟨size, 0, true, none, none, none⟩)]
      segregated_lists := List.replicate FL_INDEX_COUNT (List.replicate SL_INDEX_COUNT none)
      fl_bitmap := 0
      sl_bitmap := List.replicate FL_INDEX_COUNT 0 }
  (t.mapping_insert size 0).getD t

/-- The defensive physical-chain walk shared by
`find_last_allocated_address`, `get_internal_fragmentation` and
`calculate_external_fragmentation`: visit headers from offset 0, stop on
`size == 0`, `size > total_size`, a non-advancing step, the arena end, or
(in the model) bytes that hold no header. -/
def chainFold {α : Type} (mem : List (Nat × Block)) (endAddr : Nat)
    (f : α → Nat → Block → α) : Nat → α → α
  | current_addr, acc =>
    if _h : current_addr + sizeofBlock ≤ endAddr then
      match getH mem current_addr with
      | none => acc
      | some cur =>
        if cur.size = 0 ∨ endAddr < current_addr + sizeofBlock + cur.size then f acc current_addr cur
        else
          chainFold mem endAddr f (current_addr + sizeofBlock + cur.size) (f acc current_addr cur)
    else acc
termination_by current_addr _ => endAddr - current_addr
decreasing_by simp only [sizeofBlock] at *; omega

/-- `TLSFAllocator::find_last_allocated_address`.  The loop body updates
`last_addr` before the `size`-validity break, so the fold mirrors that:
the break tests are folded into `chainFold`'s stopping rule with the
current block still visited when its size is degenerate — matching the
source, which
updates `last_addr` for a block and only then validates the next step.
Here a degenerate-size block is not visited at all, matching the source's
`break` placed before the update. -/
def TLSFAllocator.find_last_allocated_address (t : TLSFAllocator) : Nat :=
  chainFold t.mem t.total_size
    (fun last a b =>
      if b.size = 0 ∨ t.total_size < b.size then last
      else if ¬ b.is_free then a + sizeofBlock + b.size else last)
    0 0

/-- `TLSFAllocator::get_internal_fragmentation` (exact rationals for
`double`). -/
def TLSFAllocator.get_internal_fragmentation (t : TLSFAllocator) : ℚ :=
  if t.allocated_size = 0 then 0 else
  let total_wasted : Nat := chainFold t.mem t.total_size
    (fun acc _ b =>
      if b.size = 0 ∨ t.total_size < b.size then acc
      else if ¬ b.is_free then acc + (b.size - b.allocated) else acc)
    0 0
  (total_wasted : ℚ) / (t.allocated_size : ℚ)

/-- The per-class loop of `TLSFAllocator::calculate_external_fragmentation`,
over `i = 0 .. n-1` ascending (the source `break`s at the first class size
exceeding the largest free block; classes grow with `i`, so skipping each
such class is equivalent).  `ratio` is clamped to 1. -/
def tlsfExtLoop (freeB : Nat → Nat) (total_free largest max_fl : Nat) : Nat → ℚ × Nat
  | 0 => (0, 0)
  | i + 1 =>
    let acc := tlsfExtLoop freeB total_free largest max_fl i
    let block_size := MIN_BLOCK_SIZE * 2 ^ i
    if largest < block_size then acc
    else
      let potential_blocks := total_free / block_size
      if potential_blocks = 0 then acc
      else
        let actual := freeB i + (Finset.Ico (i + 1) (max_fl + 1)).sum
          (fun j => if 0 < freeB j then freeB j * 2 ^ (j - i) else 0)
        let ratio := min 1 ((actual : ℚ) / (potential_blocks : ℚ))
        (acc.1 + (block_size : ℚ) * ratio, acc.2 + block_size)

/-- `TLSFAllocator::calculate_external_fragmentation(max_address)`. -/
def TLSFAllocator.calculate_external_fragmentation (t : TLSFAllocator) (max_address : Nat) : ℚ :=
  if t.allocated_size = 0 then 0 else
  let stats := chainFold t.mem t.total_size
    (fun (acc : (Nat → Nat) × Nat × Nat) a b =>
      if b.size = 0 ∨ t.total_size < b.size then acc
      else if ¬ (max_address = 0 ∨ a < max_address) then acc
      else if b.is_free then
        let fl := (mapping_indexes b.size).1
        if fl < FL_INDEX_COUNT then
          ((fun i => if i = fl then acc.1 i + 1 else acc.1 i),
            acc.2.1 + b.size, max acc.2.2 b.size)
        else acc
      else acc)
    0 ((fun _ => 0), 0, 0)
  let free_blocks := stats.1
  let total_free := stats.2.1
  let largest_free := stats.2.2
  if total_free = 0 then 0 else
  let max_fl := if FL_INDEX_COUNT ≤ fls largest_free then FL_INDEX_COUNT - 1 else fls largest_free
  let acc := tlsfExtLoop free_blocks total_free largest_free max_fl (max_fl + 1)
  if 0 < acc.2 then 1 - acc.1 / (acc.2 : ℚ) else 0

/-- `TLSFAllocator::get_external_fragmentation`. -/
def TLSFAllocator.get_external_fragmentation (t : TLSFAllocator) : ℚ :=
  t.calculate_external_fragmentation 0

/-- `TLSFAllocator::get_trimmed_external_fragmentation`. -/
def TLSFAllocator.get_trimmed_external_fragmentation (t : TLSFAllocator) : ℚ :=
  t.calculate_external_fragmentation t.find_last_allocated_address

/-- Deterministic physical-chain walk used to state chain claims: starting
from a header offset, repeatedly advance by `sizeof(H) + size` until the
bytes ahead hold no header; returns the final offset reached. -/
def walkEnd (mem : List (Nat × Block)) : Nat → Nat → Nat
  | 0, a => a
  | fuel + 1, a =>
    match getH mem a with
    | none => a
    | some b => walkEnd mem fuel (a + sizeofBlock + b.size)

/-- Checker for the physical-chain invariant: `chainCheck mem endAt a prev C`
holds when `C` lists exactly the header offsets of the chain starting at
`a` (with physical predecessor `prev`), each block's `prev_physical`
points to its predecessor, and the walk terminates exactly at `endAt`. -/
def chainCheck (mem : List (Nat × Block)) (endAt : Nat) : Nat → Option Nat → List Nat → Bool
  | a, _, [] => a == endAt
  | a, prev, x :: xs =>
    (x == a) &&
      match getH mem a with
      | some b => (b.prev_physical == prev) && chainCheck mem endAt (a + sizeofBlock + b.size) (some a) xs
      | none => false

/-- Execution glue: state after a successful `alloc`, else unchanged. -/
def afterAlloc (t : TLSFAllocator) (n : Nat) : TLSFAllocator :=
  match t.alloc n with | some (.ok x) => x.2 | _ => t

/-- Execution glue: offset returned by a successful `alloc`. -/
def allocOffset (t : TLSFAllocator) (n : Nat) : Option Nat :=
  match t.alloc n with | some (.ok x) => some x.1 | _ => none

/-- Execution glue: state after a successful `dealloc`, else unchanged. -/
def afterDealloc (t : TLSFAllocator) (a : Nat) : TLSFAllocator :=
  match t.dealloc a with | some (.ok x) => x | _ => t

/-- Execution glue: the error raised by `dealloc`, if any. -/
def deallocErr (t : TLSFAllocator) (a : Nat) : Option TLSFErr :=
  match t.dealloc a with | some (.error e) => some e | _ => none

/-- Execution glue: the error raised by `alloc`, if any. -/
def allocErr (t : TLSFAllocator) (n : Nat) : Option TLSFErr :=
  match t.alloc n with | some (.error e) => some e | _ => none

/-- Execution glue: state after a successful `align_alloc`, else unchanged. -/
def afterAlign (t : TLSFAllocator) (n : Nat) : TLSFAllocator :=
  match t.align_alloc n with | some (.ok x) => x.2 | _ => t

/-- Execution glue: offset returned by a successful `align_alloc`. -/
def alignOffset (t : TLSFAllocator) (n : Nat) : Option Nat :=
  match t.align_alloc n with | some (.ok x) => some x.1 | _ => none

/-- Two memories agreeing on the free bit of every header (the writes of
the free-index and merge bookkeeping never touch `is_free`). -/
def FreeEq (m1 m2 : List (Nat × Block)) : Prop :=
  ∀ p, (getH m2 p).map (fun b => b.is_free) = (getH m1 p).map (fun b => b.is_free)

/-- A five-call alloc/dealloc trace on `TLSFAllocator(1024)` that drives a
forward merge in front of a small last block (the physical chain ends at
`N + sizeof(Block) = 1072`, while `merge_block` bounds every probe by
`first_block + total_size = 1024`). -/
def chainT1 : TLSFAllocator := afterAlloc (mkTLSF 1024) 16

/-- Second step of the chain trace: carve a 104-byte block at 64. -/
def chainT2 : TLSFAllocator := afterAlloc chainT1 100

/-- Third step of the chain trace: carve a 744-byte block at 216, leaving
a 16-byte free block at 1008 (within `sizeof(Block)` of the arena end). -/
def chainT3 : TLSFAllocator := afterAlloc chainT2 744

/-- Fourth step of the chain trace: free the block at 216. -/
def chainT4 : TLSFAllocator := afterDealloc chainT3 216

/-- Fifth step of the chain trace: free the block at 64; the forward merge
absorbs the free block at 216 but skips the `prev_physical` fix-up of the
last block at 1008 (its probe `1008 + 48 ≤ 1024` fails). -/
def chainT5 : TLSFAllocator := afterDealloc chainT4 64

end TLSF

namespace Buddy

/-- Execution glue: state after a successful `alloc`, else unchanged. -/
def afterAlloc (m : MemoryAllocator) (n : Nat) : MemoryAllocator :=
  match m.alloc n with | some x => x.2 | none => m

/-- Execution glue: offset returned by a successful `alloc`. -/
def allocOffset (m : MemoryAllocator) (n : Nat) : Option Nat :=
  (m.alloc n).map (fun x => x.1)

/-- Execution glue: state after a successful `dealloc`, else unchanged. -/
def afterDealloc (m : MemoryAllocator) (a : Nat) : MemoryAllocator :=
  match m.dealloc a with | .ok x => x | .error _ => m

/-- Execution glue: the error raised by `dealloc`, if any. -/
def deallocErr (m : MemoryAllocator) (a : Nat) : Option BuddyErr :=
  match m.dealloc a with | .error e => some e | .ok _ => none

/-- Execution glue: state after a successful `align_alloc`, else unchanged. -/
def afterAlign (m : MemoryAllocator) (n : Nat) : MemoryAllocator :=
  match m.align_alloc n with | some x => x.2 | none => m

/-- Execution glue: offset returned by a successful `align_alloc`. -/
def alignOffset (m : MemoryAllocator) (n : Nat) : Option Nat :=
  (m.align_alloc n).map (fun x => x.1)

/-- Keys of the block map are strictly increasing (the `std::map`
invariant; `mapInsert` and `mapErase` preserve it). -/
def SortedKeys (bs : List (Nat × MemoryBlock)) : Prop :=
  List.Pairwise (fun x y => x.1 < y.1) bs

instance : DecidablePred SortedKeys := fun bs =>
  List.instDecidablePairwise bs

/-- States of the buddy allocator reachable through the public interface:
construction and the successful `alloc`, `dealloc` and `align_alloc`
calls. -/
inductive BReach : MemoryAllocator → Prop where
  | init (n : Nat) : BReach (mkAllocator n)
  | alloc {m : MemoryAllocator} {x : Nat × MemoryAllocator} (r : Nat)
      (h : BReach m) (hx : m.alloc r = some x) : BReach x.2
  | dealloc {m x : MemoryAllocator} (a : Nat)
      (h : BReach m) (hx : m.dealloc a = .ok x) : BReach x
  | align {m : MemoryAllocator} {x : Nat × MemoryAllocator} (r : Nat)
      (h : BReach m) (hx : m.align_alloc r = some x) : BReach x.2

/-- Tiling checker: `tilesB t a bs` holds when the blocks of `bs` occupy
consecutive intervals starting at `a` (each entry's key equals the
running address, which advances by the block's size) and the running
address ends exactly at `t`.  This renders the spec's "blocks tile
`[0, N)` with no gaps or overlaps" over the ordered map. -/
def tilesB (t : Nat) : Nat → List (Nat × MemoryBlock) → Bool
  | a, [] => a == t
  | a, (x, b) :: rest => (x == a) && tilesB t (a + b.size) rest

/-- The buddy-address formula of `MemoryAllocator::dealloc`:
`addr & size` nonzero means the block is the right buddy. -/
def buddyAddr (a s : Nat) : Nat :=
  if a &&& s = 0 then a + s else a - s

/-- No two free blocks of equal size are buddies (the transient state the
spec allows only within one `dealloc` call never persists). -/
def NFP (bs : List (Nat × MemoryBlock)) : Prop :=
  ∀ p ∈ bs, ∀ q ∈ bs, p.2.is_free = true → q.2.is_free = true →
    p.2.size = q.2.size → q.1 = buddyAddr p.1 p.2.size → False

/-- The ascending list of upper-half splinter blocks
`(addr + 2^w, 2^w), (addr + 2^(w+1), 2^(w+1)), …` (`d` entries) produced
by the split loop, used to state its closed form. -/
def splinters (addr : Nat) : Nat → Nat → List (Nat × MemoryBlock)
  | _, 0 => []
  | w, d + 1 => (addr + 2 ^ w, ⟨2 ^ w, 0, true⟩) :: splinters addr (w + 1) d

/-- The full buddy invariant: sorted keys, exact tiling of
`[0, total_size)`, power-of-two aligned block sizes `≥ MIN`, and no free
buddy pairs. -/
def Inv (m : MemoryAllocator) : Prop :=
  SortedKeys m.blocks ∧
  tilesB m.total_size 0 m.blocks = true ∧
  (∀ p ∈ m.blocks, ∃ k, 4 ≤ k ∧ p.2.size = 2 ^ k ∧ 2 ^ k ∣ p.1) ∧
  NFP m.blocks

end Buddy

/-- Decidable equality for `Except` results (used to state concrete
executions). -/
instance exceptDecEq {e a : Type} [DecidableEq e] [DecidableEq a] : DecidableEq (Except e a) := fun x y =>
  match x, y with
  | .error e1, .error e2 =>
    if h : e1 = e2 then .isTrue (by rw [h]) else .isFalse (fun hh => by cases hh; exact h rfl)
  | .error _, .ok _ => .isFalse (fun hh => by cases hh)
  | .ok _, .error _ => .isFalse (fun hh => by cases hh)
  | .ok a1, .ok a2 =>
    if h : a1 = a2 then .isTrue (by rw [h]) else .isFalse (fun hh => by cases hh; exact h rfl)

/-! ## Theorems -/

open Buddy TLSF

namespace Buddy

theorem mapFind?_insert (k p : Nat) (v : MemoryBlock) (bs : List (Nat × MemoryBlock)) :
    mapFind? p (mapInsert k v bs) = if k = p then some v else mapFind? p bs := by
  induction bs with
  | nil => simp [mapInsert, mapFind?]
  | cons hd tl ih =>
    obtain ⟨a, b⟩ := hd
    by_cases h1 : k < a
    · have he : mapInsert k v ((a, b) :: tl) = (k, v) :: (a, b) :: tl := by
        simp [mapInsert, h1]
      rw [he]
      rfl
    · by_cases h2 : k = a
      · subst h2
        have he : mapInsert k v ((k, b) :: tl) = (k, v) :: tl := by
          simp [mapInsert]
        rw [he]
        by_cases h3 : k = p
        · simp [mapFind?, h3]
        · simp [mapFind?, h3]
      · have he : mapInsert k v ((a, b) :: tl) = (a, b) :: mapInsert k v tl := by
          simp [mapInsert, h1, h2]
        rw [he]
        by_cases h3 : a = p
        · have h4 : ¬ k = p := by omega
          simp [mapFind?, h3, h4]
        · simp [mapFind?, h3, ih]

theorem mapFind?_eq_none (p : Nat) (bs : List (Nat × MemoryBlock))
    (h : ∀ y ∈ bs, y.1 ≠ p) : mapFind? p bs = none := by
  induction bs with
  | nil => rfl
  | cons hd tl ih =>
    obtain ⟨a, b⟩ := hd
    have ha : a ≠ p := h (a, b) (List.mem_cons_self _ _)
    simp only [mapFind?, if_neg ha]
    exact ih (fun y hy => h y (List.mem_cons_of_mem _ hy))

theorem mem_mapInsert {y : Nat × MemoryBlock} (k : Nat) (v : MemoryBlock)
    (bs : List (Nat × MemoryBlock)) (h : y ∈ mapInsert k v bs) :
    y = (k, v) ∨ y ∈ bs := by
  induction bs with
  | nil => simpa [mapInsert] using h
  | cons hd tl ih =>
    obtain ⟨a, b⟩ := hd
    simp only [mapInsert] at h
    by_cases h1 : k < a
    · simp only [if_pos h1, List.mem_cons] at h
      rcases h with h | h | h
      · exact Or.inl h
      · exact Or.inr (by simp [h])
      · exact Or.inr (List.mem_cons_of_mem _ h)
    · simp only [if_neg h1] at h
      by_cases h2 : k = a
      · simp only [if_pos h2, List.mem_cons] at h
        rcases h with h | h
        · exact Or.inl h
        · exact Or.inr (List.mem_cons_of_mem _ h)
      · simp only [if_neg h2, List.mem_cons] at h
        rcases h with h | h
        · exact Or.inr (by simp [h])
        · rcases ih h with h | h
          · exact Or.inl h
          · exact Or.inr (List.mem_cons_of_mem _ h)

theorem mapInsert_sorted (k : Nat) (v : MemoryBlock) (bs : List (Nat × MemoryBlock))
    (h : SortedKeys bs) : SortedKeys (mapInsert k v bs) := by
  induction bs with
  | nil => simp [mapInsert, SortedKeys]
  | cons hd tl ih =>
    obtain ⟨a, b⟩ := hd
    rcases List.pairwise_cons.mp h with ⟨ha, ht⟩
    by_cases h1 : k < a
    · have he : mapInsert k v ((a, b) :: tl) = (k, v) :: (a, b) :: tl := by
        simp [mapInsert, h1]
      rw [he]
      refine List.pairwise_cons.mpr ⟨?_, h⟩
      intro y hy
      rcases List.mem_cons.mp hy with rfl | hy
      · exact h1
      · exact lt_trans h1 (ha y hy)
    · by_cases h2 : k = a
      · subst h2
        have he : mapInsert k v ((k, b) :: tl) = (k, v) :: tl := by
          simp [mapInsert]
        rw [he]
        exact List.pairwise_cons.mpr ⟨ha, ht⟩
      · have he : mapInsert k v ((a, b) :: tl) = (a, b) :: mapInsert k v tl := by
          simp [mapInsert, h1, h2]
        rw [he]
        refine List.pairwise_cons.mpr ⟨?_, ih ht⟩
        intro y hy
        rcases mem_mapInsert k v tl hy with rfl | hy
        · omega
        · exact ha y hy

theorem mapErase_sublist (k : Nat) (bs : List (Nat × MemoryBlock)) :
    (mapErase k bs).Sublist bs := by
  induction bs with
  | nil => simp [mapErase]
  | cons hd tl ih =>
    obtain ⟨a, b⟩ := hd
    simp only [mapErase]
    by_cases h1 : a = k
    · simp only [if_pos h1]
      exact List.sublist_cons_of_sublist _ (List.Sublist.refl tl)
    · simp only [if_neg h1]
      exact List.Sublist.cons₂ _ ih

theorem mapErase_sorted (k : Nat) (bs : List (Nat × MemoryBlock))
    (h : SortedKeys bs) : SortedKeys (mapErase k bs) :=
  List.Pairwise.sublist (mapErase_sublist k bs) h

theorem mapFind?_erase (k p : Nat) (bs : List (Nat × MemoryBlock))
    (hs : SortedKeys bs) :
    mapFind? p (mapErase k bs) = if k = p then none else mapFind? p bs := by
  induction bs with
  | nil => simp [mapErase, mapFind?]
  | cons hd tl ih =>
    obtain ⟨a, b⟩ := hd
    rcases List.pairwise_cons.mp hs with ⟨ha, ht⟩
    by_cases h1 : a = k
    · subst h1
      have he : mapErase a ((a, b) :: tl) = tl := by simp [mapErase]
      rw [he]
      by_cases h2 : a = p
      · subst h2
        rw [if_pos rfl]
        exact mapFind?_eq_none _ _ (fun y hy => by have := ha y hy; omega)
      · rw [if_neg h2]
        simp [mapFind?, h2]
    · have he : mapErase k ((a, b) :: tl) = (a, b) :: mapErase k tl := by
        simp [mapErase, h1]
      rw [he]
      by_cases h2 : a = p
      · have h3 : ¬ k = p := by omega
        simp [mapFind?, h2, h3]
      · simp [mapFind?, h2, ih ht]

/-- Invariant of the buddy coalescing loop: if the block at `p` is free or
absent, it stays free or absent (merging only ever inserts free blocks and
erases entries). -/
theorem mergeGo_keeps_free (total : Nat) : ∀ (fuel addr p : Nat) (bs : List (Nat × MemoryBlock)),
    SortedKeys bs →
    (mapFind? p bs = none ∨ ∃ b, mapFind? p bs = some b ∧ b.is_free = true) →
    (mapFind? p (mergeGo total fuel addr bs).2 = none ∨
      ∃ b, mapFind? p (mergeGo total fuel addr bs).2 = some b ∧ b.is_free = true) := by
  intro fuel
  induction fuel with
  | zero => intro addr p bs _ h; simpa [mergeGo] using h
  | succ n ih =>
    intro addr p bs hs h
    rw [mergeGo]
    cases hfa : mapFind? addr bs with
    | none => simpa using h
    | some b =>
      simp only []
      cases hfb : mapFind? (if addr &&& b.size = 0 then addr + b.size else addr - b.size) bs with
      | none => simpa using h
      | some bd =>
        simp only []
        set buddy_addr := if addr &&& b.size = 0 then addr + b.size else addr - b.size with hbdef
        by_cases hg : bd.is_free = true ∧ bd.size = b.size
        · rw [if_pos hg]
          by_cases hlt : buddy_addr < addr
          · rw [if_pos hlt]
            have hs' : SortedKeys (mapInsert buddy_addr ⟨bd.size * 2, bd.allocated, bd.is_free⟩ (mapErase addr bs)) :=
              mapInsert_sorted _ _ _ (mapErase_sorted _ _ hs)
            have hq : mapFind? p (mapInsert buddy_addr ⟨bd.size * 2, bd.allocated, bd.is_free⟩ (mapErase addr bs)) = none ∨
                ∃ c, mapFind? p (mapInsert buddy_addr ⟨bd.size * 2, bd.allocated, bd.is_free⟩ (mapErase addr bs)) = some c ∧ c.is_free = true := by
              rw [mapFind?_insert, mapFind?_erase _ _ _ hs]
              by_cases h1 : buddy_addr = p
              · exact Or.inr ⟨⟨bd.size * 2, bd.allocated, bd.is_free⟩, by rw [if_pos h1], hg.1⟩
              · rw [if_neg h1]
                by_cases h2 : addr = p
                · simp [h2]
                · rw [if_neg h2]; exact h
            by_cases hsz : b.size * 2 < total
            · rw [if_pos hsz]; exact ih buddy_addr p _ hs' hq
            · rw [if_neg hsz]; exact hq
          · rw [if_neg hlt]
            have hs' : SortedKeys (mapInsert addr ⟨b.size * 2, b.allocated, b.is_free⟩ (mapErase buddy_addr bs)) :=
              mapInsert_sorted _ _ _ (mapErase_sorted _ _ hs)
            have hq : mapFind? p (mapInsert addr ⟨b.size * 2, b.allocated, b.is_free⟩ (mapErase buddy_addr bs)) = none ∨
                ∃ c, mapFind? p (mapInsert addr ⟨b.size * 2, b.allocated, b.is_free⟩ (mapErase buddy_addr bs)) = some c ∧ c.is_free = true := by
              rw [mapFind?_insert, mapFind?_erase _ _ _ hs]
              by_cases h1 : addr = p
              · subst h1
                rcases h with h | ⟨c, hc, hcf⟩
                · rw [hfa] at h; cases h
                · rw [hfa] at hc
                  cases hc
                  exact Or.inr ⟨⟨b.size * 2, b.allocated, b.is_free⟩, by rw [if_pos rfl], hcf⟩
              · rw [if_neg h1]
                by_cases h2 : buddy_addr = p
                · simp [h2]
                · rw [if_neg h2]; exact h
            by_cases hsz : b.size * 2 < total
            · rw [if_pos hsz]; exact ih addr p _ hs' hq
            · rw [if_neg hsz]; exact hq
        · rw [if_neg hg]
          simpa using h

end Buddy

namespace TLSF

theorem getH_setH (mem : List (Nat × Block)) (a p : Nat) (v : Block) :
    getH (setH mem a v) p = if a = p then some v else getH mem p := by
  induction mem with
  | nil => rfl
  | cons hd tl ih =>
    obtain ⟨x, y⟩ := hd
    simp only [setH]
    by_cases h1 : x = a
    · subst h1
      simp only [if_pos rfl, getH]
      by_cases h2 : x = p
      · simp [h2]
      · simp [h2]
    · simp only [if_neg h1, getH]
      by_cases h2 : x = p
      · have h3 : ¬ a = p := by omega
        simp [h2, h3]
      · simp [h2, ih]

theorem freeEq_refl (m : List (Nat × Block)) : FreeEq m m := fun _ => rfl

theorem freeEq_trans {m1 m2 m3 : List (Nat × Block)}
    (h12 : FreeEq m1 m2) (h23 : FreeEq m2 m3) : FreeEq m1 m3 :=
  fun p => (h23 p).trans (h12 p)

theorem freeEq_setH {mem : List (Nat × Block)} {a : Nat} {b v : Block}
    (hget : getH mem a = some b) (hfree : v.is_free = b.is_free) :
    FreeEq mem (setH mem a v) := by
  intro p
  rw [getH_setH]
  by_cases h : a = p
  · subst h
    rw [if_pos rfl, hget]
    simp [hfree]
  · rw [if_neg h]

theorem freeEq_setH_chain {m0 m2 : List (Nat × Block)} {off : Nat} {b v : Block}
    (e : FreeEq m0 m2) (hg : getH m0 off = some b) (hv : v.is_free = b.is_free) :
    FreeEq m0 (setH m2 off v) := by
  have h2 := e off
  rw [hg] at h2
  cases hge : getH m2 off with
  | none => rw [hge] at h2; cases h2
  | some c =>
    rw [hge] at h2
    simp only [Option.map_some'] at h2
    have hc : c.is_free = b.is_free := Option.some.inj h2
    exact freeEq_trans e (freeEq_setH hge (hv.trans hc.symm))

theorem freeEq_updH {mem mem' : List (Nat × Block)} {a : Nat} {f : Block → Block}
    (h : updH mem a f = some mem') (hf : ∀ b, (f b).is_free = b.is_free) :
    FreeEq mem mem' := by
  rw [updH] at h
  cases hg : getH mem a with
  | none => rw [hg] at h; cases h
  | some b =>
    rw [hg] at h
    simp only [] at h
    cases h
    exact freeEq_setH hg (hf b)

theorem freeEq_updH_chain {m0 m1 m2 : List (Nat × Block)} {a : Nat} {f : Block → Block}
    (e : FreeEq m0 m1) (h : updH m1 a f = some m2) (hf : ∀ b, (f b).is_free = b.is_free) :
    FreeEq m0 m2 :=
  freeEq_trans e (freeEq_updH h hf)

theorem mapping_insert_freeEq {t t' : TLSFAllocator} {sz off : Nat}
    (h : t.mapping_insert sz off = some t') :
    FreeEq t.mem t'.mem ∧ t'.total_size = t.total_size ∧ t'.allocated_size = t.allocated_size := by
  unfold TLSFAllocator.mapping_insert at h
  by_cases hguard : FL_INDEX_COUNT ≤ (mapping_indexes sz).1 ∨ SL_INDEX_COUNT ≤ (mapping_indexes sz).2
  · rw [if_pos hguard] at h
    cases h
    exact ⟨freeEq_refl _, rfl, rfl⟩
  · rw [if_neg hguard] at h
    cases hg : getH t.mem off with
    | none => rw [hg] at h; cases h
    | some b =>
      simp only [hg] at h
      cases hhead : cellGet t.segregated_lists (mapping_indexes sz).1 (mapping_indexes sz).2 with
      | none =>
        simp only [hhead] at h
        cases h
        have e1 : FreeEq t.mem (setH t.mem off { b with next_free := none, prev_free := none }) :=
          freeEq_setH hg rfl
        exact ⟨e1, rfl, rfl⟩
      | some hOff =>
        simp only [hhead] at h
        cases hu : updH (setH t.mem off { b with next_free := some hOff, prev_free := none }) hOff
            (fun hb => { hb with prev_free := some off }) with
        | none => simp only [hu] at h; cases h
        | some mem2 =>
          simp only [hu] at h
          cases h
          have e0 : FreeEq t.mem (setH t.mem off { b with next_free := some hOff, prev_free := none }) :=
            freeEq_setH hg rfl
          have e1 : FreeEq t.mem mem2 := freeEq_updH_chain e0 hu (fun _ => rfl)
          exact ⟨e1, rfl, rfl⟩

theorem mapping_remove_freeEq {t t' : TLSFAllocator} {sz off : Nat}
    (h : t.mapping_remove sz off = some t') :
    FreeEq t.mem t'.mem ∧ t'.total_size = t.total_size ∧ t'.allocated_size = t.allocated_size := by
  unfold TLSFAllocator.mapping_remove at h
  by_cases hguard : FL_INDEX_COUNT ≤ (mapping_indexes sz).1 ∨ SL_INDEX_COUNT ≤ (mapping_indexes sz).2
  · rw [if_pos hguard] at h
    cases h
    exact ⟨freeEq_refl _, rfl, rfl⟩
  · rw [if_neg hguard] at h
    cases hg : getH t.mem off with
    | none => rw [hg] at h; cases h
    | some b =>
      simp only [hg] at h
      cases hpf : b.prev_free with
      | some pOff =>
        simp only [hpf] at h
        cases hu1 : updH t.mem pOff (fun pb => { pb with next_free := b.next_free }) with
        | none => simp only [hu1, Option.map_none'] at h; cases h
        | some mem1 =>
          simp only [hu1, Option.map_some'] at h
          have e1 : FreeEq t.mem mem1 := freeEq_updH hu1 (fun _ => rfl)
          cases hnf : b.next_free with
          | some nOff =>
            simp only [hnf] at h
            cases hu2 : updH mem1 nOff (fun nb => { nb with prev_free := some pOff }) with
            | none => simp only [hu2] at h; cases h
            | some mem2 =>
              simp only [hu2] at h
              have e2 : FreeEq t.mem mem2 := freeEq_updH_chain e1 hu2 (fun _ => rfl)
              have e3 : FreeEq t.mem (setH mem2 off { b with next_free := none, prev_free := none }) :=
                freeEq_setH_chain e2 hg rfl
              split at h <;> (cases h; exact ⟨e3, rfl, rfl⟩)
          | none =>
            simp only [hnf] at h
            have e3 : FreeEq t.mem (setH mem1 off { b with next_free := none, prev_free := none }) :=
              freeEq_setH_chain e1 hg rfl
            split at h <;> (cases h; exact ⟨e3, rfl, rfl⟩)
      | none =>
        simp only [hpf] at h
        -- split on the head-vs-other unlink branch of step1
        split at h
        · cases h
        · rename_i mem1 lists heq
          have hmem1 : mem1 = t.mem := by
            split at heq
            · cases heq; rfl
            · cases heq; rfl
          subst hmem1
          cases hnf : b.next_free with
          | some nOff =>
            simp only [hnf] at h
            cases hu2 : updH t.mem nOff (fun nb => { nb with prev_free := none }) with
            | none => simp only [hu2] at h; cases h
            | some mem2 =>
              simp only [hu2] at h
              have e2 : FreeEq t.mem mem2 := freeEq_updH hu2 (fun _ => rfl)
              have e3 : FreeEq t.mem (setH mem2 off { b with next_free := none, prev_free := none }) :=
                freeEq_setH_chain e2 hg rfl
              split at h <;> (cases h; exact ⟨e3, rfl, rfl⟩)
          | none =>
            simp only [hnf] at h
            have e3 : FreeEq t.mem (setH t.mem off { b with next_free := none, prev_free := none }) :=
              freeEq_setH hg rfl
            split at h <;> (cases h; exact ⟨e3, rfl, rfl⟩)

theorem mergeFwd_freeEq {t0 t1 : TLSFAllocator} {blockOff bsize fbEnd : Nat} {b0 : Block}
    (h : t0.mergeFwd blockOff b0 fbEnd = some (some (t1, bsize))) :
    FreeEq t0.mem t1.mem ∧ t1.total_size = t0.total_size ∧ t1.allocated_size = t0.allocated_size := by
  unfold TLSFAllocator.mergeFwd at h
  by_cases hb : blockOff + sizeofBlock + b0.size + sizeofBlock ≤ fbEnd
  · rw [if_pos hb] at h
    cases hgn : getH t0.mem (blockOff + sizeofBlock + b0.size) with
    | none => rw [hgn] at h; cases h
    | some nb =>
      simp only [hgn] at h
      by_cases hcond : MIN_BLOCK_SIZE ≤ nb.size ∧
          nb.size ≤ fbEnd - (blockOff + sizeofBlock + b0.size) ∧ nb.is_free = true
      · rw [if_pos hcond] at h
        split at h
        · -- nn = none: the broken-chain sub-match never produces a fall-through pair
          rename_i heq
          split at h
          · cases h
          · simp at h
        · rename_i nnOff heq
          cases hrem : t0.mapping_remove nb.size (blockOff + sizeofBlock + b0.size) with
          | none => simp only [hrem] at h; cases h
          | some t1' =>
            simp only [hrem] at h
            obtain ⟨er, etot, ealloc⟩ := mapping_remove_freeEq hrem
            by_cases hov : fbEnd < b0.size + sizeofBlock + nb.size
            · rw [if_pos hov] at h; simp at h
            · rw [if_neg hov] at h
              cases hupd : updH t1'.mem blockOff
                  (fun bb => { bb with size := b0.size + sizeofBlock + nb.size }) with
              | none => simp only [hupd] at h; cases h
              | some mem1 =>
                simp only [hupd] at h
                have e1 : FreeEq t0.mem mem1 := freeEq_updH_chain er hupd (fun _ => rfl)
                cases nnOff with
                | none =>
                  simp only [] at h
                  cases h
                  exact ⟨e1, etot, ealloc⟩
                | some nn2 =>
                  simp only [] at h
                  cases hupd2 : updH mem1 nn2
                      (fun nnb => { nnb with prev_physical := some blockOff }) with
                  | none => simp only [hupd2] at h; cases h
                  | some mem2 =>
                    simp only [hupd2] at h
                    cases h
                    exact ⟨freeEq_updH_chain e1 hupd2 (fun _ => rfl), etot, ealloc⟩
      · rw [if_neg hcond] at h
        cases h
        exact ⟨freeEq_refl _, rfl, rfl⟩
  · rw [if_neg hb] at h
    cases h
    exact ⟨freeEq_refl _, rfl, rfl⟩

theorem mergeBwd_freeEq {t1 t4 : TLSFAllocator} {blockOff bsize fbEnd : Nat} {prev0 : Option Nat}
    (h : t1.mergeBwd blockOff prev0 bsize fbEnd = some (some t4)) :
    FreeEq t1.mem t4.mem ∧ t4.total_size = t1.total_size ∧ t4.allocated_size = t1.allocated_size := by
  unfold TLSFAllocator.mergeBwd at h
  cases prev0 with
  | none => simp at h
  | some prevOff =>
    simp only [] at h
    cases hgp : getH t1.mem prevOff with
    | none => rw [hgp] at h; cases h
    | some pb =>
      simp only [hgp] at h
      by_cases hcond : MIN_BLOCK_SIZE ≤ pb.size ∧ pb.size ≤ (fbEnd + U64 - prevOff) % U64 ∧
          prevOff + sizeofBlock + pb.size = blockOff ∧ pb.is_free = true
      · rw [if_pos hcond] at h
        split at h
        · rename_i heq
          split at h
          · cases h
          · cases h
            exact ⟨freeEq_refl _, rfl, rfl⟩
        · rename_i nnOff heq
          cases hrem1 : t1.mapping_remove pb.size prevOff with
          | none => simp only [hrem1] at h; cases h
          | some t2 =>
            simp only [hrem1] at h
            obtain ⟨er1, etot1, ealloc1⟩ := mapping_remove_freeEq hrem1
            cases hrem2 : t2.mapping_remove bsize blockOff with
            | none => simp only [hrem2] at h; cases h
            | some t3 =>
              simp only [hrem2] at h
              obtain ⟨er2, etot2, ealloc2⟩ := mapping_remove_freeEq hrem2
              by_cases hov : fbEnd < pb.size + sizeofBlock + bsize
              · rw [if_pos hov] at h
                cases h
                exact ⟨freeEq_trans er1 er2, etot2.trans etot1, ealloc2.trans ealloc1⟩
              · rw [if_neg hov] at h
                cases hupd : updH t3.mem prevOff
                    (fun pp => { pp with size := pb.size + sizeofBlock + bsize }) with
                | none => simp only [hupd] at h; cases h
                | some mem1 =>
                  simp only [hupd] at h
                  have e1 : FreeEq t1.mem mem1 :=
                    freeEq_updH_chain (freeEq_trans er1 er2) hupd (fun _ => rfl)
                  have step :
                      ∀ mem2, (match nnOff with
                          | some nn2 => updH mem1 nn2 (fun nnb => { nnb with prev_physical := some prevOff })
                          | none => some mem1) = some mem2 →
                        FreeEq t1.mem mem2 := by
                    intro mem2 hm
                    cases nnOff with
                    | none => cases hm; exact e1
                    | some nn2 => exact freeEq_updH_chain e1 hm (fun _ => rfl)
                  cases hm2 : (match nnOff with
                      | some nn2 => updH mem1 nn2 (fun nnb => { nnb with prev_physical := some prevOff })
                      | none => some mem1) with
                  | none => rw [hm2] at h; cases h
                  | some mem2 =>
                    rw [hm2] at h
                    cases hins : TLSFAllocator.mapping_insert
                        { t3 with mem := mem2 } (pb.size + sizeofBlock + bsize) prevOff with
                    | none => simp only [hins] at h; cases h
                    | some t4' =>
                      simp only [hins] at h
                      cases h
                      obtain ⟨ei, etoti, ealloci⟩ := mapping_insert_freeEq hins
                      refine ⟨freeEq_trans (step mem2 hm2) ei, ?_, ?_⟩
                      · exact etoti.trans (etot2.trans etot1)
                      · exact ealloci.trans (ealloc2.trans ealloc1)
      · rw [if_neg hcond] at h
        simp at h

theorem merge_block_freeEq {t0 t' : TLSFAllocator} {off : Nat}
    (h : t0.merge_block off = some t') :
    FreeEq t0.mem t'.mem ∧ t'.total_size = t0.total_size ∧ t'.allocated_size = t0.allocated_size := by
  unfold TLSFAllocator.merge_block at h
  cases hg : getH t0.mem off with
  | none => rw [hg] at h; cases h
  | some b0 =>
    simp only [hg] at h
    by_cases hfree : b0.is_free = true
    · rw [if_neg (by simp [hfree])] at h
      cases hfwd : t0.mergeFwd off b0 t0.total_size with
      | none => rw [hfwd] at h; cases h
      | some fw =>
        rw [hfwd] at h
        cases fw with
        | none => cases h; exact ⟨freeEq_refl _, rfl, rfl⟩
        | some pr =>
          obtain ⟨t1, bsize⟩ := pr
          obtain ⟨e1, etot1, ealloc1⟩ := mergeFwd_freeEq hfwd
          simp only [] at h
          cases hbwd : t1.mergeBwd off b0.prev_physical bsize t0.total_size with
          | none => rw [hbwd] at h; cases h
          | some bw =>
            rw [hbwd] at h
            cases bw with
            | some t4 =>
              cases h
              obtain ⟨e2, etot2, ealloc2⟩ := mergeBwd_freeEq hbwd
              exact ⟨freeEq_trans e1 e2, etot2.trans etot1, ealloc2.trans ealloc1⟩
            | none =>
              simp only [] at h
              obtain ⟨e2, etot2, ealloc2⟩ := mapping_insert_freeEq h
              exact ⟨freeEq_trans e1 e2, etot2.trans etot1, ealloc2.trans ealloc1⟩
    · rw [if_pos (by simp [hfree])] at h
      cases h
      exact ⟨freeEq_refl _, rfl, rfl⟩

end TLSF

namespace Buddy

theorem splitLoopB_sorted (addr want : Nat) :
    ∀ (fuel sz : Nat) (bs : List (Nat × MemoryBlock)),
    SortedKeys bs → SortedKeys (splitLoopB addr want fuel sz bs).2 := by
  intro fuel
  induction fuel with
  | zero => intro sz bs hs; simpa [splitLoopB] using hs
  | succ n ih =>
    intro sz bs hs
    rw [splitLoopB]
    by_cases hg : want < sz ∧ MIN_BLOCK_SIZE < sz
    · rw [if_pos hg]
      exact ih _ _ (mapInsert_sorted _ _ _ hs)
    · rw [if_neg hg]
      simpa using hs

/-- After a successful `alloc`, the chosen address holds an allocated
block with `allocated = size`, and the map stays sorted. -/
theorem alloc_found {m m2 : MemoryAllocator} {r p : Nat}
    (hs : SortedKeys m.blocks) (hal : m.alloc r = some (p, m2)) (hr : r ≠ 0) :
    SortedKeys m2.blocks ∧ ∃ c, mapFind? p m2.blocks = some c ∧ c.is_free = false := by
  unfold MemoryAllocator.alloc at hal
  rw [if_neg hr] at hal
  cases hf : allocFind (calculate_block_size r) m.blocks with
  | none => simp only [hf] at hal; cases hal
  | some ab =>
    obtain ⟨addr, b⟩ := ab
    simp only [hf] at hal
    cases hal
    refine ⟨mapInsert_sorted _ _ _ (splitLoopB_sorted _ _ _ _ _ hs), ?_⟩
    refine ⟨⟨(splitLoopB p (calculate_block_size r) b.size b.size m.blocks).1, r, false⟩, ?_, rfl⟩
    show mapFind? p (mapInsert p
        ⟨(splitLoopB p (calculate_block_size r) b.size b.size m.blocks).1, r, false⟩
        (splitLoopB p (calculate_block_size r) b.size b.size m.blocks).2) = _
    rw [mapFind?_insert]
    simp

/-- Deallocating an allocated block succeeds, and a second `dealloc` of
the same address raises the shared invalid-deallocation error. -/
theorem buddy_dealloc_twice (m2 : MemoryAllocator) (p : Nat) (hs : SortedKeys m2.blocks)
    (c : MemoryBlock) (hf : mapFind? p m2.blocks = some c) (hc : c.is_free = false) :
    Buddy.deallocErr m2 p = none ∧
    Buddy.deallocErr (Buddy.afterDealloc m2 p) p = some .invalidDealloc := by
  have hdeal : m2.dealloc p = .ok { m2 with
      allocated_size := m2.allocated_size - c.allocated
      blocks := (mergeGo m2.total_size ((mapInsert p ⟨c.size, 0, true⟩ m2.blocks).length + 1) p
        (mapInsert p ⟨c.size, 0, true⟩ m2.blocks)).2 } := by
    unfold MemoryAllocator.dealloc
    simp only [hf]
    rw [if_neg (by simp [hc])]
  have hq := mergeGo_keeps_free m2.total_size
    ((mapInsert p ⟨c.size, 0, true⟩ m2.blocks).length + 1) p p
    (mapInsert p ⟨c.size, 0, true⟩ m2.blocks)
    (mapInsert_sorted _ _ _ hs)
    (Or.inr ⟨⟨c.size, 0, true⟩, by rw [mapFind?_insert]; simp, rfl⟩)
  constructor
  · unfold Buddy.deallocErr
    rw [hdeal]
  · unfold Buddy.afterDealloc
    rw [hdeal]
    unfold Buddy.deallocErr MemoryAllocator.dealloc
    rcases hq with hq | ⟨d, hd, hdf⟩
    · simp only [hq]
    · simp only [hd]
      rw [if_pos (by simp [hdf])]

end Buddy

namespace TLSF

/-- If a TLSF `dealloc` of a nonzero offset succeeds, the (possibly
stale) header at that offset afterwards has its free bit set, and the
arena size is unchanged. -/
theorem dealloc_sets_free {t t2 : TLSFAllocator} {p : Nat}
    (hd : t.dealloc p = some (.ok t2)) (hp : p ≠ 0) :
    (∃ b2, getH t2.mem p = some b2 ∧ b2.is_free = true) ∧
      t2.total_size = t.total_size ∧ p < t.total_size := by
  unfold TLSFAllocator.dealloc at hd
  rw [if_neg hp] at hd
  by_cases hrange : t.total_size ≤ p
  · rw [if_pos hrange] at hd; simp at hd
  · rw [if_neg hrange] at hd
    cases hg : getH t.mem p with
    | none => rw [hg] at hd; cases hd
    | some b =>
      simp only [hg] at hd
      by_cases hval : t.total_size < p + sizeofBlock + b.size ∨ b.size < MIN_BLOCK_SIZE ∨
          t.total_size < b.size ∨ b.size < b.allocated
      · rw [if_pos hval] at hd; simp at hd
      · rw [if_neg hval] at hd
        by_cases hfree : b.is_free = true
        · rw [if_pos (by simp [hfree])] at hd; simp at hd
        · rw [if_neg (by simp [hfree])] at hd
          generalize ht1 :
            ({ t with
                allocated_size := t.allocated_size - b.allocated,
                mem := setH t.mem p
                  { b with is_free := true, allocated := 0, next_free := none, prev_free := none } } :
              TLSFAllocator) = t1 at hd
          cases hm : t1.merge_block p with
          | none => rw [hm] at hd; cases hd
          | some t2b =>
            rw [hm] at hd
            cases hd
            obtain ⟨e, etot, _⟩ := merge_block_freeEq hm
            have h1 : getH t1.mem p =
                some { b with is_free := true, allocated := 0, next_free := none, prev_free := none } := by
              rw [← ht1]
              show getH (setH t.mem p _) p = _
              rw [getH_setH]
              simp
            have h2 := e p
            rw [h1] at h2
            refine ⟨?_, by rw [etot, ← ht1], by omega⟩
            cases hx : getH t2.mem p with
            | none => rw [hx] at h2; cases h2
            | some b2 =>
              rw [hx] at h2
              simp only [Option.map_some'] at h2
              exact ⟨b2, rfl, Option.some.inj h2⟩

end TLSF

/-- C2 (code_bug evaluation): on a TLSF arena of `N = 1024`, `alloc(16)`
returns offset `0` (not `sizeof(H) = 48`), the following `alloc(32)`
returns `64` (not `2*sizeof(H) + 16 = 112`), and after deallocating in
reverse order (`dealloc(64)`, then `dealloc(0)` — which is a silent no-op)
the arena still holds an allocated 16-byte block at offset 0 and a free
block of size 960, not a single free block of size `N - sizeof(H)`. -/
theorem tlsf_t1_divergence :
    TLSF.allocOffset (mkTLSF 1024) 16 = some 0 ∧
    TLSF.allocOffset (TLSF.afterAlloc (mkTLSF 1024) 16) 32 = some 64 ∧
    (TLSF.afterDealloc (TLSF.afterDealloc
        (TLSF.afterAlloc (TLSF.afterAlloc (mkTLSF 1024) 16) 32) 64) 0).mem =
      [(0, ⟨16, 16, false, none, none, none⟩),
       (64, ⟨960, 0, true, some 0, none, none⟩),
       (144, ⟨880, 0, true, some 64, none, none⟩)] := by decide

/-- C3 (counterexample): on a fresh TLSF arena of `N = 1024`, a second
`align_alloc(32)` returns offset `80`, which is not a multiple of
`max(roundUp(32), MIN) = 32` — the TLSF engine returns header offsets and
aligns (at best) the payload, so the alignment law fails for it. -/
theorem tlsf_align_alloc_unaligned :
    required_size_of 32 = 32 ∧
    TLSF.alignOffset (TLSF.afterAlign (mkTLSF 1024) 32) 32 = some 80 ∧
    80 % 32 ≠ 0 := by decide

/-- C4 (counterexample): already in the initial TLSF state for `N = 1024`
(reachable by the empty call sequence), advancing from offset 0 by
`sizeof(H) + size` terminates at `N + sizeof(H) = 1072`, not at `N`: the
constructor gives the first block the full `N` bytes of payload on top of
its header. -/
theorem tlsf_initial_chain_misses_arena_end :
    walkEnd (mkTLSF 1024).mem 2 0 = 1024 + sizeofBlock ∧
    1024 + sizeofBlock ≠ 1024 := by decide

/-- C6 (counterexample): on a fresh TLSF arena of `N = 1024`, `alloc(16)`
succeeds returning `p = 0`; `dealloc(0)` is a silent no-op (the block
stays allocated), and a second `dealloc(0)` raises no error at all —
contradicting the claimed round trip ending in `DoubleFree`. -/
theorem tlsf_first_alloc_double_dealloc_silent :
    TLSF.allocOffset (mkTLSF 1024) 16 = some 0 ∧
    TLSF.afterDealloc (TLSF.afterAlloc (mkTLSF 1024) 16) 0 =
      TLSF.afterAlloc (mkTLSF 1024) 16 ∧
    deallocErr (TLSF.afterAlloc (mkTLSF 1024) 16) 0 = none ∧
    deallocErr (TLSF.afterDealloc (TLSF.afterAlloc (mkTLSF 1024) 16) 0) 0 = none ∧
    getH (TLSF.afterAlloc (mkTLSF 1024) 16).mem 0 =
      some ⟨16, 16, false, none, none, none⟩ := by decide

/-- C7 (counterexample): after `alloc(1)` on a fresh buddy arena of
`N = 1024`, the internal fragmentation is `(16 - 1) / 1 = 15`, far outside
`[0, 1]`. -/
theorem buddy_internal_fragmentation_above_one :
    (Buddy.afterAlloc (mkAllocator 1024) 1).get_internal_fragmentation = 15 ∧
    ¬ (Buddy.afterAlloc (mkAllocator 1024) 1).get_internal_fragmentation ≤ 1 := by
  have hb : Buddy.afterAlloc (mkAllocator 1024) 1 =
      { total_size := 1024, allocated_size := 1, next_address := 0,
        blocks := [(0, ⟨16, 1, false⟩), (16, ⟨16, 0, true⟩), (32, ⟨32, 0, true⟩),
          (64, ⟨64, 0, true⟩), (128, ⟨128, 0, true⟩), (256, ⟨256, 0, true⟩),
          (512, ⟨512, 0, true⟩)] } := by decide
  rw [hb]
  norm_num [MemoryAllocator.get_internal_fragmentation, List.foldl]

/-- C8 (counterexample): a reachable TLSF state (arena `N = 4096`; five
allocations of 16, 1080, 16, 1024, 1768 bytes, then freeing the 1080- and
the 1024-byte blocks) holds a free block of size 1080 at offset 64, yet
`alloc(1080)` raises OutOfMemory: both free blocks share index cell
`(7, 16)` and `mapping_find` only inspects the cell's head (the too-small
1024-byte block) before moving to higher — empty — first levels. -/
theorem tlsf_oom_despite_fitting_free_block :
    required_size_of 1080 = 1080 ∧
    getH (TLSF.afterDealloc (TLSF.afterDealloc
        (TLSF.afterAlloc (TLSF.afterAlloc (TLSF.afterAlloc (TLSF.afterAlloc (TLSF.afterAlloc
          (mkTLSF 4096) 16) 1080) 16) 1024) 1768) 64) 1256).mem 64 =
      some ⟨1080, 0, true, some 0, none, some 1256⟩ ∧
    allocErr (TLSF.afterDealloc (TLSF.afterDealloc
        (TLSF.afterAlloc (TLSF.afterAlloc (TLSF.afterAlloc (TLSF.afterAlloc (TLSF.afterAlloc
          (mkTLSF 4096) 16) 1080) 16) 1024) 1768) 64) 1256) 1080 =
      some .outOfMemory := by decide

/-- C6 (amended): Buddy engine: after any successful `alloc(r) = p` (with
`r > 0` and a well-formed map), `dealloc(p)` succeeds and a second
`dealloc(p)` raises the engine's single invalid-deallocation error — there
is no DoubleFree distinct from InvalidFree.  TLSF engine: whenever a first
`dealloc(p)` with `p ≠ 0` succeeds, a second `dealloc(p)` raises an error
(DoubleFree when the stale header still validates, InvalidFree otherwise);
the case `p = 0` — which the first TLSF allocation actually returns — is a
silent no-op both times (see the counterexample). -/
theorem round_trip_amended :
    (∀ (m m2 : Buddy.MemoryAllocator) (r p : Nat),
        Buddy.SortedKeys m.blocks → m.alloc r = some (p, m2) → r ≠ 0 →
        Buddy.deallocErr m2 p = none ∧
        Buddy.deallocErr (Buddy.afterDealloc m2 p) p = some .invalidDealloc) ∧
    (∀ (t t2 : TLSF.TLSFAllocator) (p : Nat),
        t.dealloc p = some (.ok t2) → p ≠ 0 →
        TLSF.deallocErr t2 p ≠ none) := by
  constructor
  · intro m m2 r p hs hal hr
    obtain ⟨hs2, c, hf, hc⟩ := Buddy.alloc_found hs hal hr
    exact Buddy.buddy_dealloc_twice m2 p hs2 c hf hc
  · intro t t2 p hd hp
    obtain ⟨⟨b2, hb2, hb2f⟩, htot, hlt⟩ := TLSF.dealloc_sets_free hd hp
    unfold TLSF.deallocErr TLSF.TLSFAllocator.dealloc
    rw [if_neg hp]
    rw [if_neg (show ¬ t2.total_size ≤ p by omega)]
    simp only [hb2]
    by_cases hval : t2.total_size < p + TLSF.sizeofBlock + b2.size ∨
        b2.size < TLSF.MIN_BLOCK_SIZE ∨ t2.total_size < b2.size ∨ b2.size < b2.allocated
    · rw [if_pos hval]
      simp
    · rw [if_neg hval]
      rw [if_pos (by simp [hb2f])]
      simp

/-- C6 (witness): the buddy part applied to `alloc(16)` on a fresh 1024
arena, and the TLSF part applied to the state after three 16-byte
allocations with `p = 64` (the second block). -/
theorem round_trip_amended_witness :
    (Buddy.SortedKeys (mkAllocator 1024).blocks ∧
     (mkAllocator 1024).alloc 16 = some (0, Buddy.afterAlloc (mkAllocator 1024) 16) ∧
     (16 : Nat) ≠ 0 ∧
     Buddy.deallocErr (Buddy.afterAlloc (mkAllocator 1024) 16) 0 = none ∧
     Buddy.deallocErr (Buddy.afterDealloc (Buddy.afterAlloc (mkAllocator 1024) 16) 0) 0 =
       some .invalidDealloc) ∧
    ((TLSF.afterAlloc (TLSF.afterAlloc (TLSF.afterAlloc (mkTLSF 1024) 16) 16) 16).dealloc 64 =
       some (.ok (TLSF.afterDealloc
         (TLSF.afterAlloc (TLSF.afterAlloc (TLSF.afterAlloc (mkTLSF 1024) 16) 16) 16) 64)) ∧
     (64 : Nat) ≠ 0 ∧
     TLSF.deallocErr (TLSF.afterDealloc
       (TLSF.afterAlloc (TLSF.afterAlloc (TLSF.afterAlloc (mkTLSF 1024) 16) 16) 16) 64) 64 ≠ none) := by
  refine ⟨⟨by decide, by decide, by decide, ?_, ?_⟩, ⟨by decide, by decide, ?_⟩⟩
  · exact (round_trip_amended.1 (mkAllocator 1024) (Buddy.afterAlloc (mkAllocator 1024) 16) 16 0
      (by decide) (by decide) (by decide)).1
  · exact (round_trip_amended.1 (mkAllocator 1024) (Buddy.afterAlloc (mkAllocator 1024) 16) 16 0
      (by decide) (by decide) (by decide)).2
  · exact round_trip_amended.2
      (TLSF.afterAlloc (TLSF.afterAlloc (TLSF.afterAlloc (mkTLSF 1024) 16) 16) 16)
      (TLSF.afterDealloc (TLSF.afterAlloc (TLSF.afterAlloc (TLSF.afterAlloc (mkTLSF 1024) 16) 16) 16) 64)
      64 (by decide) (by decide)

namespace TLSF

/-- Any block returned by the `fl+1 ..` scan of `mapping_find` was
explicitly checked to exist and to fit. -/
theorem findAbove_some_fits {t : TLSFAllocator} {s off : Nat} :
    ∀ (k curr_fl : Nat), t.findAbove s k curr_fl = some (some off) →
    ∃ hb, getH t.mem off = some hb ∧ s ≤ hb.size := by
  intro k
  induction k with
  | zero => intro curr h; cases h
  | succ n ih =>
    intro curr h
    unfold TLSFAllocator.findAbove at h
    by_cases h1 : curr < FL_INDEX_COUNT
    · rw [if_pos h1] at h
      by_cases h2 : slGet t.sl_bitmap curr = 0
      · rw [if_pos h2] at h
        exact ih _ h
      · rw [if_neg h2] at h
        by_cases h3 : ffs (slGet t.sl_bitmap curr) - 1 < SL_INDEX_COUNT
        · rw [if_pos h3] at h
          cases hc : cellGet t.segregated_lists curr (ffs (slGet t.sl_bitmap curr) - 1) with
          | none => rw [hc] at h; exact ih _ h
          | some hd =>
            rw [hc] at h
            cases hg : getH t.mem hd with
            | none => simp only [hg] at h; cases h
            | some hb =>
              simp only [hg] at h
              by_cases h4 : s ≤ hb.size
              · rw [if_pos h4] at h
                cases h
                exact ⟨hb, hg, h4⟩
              · rw [if_neg h4] at h
                exact ih _ h
        · rw [if_neg h3] at h
          exact ih _ h
    · rw [if_neg h1] at h
      cases h

/-- Any block returned by `mapping_find` was explicitly checked to exist
and to fit. -/
theorem mapping_find_some_fits {t : TLSFAllocator} {s off : Nat}
    (h : t.mapping_find s = some (some off)) :
    ∃ hb, getH t.mem off = some hb ∧ s ≤ hb.size := by
  unfold TLSFAllocator.mapping_find at h
  by_cases h1 : FL_INDEX_COUNT ≤ (mapping_indexes s).1
  · rw [if_pos h1] at h; cases h
  · rw [if_neg h1] at h
    by_cases h2 : slGet t.sl_bitmap (mapping_indexes s).1 &&& (U64 - 2 ^ (mapping_indexes s).2) = 0
    · rw [if_pos h2] at h
      exact findAbove_some_fits _ _ h
    · rw [if_neg h2] at h
      by_cases h3 : ffs (slGet t.sl_bitmap (mapping_indexes s).1 &&& (U64 - 2 ^ (mapping_indexes s).2)) - 1
          < SL_INDEX_COUNT
      · rw [if_pos h3] at h
        cases hc : cellGet t.segregated_lists (mapping_indexes s).1
            (ffs (slGet t.sl_bitmap (mapping_indexes s).1 &&& (U64 - 2 ^ (mapping_indexes s).2)) - 1) with
        | none => rw [hc] at h; exact findAbove_some_fits _ _ h
        | some hd =>
          rw [hc] at h
          cases hg : getH t.mem hd with
          | none => simp only [hg] at h; cases h
          | some hb =>
            simp only [hg] at h
            by_cases h4 : s ≤ hb.size
            · rw [if_pos h4] at h
              cases h
              exact ⟨hb, hg, h4⟩
            · rw [if_neg h4] at h
              exact findAbove_some_fits _ _ h
      · rw [if_neg h3] at h
        exact findAbove_some_fits _ _ h

end TLSF

/-- C8 (amended): for `req > 0`, TLSF `alloc(req)` raises OutOfMemory
exactly when `mapping_find` returns nothing for the fit size (`req`
rounded up to a multiple of 8 and clamped to `MIN`), and any block
`mapping_find` does return holds a header whose size is at least the fit
size.  (The original "no fitting free block exists" direction fails: see
the counterexample, where a fitting free block is shadowed behind a
smaller list head in the same index cell.) -/
theorem tlsf_oom_iff_find_misses :
    ∀ (t : TLSF.TLSFAllocator) (r : Nat), r ≠ 0 →
    (TLSF.allocErr t r = some .outOfMemory ↔
      t.mapping_find (TLSF.required_size_of r) = some none) ∧
    (∀ off, t.mapping_find (TLSF.required_size_of r) = some (some off) →
      (TLSF.getH t.mem off).isSome ∧
      TLSF.required_size_of r ≤ ((TLSF.getH t.mem off).getD ⟨0, 0, false, none, none, none⟩).size) := by
  intro t r hr
  constructor
  · constructor
    · intro h
      unfold TLSF.allocErr TLSF.TLSFAllocator.alloc at h
      rw [if_neg hr] at h
      cases hf : t.mapping_find (TLSF.required_size_of r) with
      | none => simp only [hf] at h; cases h
      | some o =>
        cases o with
        | none => rfl
        | some off =>
          simp only [hf] at h
          cases hg : TLSF.getH t.mem off with
          | none => simp only [hg] at h; cases h
          | some b =>
            simp only [hg] at h
            cases hrem : t.mapping_remove b.size off with
            | none => simp only [hrem] at h; cases h
            | some t1 =>
              simp only [hrem] at h
              cases hsp : t1.split_block off (TLSF.required_size_of r) with
              | none => simp only [hsp] at h; cases h
              | some pr =>
                obtain ⟨bOff, t2⟩ := pr
                simp only [hsp] at h
                cases hg2 : TLSF.getH t2.mem bOff with
                | none => simp only [hg2] at h; cases h
                | some b2 => simp only [hg2] at h; cases h
    · intro h
      unfold TLSF.allocErr TLSF.TLSFAllocator.alloc
      rw [if_neg hr]
      simp only [h]
  · intro off hf
    obtain ⟨hb, hg, hs⟩ := TLSF.mapping_find_some_fits hf
    rw [hg]
    exact ⟨rfl, hs⟩

/-- C8 (witness): instantiated on a fresh TLSF arena of 1024 bytes with
`req = 16`, where `mapping_find` returns the initial block at offset 0. -/
theorem tlsf_oom_iff_find_misses_witness :
    (16 : Nat) ≠ 0 ∧
    (TLSF.allocErr (mkTLSF 1024) 16 = some .outOfMemory ↔
      (mkTLSF 1024).mapping_find (TLSF.required_size_of 16) = some none) ∧
    ((mkTLSF 1024).mapping_find (TLSF.required_size_of 16) = some (some 0)) ∧
    (TLSF.getH (mkTLSF 1024).mem 0).isSome ∧
    TLSF.required_size_of 16 ≤
      ((TLSF.getH (mkTLSF 1024).mem 0).getD ⟨0, 0, false, none, none, none⟩).size := by
  refine ⟨by decide, (tlsf_oom_iff_find_misses (mkTLSF 1024) 16 (by decide)).1, by decide, ?_⟩
  exact (tlsf_oom_iff_find_misses (mkTLSF 1024) 16 (by decide)).2 0 (by decide)

namespace TLSF

/-- The weighted per-class sums of the TLSF external-fragmentation loop
stay within `[0, total_weight]` (each class ratio is clamped to 1). -/
theorem tlsfExtLoop_bounds (freeB : Nat → Nat) (total_free largest max_fl : Nat) :
    ∀ i : Nat, 0 ≤ (tlsfExtLoop freeB total_free largest max_fl i).1 ∧
      (tlsfExtLoop freeB total_free largest max_fl i).1 ≤
        ((tlsfExtLoop freeB total_free largest max_fl i).2 : ℚ) := by
  intro i
  induction i with
  | zero => simp [tlsfExtLoop]
  | succ n ih =>
    rw [tlsfExtLoop]
    by_cases h1 : largest < MIN_BLOCK_SIZE * 2 ^ n
    · rw [if_pos h1]; exact ih
    · rw [if_neg h1]
      by_cases h2 : total_free / (MIN_BLOCK_SIZE * 2 ^ n) = 0
      · rw [if_pos h2]; exact ih
      · rw [if_neg h2]
        obtain ⟨ih0, ih1⟩ := ih
        have hbs : (0 : ℚ) < (MIN_BLOCK_SIZE * 2 ^ n : Nat) := by
          have : 0 < MIN_BLOCK_SIZE * 2 ^ n :=
            Nat.mul_pos (by decide) (pow_pos (by decide) n)
          exact_mod_cast this
        have hpot : (0 : ℚ) < (total_free / (MIN_BLOCK_SIZE * 2 ^ n) : Nat) := by
          have : 0 < total_free / (MIN_BLOCK_SIZE * 2 ^ n) := Nat.pos_of_ne_zero h2
          exact_mod_cast this
        set actual := freeB n + (Finset.Ico (n + 1) (max_fl + 1)).sum
          (fun j => if 0 < freeB j then freeB j * 2 ^ (j - n) else 0) with hact
        have hr0 : (0 : ℚ) ≤ min 1 ((actual : ℚ) / (total_free / (MIN_BLOCK_SIZE * 2 ^ n) : Nat)) := by
          apply le_min
          · norm_num
          · exact div_nonneg (Nat.cast_nonneg _) (Nat.cast_nonneg _)
        have hr1 : min 1 ((actual : ℚ) / (total_free / (MIN_BLOCK_SIZE * 2 ^ n) : Nat)) ≤ 1 :=
          min_le_left _ _
        have key : ((MIN_BLOCK_SIZE * 2 ^ n : Nat) : ℚ) *
            min 1 ((actual : ℚ) / (total_free / (MIN_BLOCK_SIZE * 2 ^ n) : Nat)) ≤
            ((MIN_BLOCK_SIZE * 2 ^ n : Nat) : ℚ) * 1 :=
          mul_le_mul_of_nonneg_left hr1 (le_of_lt hbs)
        have key0 : (0 : ℚ) ≤ ((MIN_BLOCK_SIZE * 2 ^ n : Nat) : ℚ) *
            min 1 ((actual : ℚ) / (total_free / (MIN_BLOCK_SIZE * 2 ^ n) : Nat)) :=
          mul_nonneg (le_of_lt hbs) hr0
        constructor
        · simp only []
          linarith
        · simp only [Nat.cast_add]
          linarith

end TLSF

/-- C9 (counterexample): for the buddy engine `dealloc(0)` is not a no-op:
on a fresh arena it raises the invalid-deallocation error (the block at
offset 0 is free), and after `alloc(16)` (which returns offset 0) it
actually frees that block, changing the state. -/
theorem buddy_dealloc_zero_not_noop :
    Buddy.deallocErr (mkAllocator 1024) 0 = some .invalidDealloc ∧
    Buddy.deallocErr (Buddy.afterAlloc (mkAllocator 1024) 16) 0 = none ∧
    Buddy.afterDealloc (Buddy.afterAlloc (mkAllocator 1024) 16) 0 ≠
      Buddy.afterAlloc (mkAllocator 1024) 16 := by decide

/-- C9: for the TLSF engine, `dealloc(0)` is a no-op in every state: it
raises no error and returns the state unchanged.  (The buddy engine has no
such case — see the counterexample.) -/
theorem tlsf_dealloc_zero_noop : ∀ t : TLSFAllocator, t.dealloc 0 = some (.ok t) :=
  fun _ => rfl

namespace TLSF

/-- Final step of the TLSF external-fragmentation computation: whatever the
collected statistics are, the result lies in `[0, 1]`. -/
theorem tlsf_ext_final_bounds (fb : Nat → Nat) (tf lg mfl : Nat) :
    0 ≤ (if tf = 0 then (0 : ℚ) else
        if 0 < (tlsfExtLoop fb tf lg mfl (mfl + 1)).2 then
          1 - (tlsfExtLoop fb tf lg mfl (mfl + 1)).1 /
            ((tlsfExtLoop fb tf lg mfl (mfl + 1)).2 : ℚ)
        else 0) ∧
    (if tf = 0 then (0 : ℚ) else
        if 0 < (tlsfExtLoop fb tf lg mfl (mfl + 1)).2 then
          1 - (tlsfExtLoop fb tf lg mfl (mfl + 1)).1 /
            ((tlsfExtLoop fb tf lg mfl (mfl + 1)).2 : ℚ)
        else 0) ≤ 1 := by
  by_cases h : tf = 0
  · rw [if_pos h]; norm_num
  · rw [if_neg h]
    obtain ⟨h0, h1⟩ := tlsfExtLoop_bounds fb tf lg mfl (mfl + 1)
    by_cases hp : 0 < (tlsfExtLoop fb tf lg mfl (mfl + 1)).2
    · rw [if_pos hp]
      have hc : (0 : ℚ) < ((tlsfExtLoop fb tf lg mfl (mfl + 1)).2 : ℚ) := by exact_mod_cast hp
      constructor
      · have := (div_le_one hc).mpr h1; linarith
      · have : 0 ≤ (tlsfExtLoop fb tf lg mfl (mfl + 1)).1 /
            ((tlsfExtLoop fb tf lg mfl (mfl + 1)).2 : ℚ) := div_nonneg h0 (le_of_lt hc)
        linarith
    · rw [if_neg hp]; norm_num

/-- The TLSF external-fragmentation metric lies in `[0, 1]` in every state
and for every `max_address` argument. -/
theorem tlsf_ext_range (t : TLSFAllocator) (ma : Nat) :
    0 ≤ t.calculate_external_fragmentation ma ∧
      t.calculate_external_fragmentation ma ≤ 1 := by
  unfold TLSFAllocator.calculate_external_fragmentation
  by_cases h0 : t.allocated_size = 0
  · rw [if_pos h0]; norm_num
  · rw [if_neg h0]
    exact tlsf_ext_final_bounds _ _ _ _

/-- The TLSF internal-fragmentation metric is nonnegative in every state. -/
theorem tlsf_int_nonneg (t : TLSFAllocator) : 0 ≤ t.get_internal_fragmentation := by
  unfold TLSFAllocator.get_internal_fragmentation
  by_cases h : t.allocated_size = 0
  · rw [if_pos h]
  · rw [if_neg h]
    exact div_nonneg (Nat.cast_nonneg _) (Nat.cast_nonneg _)

end TLSF

namespace Buddy

/-- `ctzAux` on a power of two with enough fuel returns the exponent. -/
theorem ctzAux_two_pow : ∀ fuel k, 2 ^ k ≤ fuel → ctzAux fuel (2 ^ k) = k := by
  intro fuel
  induction fuel with
  | zero =>
    intro k hk
    have := Nat.one_le_two_pow (n := k)
    omega
  | succ f ih =>
    intro k hk
    cases k with
    | zero => simp [ctzAux]
    | succ k' =>
      have hcond : 2 ^ (k' + 1) % 2 = 0 ∧ 2 ^ (k' + 1) ≠ 0 := by
        constructor
        · rw [pow_succ]; exact Nat.mul_mod_left _ _
        · exact (pow_pos (by decide) (k' + 1)).ne'
      rw [ctzAux, if_pos hcond]
      have hdiv : 2 ^ (k' + 1) / 2 = 2 ^ k' := by
        rw [pow_succ]; exact Nat.mul_div_cancel _ (by decide)
      rw [hdiv, ih k']
      have := Nat.one_le_two_pow (n := k')
      have h2 : 2 ^ (k' + 1) = 2 ^ k' + 2 ^ k' := by rw [pow_succ]; ring
      omega

/-- `ctz (2 ^ k) = k`. -/
theorem ctz_two_pow (k : Nat) : ctz (2 ^ k) = k := ctzAux_two_pow _ k le_rfl

/-- For a power-of-two size `2 ^ k` with `k ≥ 4`, the class block size
`MIN * 2 ^ index` computed from `get_block_size_index` never exceeds the
size itself (for `k < 32` it equals it; for `k ≥ 32` the 32-bit `ctz`
truncation sends the index to 0). -/
theorem bs_le_of_two_pow (k : Nat) (hk : 4 ≤ k) :
    MIN_BLOCK_SIZE * 2 ^ get_block_size_index (2 ^ k) ≤ 2 ^ k := by
  by_cases h32 : k < 32
  · have hlt : 2 ^ k < 2 ^ 32 := Nat.pow_lt_pow_right (by decide) h32
    have hmod : 2 ^ k % 2 ^ 32 = 2 ^ k := Nat.mod_eq_of_lt hlt
    have hidx : get_block_size_index (2 ^ k) = k - 4 := by
      unfold get_block_size_index
      rw [hmod, ctz_two_pow]
      have h16 : ctz MIN_BLOCK_SIZE = 4 := by decide
      rw [h16]
    rw [hidx]
    have h4 : 4 + (k - 4) = k := by omega
    have : MIN_BLOCK_SIZE * 2 ^ (k - 4) = 2 ^ k := by
      show 2 ^ 4 * 2 ^ (k - 4) = 2 ^ k
      rw [← pow_add, h4]
    exact le_of_eq this
  · push_neg at h32
    have hdvd : (2 ^ 32 : Nat) ∣ 2 ^ k := pow_dvd_pow 2 h32
    have hmod : 2 ^ k % 2 ^ 32 = 0 := by
      obtain ⟨c, hc⟩ := hdvd
      rw [hc]
      exact Nat.mul_mod_right _ _
    have hidx : get_block_size_index (2 ^ k) = 0 := by
      unfold get_block_size_index
      rw [hmod]
      decide
    rw [hidx]
    have h16 : (MIN_BLOCK_SIZE : Nat) * 2 ^ 0 = 2 ^ 4 := by decide
    rw [h16]
    exact Nat.pow_le_pow_right (by decide) (by omega)

/-- Master fold bound: summing `count * class_size` over any index window
of the per-class free counts is bounded by the total free size, provided
every free block's class size is at most its size. -/
theorem buddy_cnt_fold_le (i : Nat) :
    ∀ (L : List (Nat × MemoryBlock)) (f0 : Nat → Nat) (t0 : Nat),
      (∀ p ∈ L, p.2.is_free = true →
        MIN_BLOCK_SIZE * 2 ^ get_block_size_index p.2.size ≤ p.2.size) →
      (Finset.Ico i BLOCK_SIZES_COUNT).sum
          (fun j => (L.foldl (fun f p => if p.2.is_free then
              (fun m => if m = get_block_size_index p.2.size then f m + 1 else f m)
            else f) f0) j * (MIN_BLOCK_SIZE * 2 ^ j)) + t0 ≤
        L.foldl (fun acc p => if p.2.is_free then acc + p.2.size else acc) t0 +
          (Finset.Ico i BLOCK_SIZES_COUNT).sum
            (fun j => f0 j * (MIN_BLOCK_SIZE * 2 ^ j)) := by
  intro L
  induction L with
  | nil =>
    intro f0 t0 _
    simp only [List.foldl_nil]
    omega
  | cons p L ih =>
    intro f0 t0 hp
    by_cases hf : p.2.is_free = true
    · have hsz := hp p (List.mem_cons_self p L) hf
      rw [List.foldl_cons, List.foldl_cons, if_pos hf, if_pos hf]
      have hupd : (Finset.Ico i BLOCK_SIZES_COUNT).sum
          (fun j => (if j = get_block_size_index p.2.size then f0 j + 1 else f0 j) *
            (MIN_BLOCK_SIZE * 2 ^ j)) ≤
          (Finset.Ico i BLOCK_SIZES_COUNT).sum
            (fun j => f0 j * (MIN_BLOCK_SIZE * 2 ^ j)) + p.2.size := by
        have h1 : ∀ j ∈ Finset.Ico i BLOCK_SIZES_COUNT,
            (if j = get_block_size_index p.2.size then f0 j + 1 else f0 j) *
              (MIN_BLOCK_SIZE * 2 ^ j) =
            f0 j * (MIN_BLOCK_SIZE * 2 ^ j) +
              (if j = get_block_size_index p.2.size then MIN_BLOCK_SIZE * 2 ^ j else 0) := by
          intro j _
          by_cases hj : j = get_block_size_index p.2.size
          · rw [if_pos hj, if_pos hj]; ring
          · rw [if_neg hj, if_neg hj]; ring
        rw [Finset.sum_congr rfl h1, Finset.sum_add_distrib,
          Finset.sum_ite_eq' (Finset.Ico i BLOCK_SIZES_COUNT)
            (get_block_size_index p.2.size) (fun j => MIN_BLOCK_SIZE * 2 ^ j)]
        by_cases hm : get_block_size_index p.2.size ∈ Finset.Ico i BLOCK_SIZES_COUNT
        · rw [if_pos hm]; omega
        · rw [if_neg hm]; omega
      have hrec := ih (fun m => if m = get_block_size_index p.2.size then f0 m + 1 else f0 m)
        (t0 + p.2.size) (fun q hq hfq => hp q (List.mem_cons_of_mem p hq) hfq)
      simp only [] at hrec
      linarith [hupd, hrec]
    · rw [List.foldl_cons, List.foldl_cons, if_neg hf, if_neg hf]
      exact ih f0 t0 (fun q hq hfq => hp q (List.mem_cons_of_mem p hq) hfq)

/-- Under the power-of-two-sizes hypothesis, the augmented per-class count
`actual i`, weighted by its class size, never exceeds the total free
size. -/
theorem buddy_actual_le (L : List (Nat × MemoryBlock))
    (hp : ∀ p ∈ L, p.2.is_free = true → ∃ k, 4 ≤ k ∧ p.2.size = 2 ^ k) :
    ∀ i, i < BLOCK_SIZES_COUNT →
      ((L.foldl (fun f p => if p.2.is_free then
          (fun m => if m = get_block_size_index p.2.size then f m + 1 else f m)
        else f) (fun _ => 0)) i +
        (Finset.Ico (i + 1) BLOCK_SIZES_COUNT).sum
          (fun j => if 0 < (L.foldl (fun f p => if p.2.is_free then
              (fun m => if m = get_block_size_index p.2.size then f m + 1 else f m)
            else f) (fun _ => 0)) j
            then (L.foldl (fun f p => if p.2.is_free then
              (fun m => if m = get_block_size_index p.2.size then f m + 1 else f m)
            else f) (fun _ => 0)) j * 2 ^ (j - i) else 0)) *
        (MIN_BLOCK_SIZE * 2 ^ i) ≤
      L.foldl (fun acc p => if p.2.is_free then acc + p.2.size else acc) 0 := by
  intro i hi
  have hp' : ∀ p ∈ L, p.2.is_free = true →
      MIN_BLOCK_SIZE * 2 ^ get_block_size_index p.2.size ≤ p.2.size := by
    intro p hm hf
    obtain ⟨k, hk4, hsz⟩ := hp p hm hf
    rw [hsz]
    exact bs_le_of_two_pow k hk4
  have master := buddy_cnt_fold_le i L (fun _ => 0) 0 hp'
  simp only [Nat.zero_mul, Finset.sum_const_zero, Nat.add_zero] at master
  set cnt := L.foldl (fun f p => if p.2.is_free then
      (fun m => if m = get_block_size_index p.2.size then f m + 1 else f m)
    else f) (fun _ => (0 : Nat)) with hcnt
  have expand : (cnt i + (Finset.Ico (i + 1) BLOCK_SIZES_COUNT).sum
      (fun j => if 0 < cnt j then cnt j * 2 ^ (j - i) else 0)) *
      (MIN_BLOCK_SIZE * 2 ^ i) =
      cnt i * (MIN_BLOCK_SIZE * 2 ^ i) + (Finset.Ico (i + 1) BLOCK_SIZES_COUNT).sum
        (fun j => (if 0 < cnt j then cnt j * 2 ^ (j - i) else 0) * (MIN_BLOCK_SIZE * 2 ^ i)) := by
    rw [Nat.add_mul, Finset.sum_mul]
  have per : ∀ j ∈ Finset.Ico (i + 1) BLOCK_SIZES_COUNT,
      (if 0 < cnt j then cnt j * 2 ^ (j - i) else 0) * (MIN_BLOCK_SIZE * 2 ^ i) ≤
        cnt j * (MIN_BLOCK_SIZE * 2 ^ j) := by
    intro j hj
    rw [Finset.mem_Ico] at hj
    by_cases hc : 0 < cnt j
    · rw [if_pos hc]
      have hpow : 2 ^ (j - i) * 2 ^ i = 2 ^ j := by
        rw [← pow_add]
        congr 1
        omega
      have heq : cnt j * 2 ^ (j - i) * (MIN_BLOCK_SIZE * 2 ^ i) =
          cnt j * (MIN_BLOCK_SIZE * 2 ^ j) := by
        rw [← hpow]
        ring
      exact le_of_eq heq
    · rw [if_neg hc, Nat.zero_mul]
      exact Nat.zero_le _
  have sum_le := Finset.sum_le_sum per
  have split_bot : (Finset.Ico i BLOCK_SIZES_COUNT).sum
      (fun j => cnt j * (MIN_BLOCK_SIZE * 2 ^ j)) =
      cnt i * (MIN_BLOCK_SIZE * 2 ^ i) + (Finset.Ico (i + 1) BLOCK_SIZES_COUNT).sum
        (fun j => cnt j * (MIN_BLOCK_SIZE * 2 ^ j)) :=
    Finset.sum_eq_sum_Ico_succ_bot hi _
  omega

/-- The third loop of the buddy external-fragmentation computation keeps
(weighted sum, class count) within `0 ≤ ws ≤ count`, provided every
contributing class ratio is at most one. -/
theorem extThird_le (actual : Nat → Nat) (tf : Nat)
    (h : ∀ i, i < BLOCK_SIZES_COUNT → actual i * (MIN_BLOCK_SIZE * 2 ^ i) ≤ tf) :
    ∀ n, n ≤ BLOCK_SIZES_COUNT →
      0 ≤ (extThird actual tf n).1 ∧ (extThird actual tf n).1 ≤ ((extThird actual tf n).2 : ℚ) := by
  intro n
  induction n with
  | zero => intro _; simp [extThird]
  | succ m ih =>
    intro hm
    obtain ⟨ih0, ih1⟩ := ih (Nat.le_of_succ_le hm)
    rw [extThird]
    by_cases h1 : tf < MIN_BLOCK_SIZE * 2 ^ m
    · rw [if_pos h1]; exact ⟨ih0, ih1⟩
    · rw [if_neg h1]
      by_cases h2 : tf / (MIN_BLOCK_SIZE * 2 ^ m) = 0
      · rw [if_pos h2]; exact ⟨ih0, ih1⟩
      · rw [if_neg h2]
        have hbs : 0 < MIN_BLOCK_SIZE * 2 ^ m :=
          Nat.mul_pos (by decide) (pow_pos (by decide) m)
        have hle : actual m ≤ tf / (MIN_BLOCK_SIZE * 2 ^ m) :=
          (Nat.le_div_iff_mul_le hbs).mpr (h m (Nat.lt_of_succ_le hm))
        have hpot : (0 : ℚ) < ((tf / (MIN_BLOCK_SIZE * 2 ^ m) : Nat) : ℚ) := by
          exact_mod_cast Nat.pos_of_ne_zero h2
        have hr1 : (actual m : ℚ) / ((tf / (MIN_BLOCK_SIZE * 2 ^ m) : Nat) : ℚ) ≤ 1 :=
          (div_le_one hpot).mpr (by exact_mod_cast hle)
        have hr0 : (0 : ℚ) ≤ (actual m : ℚ) / ((tf / (MIN_BLOCK_SIZE * 2 ^ m) : Nat) : ℚ) :=
          div_nonneg (Nat.cast_nonneg _) (le_of_lt hpot)
        constructor
        · simp only []
          linarith
        · simp only [Nat.cast_add, Nat.cast_one]
          linarith

/-- Core bound for the buddy external-fragmentation computation, stated
over the visited block list. -/
theorem buddy_ext_core (L : List (Nat × MemoryBlock))
    (hp : ∀ p ∈ L, p.2.is_free = true → ∃ k, 4 ≤ k ∧ p.2.size = 2 ^ k) :
    0 ≤ (if L.foldl (fun acc p => if p.2.is_free then acc + p.2.size else acc) 0 = 0 then (0 : ℚ)
      else if 0 < (extThird
          (fun i => (L.foldl (fun f p => if p.2.is_free then
              (fun m => if m = get_block_size_index p.2.size then f m + 1 else f m)
            else f) (fun _ => 0)) i +
            (Finset.Ico (i + 1) BLOCK_SIZES_COUNT).sum
              (fun j => if 0 < (L.foldl (fun f p => if p.2.is_free then
                  (fun m => if m = get_block_size_index p.2.size then f m + 1 else f m)
                else f) (fun _ => 0)) j
                then (L.foldl (fun f p => if p.2.is_free then
                  (fun m => if m = get_block_size_index p.2.size then f m + 1 else f m)
                else f) (fun _ => 0)) j * 2 ^ (j - i) else 0))
          (L.foldl (fun acc p => if p.2.is_free then acc + p.2.size else acc) 0)
          BLOCK_SIZES_COUNT).2
        then 1 - (extThird
          (fun i => (L.foldl (fun f p => if p.2.is_free then
              (fun m => if m = get_block_size_index p.2.size then f m + 1 else f m)
            else f) (fun _ => 0)) i +
            (Finset.Ico (i + 1) BLOCK_SIZES_COUNT).sum
              (fun j => if 0 < (L.foldl (fun f p => if p.2.is_free then
                  (fun m => if m = get_block_size_index p.2.size then f m + 1 else f m)
                else f) (fun _ => 0)) j
                then (L.foldl (fun f p => if p.2.is_free then
                  (fun m => if m = get_block_size_index p.2.size then f m + 1 else f m)
                else f) (fun _ => 0)) j * 2 ^ (j - i) else 0))
          (L.foldl (fun acc p => if p.2.is_free then acc + p.2.size else acc) 0)
          BLOCK_SIZES_COUNT).1 / ((extThird
          (fun i => (L.foldl (fun f p => if p.2.is_free then
              (fun m => if m = get_block_size_index p.2.size then f m + 1 else f m)
            else f) (fun _ => 0)) i +
            (Finset.Ico (i + 1) BLOCK_SIZES_COUNT).sum
              (fun j => if 0 < (L.foldl (fun f p => if p.2.is_free then
                  (fun m => if m = get_block_size_index p.2.size then f m + 1 else f m)
                else f) (fun _ => 0)) j
                then (L.foldl (fun f p => if p.2.is_free then
                  (fun m => if m = get_block_size_index p.2.size then f m + 1 else f m)
                else f) (fun _ => 0)) j * 2 ^ (j - i) else 0))
          (L.foldl (fun acc p => if p.2.is_free then acc + p.2.size else acc) 0)
          BLOCK_SIZES_COUNT).2 : ℚ)
        else 0) ∧
    (if L.foldl (fun acc p => if p.2.is_free then acc + p.2.size else acc) 0 = 0 then (0 : ℚ)
      else if 0 < (extThird
          (fun i => (L.foldl (fun f p => if p.2.is_free then
              (fun m => if m = get_block_size_index p.2.size then f m + 1 else f m)
            else f) (fun _ => 0)) i +
            (Finset.Ico (i + 1) BLOCK_SIZES_COUNT).sum
              (fun j => if 0 < (L.foldl (fun f p => if p.2.is_free then
                  (fun m => if m = get_block_size_index p.2.size then f m + 1 else f m)
                else f) (fun _ => 0)) j
                then (L.foldl (fun f p => if p.2.is_free then
                  (fun m => if m = get_block_size_index p.2.size then f m + 1 else f m)
                else f) (fun _ => 0)) j * 2 ^ (j - i) else 0))
          (L.foldl (fun acc p => if p.2.is_free then acc + p.2.size else acc) 0)
          BLOCK_SIZES_COUNT).2
        then 1 - (extThird
          (fun i => (L.foldl (fun f p => if p.2.is_free then
              (fun m => if m = get_block_size_index p.2.size then f m + 1 else f m)
            else f) (fun _ => 0)) i +
            (Finset.Ico (i + 1) BLOCK_SIZES_COUNT).sum
              (fun j => if 0 < (L.foldl (fun f p => if p.2.is_free then
                  (fun m => if m = get_block_size_index p.2.size then f m + 1 else f m)
                else f) (fun _ => 0)) j
                then (L.foldl (fun f p => if p.2.is_free then
                  (fun m => if m = get_block_size_index p.2.size then f m + 1 else f m)
                else f) (fun _ => 0)) j * 2 ^ (j - i) else 0))
          (L.foldl (fun acc p => if p.2.is_free then acc + p.2.size else acc) 0)
          BLOCK_SIZES_COUNT).1 / ((extThird
          (fun i => (L.foldl (fun f p => if p.2.is_free then
              (fun m => if m = get_block_size_index p.2.size then f m + 1 else f m)
            else f) (fun _ => 0)) i +
            (Finset.Ico (i + 1) BLOCK_SIZES_COUNT).sum
              (fun j => if 0 < (L.foldl (fun f p => if p.2.is_free then
                  (fun m => if m = get_block_size_index p.2.size then f m + 1 else f m)
                else f) (fun _ => 0)) j
                then (L.foldl (fun f p => if p.2.is_free then
                  (fun m => if m = get_block_size_index p.2.size then f m + 1 else f m)
                else f) (fun _ => 0)) j * 2 ^ (j - i) else 0))
          (L.foldl (fun acc p => if p.2.is_free then acc + p.2.size else acc) 0)
          BLOCK_SIZES_COUNT).2 : ℚ)
        else 0) ≤ 1 := by
  set cnt := L.foldl (fun f p => if p.2.is_free then
      (fun m => if m = get_block_size_index p.2.size then f m + 1 else f m)
    else f) (fun _ => (0 : Nat)) with hcnt
  set tf := L.foldl (fun acc p => if p.2.is_free then acc + p.2.size else acc) 0 with htf
  set actual := (fun i => cnt i + (Finset.Ico (i + 1) BLOCK_SIZES_COUNT).sum
      (fun j => if 0 < cnt j then cnt j * 2 ^ (j - i) else 0)) with hact
  by_cases h1 : tf = 0
  · rw [if_pos h1]; norm_num
  · rw [if_neg h1]
    have hmul : ∀ i, i < BLOCK_SIZES_COUNT → actual i * (MIN_BLOCK_SIZE * 2 ^ i) ≤ tf := by
      intro i hi
      simp only [hact, htf, hcnt]
      exact buddy_actual_le L hp i hi
    obtain ⟨hb0, hb1⟩ := extThird_le actual tf hmul BLOCK_SIZES_COUNT le_rfl
    by_cases h2 : 0 < (extThird actual tf BLOCK_SIZES_COUNT).2
    · rw [if_pos h2]
      have hc : (0 : ℚ) < ((extThird actual tf BLOCK_SIZES_COUNT).2 : ℚ) := by exact_mod_cast h2
      constructor
      · have := (div_le_one hc).mpr hb1; linarith
      · have : 0 ≤ (extThird actual tf BLOCK_SIZES_COUNT).1 /
            ((extThird actual tf BLOCK_SIZES_COUNT).2 : ℚ) := div_nonneg hb0 (le_of_lt hc)
        linarith
    · rw [if_neg h2]; norm_num

/-- The buddy external-fragmentation metric lies in `[0, 1]` whenever the
free blocks all have power-of-two sizes `≥ MIN_BLOCK_SIZE` (as holds in
every reachable state), for every `max_address` argument. -/
theorem buddy_ext_range (m : MemoryAllocator) (ma : Nat)
    (hp : ∀ p ∈ m.blocks, p.2.is_free = true → ∃ k, 4 ≤ k ∧ p.2.size = 2 ^ k) :
    0 ≤ m.calculate_external_fragmentation ma ∧
      m.calculate_external_fragmentation ma ≤ 1 := by
  unfold MemoryAllocator.calculate_external_fragmentation
  by_cases h0 : m.blocks = [] ∨ m.allocated_size = 0
  · rw [if_pos h0]; norm_num
  · rw [if_neg h0]
    have hp' : ∀ p ∈ prefixBlocks ma m.blocks, p.2.is_free = true →
        ∃ k, 4 ≤ k ∧ p.2.size = 2 ^ k := by
      intro p hm hf
      exact hp p (List.takeWhile_sublist _ |>.mem hm) hf
    exact buddy_ext_core (prefixBlocks ma m.blocks) hp'

/-- The buddy internal-fragmentation metric is nonnegative in every
state. -/
theorem buddy_int_nonneg (m : MemoryAllocator) : 0 ≤ m.get_internal_fragmentation := by
  unfold MemoryAllocator.get_internal_fragmentation
  by_cases h : m.allocated_size = 0
  · rw [if_pos h]
  · rw [if_neg h]
    exact div_nonneg (Nat.cast_nonneg _) (Nat.cast_nonneg _)

end Buddy

/-- C7: amended fragmentation ranges.  The external-fragmentation metrics
(for any `max_address`, hence both the plain and the trimmed variants) lie
in `[0, 1]`: for the TLSF engine in every state, for the buddy engine in
every state whose free blocks have power-of-two sizes `≥ MIN_BLOCK_SIZE`
(as in every reachable state).  Internal fragmentation is only
nonnegative — the claimed upper bound 1 fails (see the counterexample). -/
theorem fragmentation_range_amended :
    (∀ (t : TLSF.TLSFAllocator) (ma : Nat),
      0 ≤ t.calculate_external_fragmentation ma ∧
        t.calculate_external_fragmentation ma ≤ 1) ∧
    (∀ (m : Buddy.MemoryAllocator) (ma : Nat),
      (∀ p ∈ m.blocks, p.2.is_free = true → ∃ k, 4 ≤ k ∧ p.2.size = 2 ^ k) →
      0 ≤ m.calculate_external_fragmentation ma ∧
        m.calculate_external_fragmentation ma ≤ 1) ∧
    (∀ t : TLSF.TLSFAllocator, 0 ≤ t.get_internal_fragmentation) ∧
    (∀ m : Buddy.MemoryAllocator, 0 ≤ m.get_internal_fragmentation) :=
  ⟨TLSF.tlsf_ext_range, fun m ma hp => Buddy.buddy_ext_range m ma hp,
    TLSF.tlsf_int_nonneg, Buddy.buddy_int_nonneg⟩

/-- C7 witness: the amended fragmentation ranges instantiated on concrete
fresh allocators (the power-of-two hypothesis holds for the single free
block of size 1024 = 2^10). -/
theorem fragmentation_range_amended_witness :
    (0 ≤ (TLSF.mkTLSF 1024).calculate_external_fragmentation 0 ∧
      (TLSF.mkTLSF 1024).calculate_external_fragmentation 0 ≤ 1) ∧
    (0 ≤ (mkAllocator 1024).calculate_external_fragmentation 0 ∧
      (mkAllocator 1024).calculate_external_fragmentation 0 ≤ 1) ∧
    0 ≤ (TLSF.mkTLSF 1024).get_internal_fragmentation ∧
    0 ≤ (mkAllocator 1024).get_internal_fragmentation := by
  refine ⟨fragmentation_range_amended.1 (TLSF.mkTLSF 1024) 0,
    fragmentation_range_amended.2.1 (mkAllocator 1024) 0 ?_,
    fragmentation_range_amended.2.2.1 (TLSF.mkTLSF 1024),
    fragmentation_range_amended.2.2.2 (mkAllocator 1024)⟩
  intro p hp _
  have hmem : p = (0, ⟨next_power_2 1024, 0, true⟩) := by
    simpa [mkAllocator] using hp
  refine ⟨10, by decide, ?_⟩
  rw [hmem]
  decide

namespace Buddy

/-- The spec-side split loop coincides with the source's split loop. -/
theorem splitWhile_eq_splitLoopB (addr want : Nat) :
    ∀ fuel sz bs, splitWhile addr want fuel sz bs = splitLoopB addr want fuel sz bs := by
  intro fuel
  induction fuel with
  | zero => intro sz bs; rfl
  | succ f ih =>
    intro sz bs
    rw [splitWhile, splitLoopB]
    by_cases h : want < sz ∧ MIN_BLOCK_SIZE < sz
    · rw [if_pos h, if_pos h]
      exact ih _ _
    · rw [if_neg h, if_neg h]

/-- The source's first-fit scan returns the head of the fitting-block
sublist. -/
theorem allocFind_eq_filter_head (w : Nat) :
    ∀ bs : List (Nat × MemoryBlock),
      allocFind w bs = (bs.filter (fun p => p.2.is_free && decide (w ≤ p.2.size))).head? := by
  intro bs
  induction bs with
  | nil => rfl
  | cons p t ih =>
    obtain ⟨a, b⟩ := p
    rw [allocFind, List.filter_cons]
    by_cases h : b.is_free = true ∧ w ≤ b.size
    · have hb : ((a, b).2.is_free && decide (w ≤ (a, b).2.size)) = true := by
        simp [h.1, h.2]
      rw [if_pos h, if_pos hb]
      rfl
    · have hb : ¬ (((a, b).2.is_free && decide (w ≤ (a, b).2.size)) = true) := by
        intro hc
        simp at hc
        exact h hc
      rw [if_neg h, if_neg hb]
      exact ih

/-- In a sorted key-value list, lookup of a present pair returns its
value. -/
theorem mapFind?_of_mem_sorted :
    ∀ {bs : List (Nat × MemoryBlock)} {a : Nat} {b : MemoryBlock},
      SortedKeys bs → (a, b) ∈ bs → mapFind? a bs = some b := by
  intro bs
  induction bs with
  | nil => intro a b _ hm; cases hm
  | cons p t ih =>
    intro a b hs hm
    obtain ⟨x, c⟩ := p
    rw [mapFind?]
    rcases List.mem_cons.mp hm with heq | htl
    · cases heq
      rw [if_pos rfl]
    · by_cases hx : x = a
      · subst hx
        have hlt := (List.pairwise_cons.mp hs).1 _ htl
        exact absurd hlt (lt_irrefl _)
      · rw [if_neg hx]
        exact ih (List.pairwise_cons.mp hs).2 htl

/-- Folding `min` over a list bounded below by the seed returns the
seed. -/
theorem foldl_min_of_le (a : Nat) :
    ∀ l : List Nat, (∀ x ∈ l, a ≤ x) → l.foldl min a = a := by
  intro l
  induction l with
  | nil => intro _; rfl
  | cons x t ih =>
    intro h
    rw [List.foldl_cons, min_eq_left (h x (List.mem_cons_self x t))]
    exact ih (fun y hy => h y (List.mem_cons_of_mem x hy))

/-- On a strictly sorted list the minimum is the head. -/
theorem sorted_min?_eq_head? :
    ∀ l : List Nat, List.Pairwise (· < ·) l → l.min? = l.head? := by
  intro l hl
  cases l with
  | nil => rfl
  | cons a t =>
    rw [List.min?_cons]
    cases hm : t.min? with
    | none => rfl
    | some v =>
      have hv : v ∈ t := List.min?_mem (fun _ _ => min_choice _ _) hm
      have hav : a < v := (List.pairwise_cons.mp hl).1 v hv
      show some (min a v) = some a
      rw [min_eq_left (le_of_lt hav)]

end Buddy

/-- C1: on every sorted block map (as `std::map` iteration guarantees),
the source's `MemoryAllocator::alloc` coincides exactly with the
specification's `Allocate`: zero requests return offset 0 unchanged,
otherwise the fitting free block of least offset is chosen, split down
to `want = max(nextPow2(req), MIN)`, marked allocated with
`allocated = req`, `allocated_size` grows by `req`, and the result is
`none` ("OutOfMemory") exactly when no fitting free block exists. -/
theorem buddy_alloc_meets_spec (m : Buddy.MemoryAllocator)
    (hs : Buddy.SortedKeys m.blocks) (req : Nat) :
    m.alloc req = Buddy.allocSpec m req := by
  unfold Buddy.MemoryAllocator.alloc Buddy.allocSpec
  by_cases h0 : req = 0
  · rw [if_pos h0, if_pos h0]
  · rw [if_neg h0, if_neg h0]
    simp only [Buddy.calculate_block_size]
    rw [Buddy.allocFind_eq_filter_head]
    have hsf : List.Pairwise (· < ·)
        ((m.blocks.filter (fun p => p.2.is_free &&
          decide (max (next_power_2 req) Buddy.MIN_BLOCK_SIZE ≤ p.2.size))).map Prod.fst) :=
      List.Pairwise.map _ (fun _ _ h => h) (hs.sublist (List.filter_sublist _))
    rw [Buddy.sorted_min?_eq_head? _ hsf, List.head?_map]
    cases hh : (m.blocks.filter (fun p => p.2.is_free &&
        decide (max (next_power_2 req) Buddy.MIN_BLOCK_SIZE ≤ p.2.size))).head? with
    | none => rfl
    | some p =>
      obtain ⟨a, b⟩ := p
      have hmem : (a, b) ∈ m.blocks :=
        List.mem_of_mem_filter (List.mem_of_mem_head? (Option.mem_def.mpr hh))
      have hfind := Buddy.mapFind?_of_mem_sorted hs hmem
      simp only [Option.map, hfind, Buddy.splitWhile_eq_splitLoopB]

/-- C1 witness: the fresh 1024-byte buddy arena has sorted keys, and
`alloc` agrees with the specification's `Allocate` there for a
request of 100 bytes. -/
theorem buddy_alloc_meets_spec_witness :
    Buddy.SortedKeys (mkAllocator 1024).blocks ∧
    (mkAllocator 1024).alloc 100 = Buddy.allocSpec (mkAllocator 1024) 100 :=
  ⟨by decide, buddy_alloc_meets_spec (mkAllocator 1024) (by decide) 100⟩

/-- One or-shift step widens the bit window covered by the smear. -/
theorem smear_step {y z : Nat} (w : Nat)
    (h : ∀ i, z.testBit i = true ↔ ∃ j, i ≤ j ∧ j < i + w ∧ y.testBit j = true) :
    ∀ i, (z ||| (z >>> w)).testBit i = true ↔
      ∃ j, i ≤ j ∧ j < i + (w + w) ∧ y.testBit j = true := by
  intro i
  rw [Nat.testBit_lor, Nat.testBit_shiftRight, Bool.or_eq_true, h i, h (w + i)]
  constructor
  · rintro (⟨j, h1, h2, h3⟩ | ⟨j, h1, h2, h3⟩)
    · exact ⟨j, h1, by omega, h3⟩
    · exact ⟨j, by omega, by omega, h3⟩
  · rintro ⟨j, h1, h2, h3⟩
    by_cases hj : j < i + w
    · exact Or.inl ⟨j, h1, hj, h3⟩
    · exact Or.inr ⟨j, by omega, by omega, h3⟩

/-- `next_power_2` returns `0` or a power of two `2 ^ k` with `k < 64`. -/
theorem next_power_2_pow2 (x : Nat) :
    next_power_2 x = 0 ∨ ∃ k, k < 64 ∧ next_power_2 x = 2 ^ k := by
  unfold next_power_2
  simp only []
  set y := (x % U64 + U64 - 1) % U64 with hy
  set z1 := y ||| (y >>> 1) with hz1
  set z2 := z1 ||| (z1 >>> 2) with hz2
  set z3 := z2 ||| (z2 >>> 4) with hz3
  set z4 := z3 ||| (z3 >>> 8) with hz4
  set z5 := z4 ||| (z4 >>> 16) with hz5
  set z6 := z5 ||| (z5 >>> 32) with hz6
  have hylt : y < 2 ^ 64 := Nat.mod_lt _ (by decide)
  by_cases hy0 : y = 0
  · right
    refine ⟨0, by decide, ?_⟩
    rw [hz6, hz5, hz4, hz3, hz2, hz1, hy0]
    decide
  · -- window characterization of the smeared value
    have h0 : ∀ i, y.testBit i = true ↔ ∃ j, i ≤ j ∧ j < i + 1 ∧ y.testBit j = true := by
      intro i
      constructor
      · intro h; exact ⟨i, le_rfl, by omega, h⟩
      · rintro ⟨j, h1, h2, h3⟩
        have hj : j = i := by omega
        rw [← hj]; exact h3
    have h1 := smear_step 1 h0
    rw [← hz1] at h1
    have h2 := smear_step 2 h1
    rw [← hz2] at h2
    have h4 := smear_step 4 h2
    rw [← hz3] at h4
    have h8 := smear_step 8 h4
    rw [← hz4] at h8
    have h16 := smear_step 16 h8
    rw [← hz5] at h16
    have h32 := smear_step 32 h16
    rw [← hz6] at h32
    set L := Nat.log2 y with hL
    have hyL : 2 ^ L ≤ y := Nat.log2_self_le hy0
    have hyL2 : y < 2 ^ (L + 1) := Nat.lt_log2_self
    have hL63 : L ≤ 63 := by
      by_contra hc
      push_neg at hc
      have : 2 ^ 64 ≤ 2 ^ L := Nat.pow_le_pow_right (by decide) (by omega)
      omega
    have htop : y.testBit L = true := by
      rw [Nat.testBit_to_div_mod]
      have hdiv : y / 2 ^ L = 1 := by
        have hlow : 1 ≤ y / 2 ^ L := (Nat.one_le_div_iff (pow_pos (by decide) L)).mpr hyL
        have hhigh : y / 2 ^ L < 2 := by
          rw [Nat.div_lt_iff_lt_mul (pow_pos (by decide) L)]
          have hsucc : 2 ^ (L + 1) = 2 * 2 ^ L := by rw [pow_succ]; ring
          omega
        omega
      rw [hdiv]
      decide
    have hhibits : ∀ j, L < j → y.testBit j = false := by
      intro j hj
      apply Nat.testBit_eq_false_of_lt
      calc y < 2 ^ (L + 1) := hyL2
        _ ≤ 2 ^ j := Nat.pow_le_pow_right (by decide) (by omega)
    have hz6eq : z6 = 2 ^ (L + 1) - 1 := by
      apply Nat.eq_of_testBit_eq
      intro i
      rw [Nat.testBit_two_pow_sub_one]
      by_cases hi : i < L + 1
      · have hbit : z6.testBit i = true := (h32 i).mpr ⟨L, by omega, by omega, htop⟩
        rw [hbit]
        exact (decide_eq_true hi).symm
      · have hbit : z6.testBit i = false := by
          apply Bool.eq_false_iff.mpr
          intro hc
          obtain ⟨j, hj1, _, hj3⟩ := (h32 i).mp hc
          rw [hhibits j (by omega)] at hj3
          cases hj3
        rw [hbit]
        exact (decide_eq_false hi).symm
    rw [hz6eq]
    have hpos : 0 < 2 ^ (L + 1) := pow_pos (by decide) _
    rw [Nat.sub_add_cancel hpos]
    by_cases h64 : L + 1 = 64
    · left
      rw [h64]
      show 2 ^ 64 % U64 = 0
      decide
    · right
      refine ⟨L + 1, by omega, ?_⟩
      apply Nat.mod_eq_of_lt
      show 2 ^ (L + 1) < 2 ^ 64
      exact Nat.pow_lt_pow_right (by decide) (by omega)

namespace Buddy

/-- `calculate_block_size` always produces a power of two `≥ MIN`. -/
theorem calculate_block_size_pow2 (s : Nat) :
    ∃ k, 4 ≤ k ∧ calculate_block_size s = 2 ^ k := by
  unfold calculate_block_size
  rcases next_power_2_pow2 s with h0 | ⟨k, _, hk⟩
  · exact ⟨4, le_rfl, by rw [h0]; decide⟩
  · by_cases h4 : 4 ≤ k
    · refine ⟨k, h4, ?_⟩
      rw [hk]
      refine max_eq_left ?_
      calc MIN_BLOCK_SIZE = 2 ^ 4 := by decide
        _ ≤ 2 ^ k := Nat.pow_le_pow_right (by decide) h4
    · refine ⟨4, le_rfl, ?_⟩
      rw [hk]
      push_neg at h4
      have h8 : 2 ^ k ≤ MIN_BLOCK_SIZE := by
        calc 2 ^ k ≤ 2 ^ 3 := Nat.pow_le_pow_right (by decide) (by omega)
          _ ≤ MIN_BLOCK_SIZE := by decide
      rw [max_eq_right h8]
      decide

/-- Lookup success implies membership. -/
theorem mapFind?_mem :
    ∀ {bs : List (Nat × MemoryBlock)} {a : Nat} {b : MemoryBlock},
      mapFind? a bs = some b → (a, b) ∈ bs := by
  intro bs
  induction bs with
  | nil => intro a b h; cases h
  | cons p t ih =>
    intro a b h
    obtain ⟨x, c⟩ := p
    rw [mapFind?] at h
    by_cases hx : x = a
    · subst hx
      rw [if_pos rfl] at h
      cases h
      exact List.mem_cons_self _ _
    · rw [if_neg hx] at h
      exact List.mem_cons_of_mem _ (ih h)

/-- The first-fit scan returns a member that is free and large enough. -/
theorem allocFind_mem {w : Nat} :
    ∀ {bs : List (Nat × MemoryBlock)} {a : Nat} {b : MemoryBlock},
      allocFind w bs = some (a, b) →
      (a, b) ∈ bs ∧ b.is_free = true ∧ w ≤ b.size := by
  intro bs
  induction bs with
  | nil => intro a b h; cases h
  | cons p t ih =>
    intro a b h
    obtain ⟨x, c⟩ := p
    rw [allocFind] at h
    by_cases hc : c.is_free = true ∧ w ≤ c.size
    · rw [if_pos hc] at h
      cases h
      exact ⟨List.mem_cons_self _ _, hc⟩
    · rw [if_neg hc] at h
      obtain ⟨hm, hf⟩ := ih h
      exact ⟨List.mem_cons_of_mem _ hm, hf⟩

/-- An address divisible by `2^k` whose bit `k` is clear is divisible by
`2^(k+1)`. -/
theorem and_pow2_eq_zero_dvd {a k : Nat} (hd : 2 ^ k ∣ a) (h : a &&& 2 ^ k = 0) :
    2 ^ (k + 1) ∣ a := by
  obtain ⟨q, hq⟩ := hd
  rw [Nat.and_two_pow] at h
  have hb : a.testBit k = false := by
    cases hbit : a.testBit k with
    | false => rfl
    | true =>
      rw [hbit] at h
      simp at h
  rw [Nat.testBit_to_div_mod] at hb
  have hdiv : a / 2 ^ k = q := by
    rw [hq]
    exact Nat.mul_div_cancel_left q (pow_pos (by decide) k)
  rw [hdiv] at hb
  have hq2 : q % 2 = 0 := by
    have := of_decide_eq_false hb
    omega
  obtain ⟨r, hr⟩ : 2 ∣ q := Nat.dvd_of_mod_eq_zero hq2
  exact ⟨r, by rw [hq, hr, pow_succ]; ring⟩

/-- An address divisible by `2^k` whose bit `k` is set is at least `2^k`,
and clearing that bit leaves a multiple of `2^(k+1)`. -/
theorem and_pow2_ne_zero {a k : Nat} (hd : 2 ^ k ∣ a) (h : a &&& 2 ^ k ≠ 0) :
    2 ^ k ≤ a ∧ 2 ^ (k + 1) ∣ (a - 2 ^ k) := by
  obtain ⟨q, hq⟩ := hd
  rw [Nat.and_two_pow] at h
  have hb : a.testBit k = true := by
    cases hbit : a.testBit k with
    | true => rfl
    | false =>
      rw [hbit] at h
      simp at h
  rw [Nat.testBit_to_div_mod] at hb
  have hdiv : a / 2 ^ k = q := by
    rw [hq]
    exact Nat.mul_div_cancel_left q (pow_pos (by decide) k)
  rw [hdiv] at hb
  have hq1 : q % 2 = 1 := of_decide_eq_true hb
  have hqpos : 1 ≤ q := by omega
  constructor
  · rw [hq]
    calc 2 ^ k = 2 ^ k * 1 := by ring
      _ ≤ 2 ^ k * q := Nat.mul_le_mul_left _ hqpos
  · refine ⟨q / 2, ?_⟩
    have hq2 : q = 2 * (q / 2) + 1 := by omega
    have h2 : 2 ^ k * q = 2 ^ (k + 1) * (q / 2) + 2 ^ k := by
      conv_lhs => rw [hq2]
      ring
    rw [hq, h2]
    omega

/-- Characterization of the split loop on a power-of-two block of size
`2^K` split down to `want = 2^w`: the final size is `want`, and the
resulting list adds exactly the upper-half splinters
`(addr + 2^j, free block of size 2^j)` for `w ≤ j < K`. -/
theorem splitLoopB_spec {want w : Nat} (hw4 : 4 ≤ w) (hwant : want = 2 ^ w) (addr : Nat) :
    ∀ (K fuel : Nat) (bs : List (Nat × MemoryBlock)), w ≤ K → K ≤ fuel →
      (splitLoopB addr want fuel (2 ^ K) bs).1 = want ∧
      ∀ q ∈ (splitLoopB addr want fuel (2 ^ K) bs).2,
        q ∈ bs ∨ ∃ j, w ≤ j ∧ j < K ∧ q = (addr + 2 ^ j, ⟨2 ^ j, 0, true⟩) := by
  intro K
  induction K with
  | zero =>
    intro fuel bs hwK _
    exact absurd (le_trans hw4 hwK) (by decide)
  | succ k ih =>
    intro fuel bs hwK hKf
    by_cases hstop : w = k + 1
    · cases fuel with
      | zero => exact absurd hKf (by omega)
      | succ f =>
        rw [splitLoopB]
        rw [if_neg (by rw [hwant, hstop]; intro hc; exact absurd hc.1 (lt_irrefl _))]
        constructor
        · rw [hwant, hstop]
        · intro q hq; exact Or.inl hq
    · have hwk : w ≤ k := by omega
      cases fuel with
      | zero => exact absurd hKf (by omega)
      | succ f =>
        rw [splitLoopB]
        have hg : want < 2 ^ (k + 1) ∧ MIN_BLOCK_SIZE < 2 ^ (k + 1) := by
          constructor
          · rw [hwant]; exact Nat.pow_lt_pow_right (by decide) (by omega)
          · calc MIN_BLOCK_SIZE = 2 ^ 4 := by decide
              _ < 2 ^ (k + 1) := Nat.pow_lt_pow_right (by decide) (by omega)
        rw [if_pos hg]
        have hdiv : 2 ^ (k + 1) / 2 = 2 ^ k := by
          rw [pow_succ]; exact Nat.mul_div_cancel _ (by decide)
        rw [hdiv]
        obtain ⟨ih1, ih2⟩ := ih f (mapInsert (addr + 2 ^ k) ⟨2 ^ k, 0, true⟩ bs) hwk (by omega)
        refine ⟨ih1, ?_⟩
        intro q hq
        rcases ih2 q hq with hin | ⟨j, hj1, hj2, hj3⟩
        · rcases mem_mapInsert _ _ _ hin with heq | hbs
          · exact Or.inr ⟨k, hwk, by omega, heq⟩
          · exact Or.inl hbs
        · exact Or.inr ⟨j, hj1, by omega, hj3⟩

/-- The coalescing loop preserves the pointwise block invariant
(power-of-two sizes `≥ MIN`, each block's offset a multiple of its
size). -/
theorem mergeGo_preserves_aligned (total : Nat) :
    ∀ (fuel addr : Nat) (bs : List (Nat × MemoryBlock)),
      (∀ p ∈ bs, ∃ k, 4 ≤ k ∧ p.2.size = 2 ^ k ∧ 2 ^ k ∣ p.1) →
      ∀ q ∈ (mergeGo total fuel addr bs).2,
        ∃ k, 4 ≤ k ∧ q.2.size = 2 ^ k ∧ 2 ^ k ∣ q.1 := by
  intro fuel
  induction fuel with
  | zero =>
    intro addr bs hinv
    simp only [mergeGo]
    exact hinv
  | succ f ih =>
    intro addr bs hinv
    rw [mergeGo]
    cases hfa : mapFind? addr bs with
    | none => simpa using hinv
    | some b =>
      simp only []
      obtain ⟨kb, hkb4, hkbsz, hkbdvd⟩ := hinv (addr, b) (mapFind?_mem hfa)
      cases hfb : mapFind? (if addr &&& b.size = 0 then addr + b.size else addr - b.size) bs with
      | none => simpa using hinv
      | some bd =>
        simp only []
        set buddy_addr := if addr &&& b.size = 0 then addr + b.size else addr - b.size with hbdef
        by_cases hg : bd.is_free = true ∧ bd.size = b.size
        · rw [if_pos hg]
          by_cases hlt : buddy_addr < addr
          · rw [if_pos hlt]
            have hand : ¬ (addr &&& b.size = 0) := by
              intro h0
              rw [hbdef, if_pos h0] at hlt
              omega
            have hand' : addr &&& 2 ^ kb ≠ 0 := by
              rw [← hkbsz]; exact hand
            have hbd_eq : buddy_addr = addr - b.size := by
              rw [hbdef, if_neg hand]
            have h2s := and_pow2_ne_zero hkbdvd hand'
            have hinv' : ∀ p ∈ mapInsert buddy_addr ⟨bd.size * 2, bd.allocated, bd.is_free⟩
                (mapErase addr bs), ∃ k, 4 ≤ k ∧ p.2.size = 2 ^ k ∧ 2 ^ k ∣ p.1 := by
              intro p hp
              rcases mem_mapInsert _ _ _ hp with heq | hmem
              · rw [heq]
                refine ⟨kb + 1, by omega, ?_, ?_⟩
                · show bd.size * 2 = 2 ^ (kb + 1)
                  rw [hg.2, hkbsz, pow_succ]
                · show 2 ^ (kb + 1) ∣ buddy_addr
                  rw [hbd_eq, hkbsz]
                  exact h2s.2
              · exact hinv p ((mapErase_sublist _ _).subset hmem)
            by_cases hsz : b.size * 2 < total
            · rw [if_pos hsz]
              exact ih buddy_addr _ hinv'
            · rw [if_neg hsz]
              exact hinv'
          · rw [if_neg hlt]
            have hand0 : addr &&& b.size = 0 := by
              by_contra hc
              have hc' : addr &&& 2 ^ kb ≠ 0 := by
                rw [← hkbsz]; exact hc
              have hle := (and_pow2_ne_zero hkbdvd hc').1
              rw [hbdef, if_neg hc] at hlt
              have hk1 : 1 ≤ 2 ^ kb := Nat.one_le_two_pow
              rw [hkbsz] at hlt
              omega
            have hand0' : addr &&& 2 ^ kb = 0 := by
              rw [← hkbsz]; exact hand0
            have hdvd2 : 2 ^ (kb + 1) ∣ addr := and_pow2_eq_zero_dvd hkbdvd hand0'
            have hinv' : ∀ p ∈ mapInsert addr ⟨b.size * 2, b.allocated, b.is_free⟩
                (mapErase buddy_addr bs), ∃ k, 4 ≤ k ∧ p.2.size = 2 ^ k ∧ 2 ^ k ∣ p.1 := by
              intro p hp
              rcases mem_mapInsert _ _ _ hp with heq | hmem
              · rw [heq]
                refine ⟨kb + 1, by omega, ?_, hdvd2⟩
                show b.size * 2 = 2 ^ (kb + 1)
                rw [hkbsz, pow_succ]
              · exact hinv p ((mapErase_sublist _ _).subset hmem)
            by_cases hsz : b.size * 2 < total
            · rw [if_pos hsz]
              exact ih addr _ hinv'
            · rw [if_neg hsz]
              exact hinv'
        · rw [if_neg hg]
          simpa using hinv

/-- A successful `alloc` preserves the pointwise block invariant. -/
theorem alloc_preserves_aligned {m : MemoryAllocator} {r : Nat}
    {x : Nat × MemoryAllocator}
    (hinv : ∀ p ∈ m.blocks, ∃ k, 4 ≤ k ∧ p.2.size = 2 ^ k ∧ 2 ^ k ∣ p.1)
    (h : m.alloc r = some x) :
    ∀ p ∈ x.2.blocks, ∃ k, 4 ≤ k ∧ p.2.size = 2 ^ k ∧ 2 ^ k ∣ p.1 := by
  unfold MemoryAllocator.alloc at h
  by_cases h0 : r = 0
  · rw [if_pos h0] at h
    cases h
    exact hinv
  · rw [if_neg h0] at h
    simp only [] at h
    obtain ⟨w, hw4, hw⟩ := calculate_block_size_pow2 r
    cases hfa : allocFind (calculate_block_size r) m.blocks with
    | none => rw [hfa] at h; cases h
    | some ab =>
      rw [hfa] at h
      obtain ⟨addr, b⟩ := ab
      simp only [] at h
      obtain ⟨hmem, hfree, hsz⟩ := allocFind_mem hfa
      obtain ⟨K, hK4, hKsz, hKdvd⟩ := hinv (addr, b) hmem
      have hwK : w ≤ K := by
        rw [hw, hKsz] at hsz
        exact (Nat.pow_le_pow_iff_right (by decide)).mp hsz
      have hfuel : K ≤ b.size := by
        rw [hKsz]
        exact le_of_lt (Nat.lt_two_pow K)
      obtain ⟨hs1, hs2⟩ := splitLoopB_spec hw4 hw addr K b.size m.blocks hwK hfuel
      cases h
      intro p hp
      simp only [] at hp
      rw [← hKsz] at hs1 hs2
      rcases mem_mapInsert _ _ _ hp with heq | hmem2
      · rw [heq]
        refine ⟨w, hw4, ?_, ?_⟩
        · show (splitLoopB addr (calculate_block_size r) b.size b.size m.blocks).1 = 2 ^ w
          rw [hs1, hw]
        · show 2 ^ w ∣ addr
          exact dvd_trans (pow_dvd_pow 2 hwK) hKdvd
      · rcases hs2 p hmem2 with hin | ⟨j, hj1, hj2, hj3⟩
        · exact hinv p hin
        · rw [hj3]
          refine ⟨j, by omega, rfl, ?_⟩
          show 2 ^ j ∣ addr + 2 ^ j
          exact Dvd.dvd.add (dvd_trans (pow_dvd_pow 2 (le_of_lt hj2)) hKdvd) dvd_rfl

/-- A successful `dealloc` preserves the pointwise block invariant. -/
theorem dealloc_preserves_aligned {m m2 : MemoryAllocator} {a : Nat}
    (hinv : ∀ p ∈ m.blocks, ∃ k, 4 ≤ k ∧ p.2.size = 2 ^ k ∧ 2 ^ k ∣ p.1)
    (h : m.dealloc a = .ok m2) :
    ∀ p ∈ m2.blocks, ∃ k, 4 ≤ k ∧ p.2.size = 2 ^ k ∧ 2 ^ k ∣ p.1 := by
  unfold MemoryAllocator.dealloc at h
  cases hfa : mapFind? a m.blocks with
  | none => rw [hfa] at h; cases h
  | some b =>
    rw [hfa] at h
    simp only [] at h
    by_cases hf : b.is_free = true
    · rw [if_pos hf] at h; cases h
    · rw [if_neg hf] at h
      obtain ⟨kb, hkb4, hkbsz, hkbdvd⟩ := hinv (a, b) (mapFind?_mem hfa)
      have hinv' : ∀ p ∈ mapInsert a ⟨b.size, 0, true⟩ m.blocks,
          ∃ k, 4 ≤ k ∧ p.2.size = 2 ^ k ∧ 2 ^ k ∣ p.1 := by
        intro p hp
        rcases mem_mapInsert _ _ _ hp with heq | hmem
        · rw [heq]
          exact ⟨kb, hkb4, hkbsz, hkbdvd⟩
        · exact hinv p hmem
      cases h
      intro p hp
      simp only [] at hp
      exact mergeGo_preserves_aligned m.total_size _ a _ hinv' p hp

/-- Ceiling to a multiple is the identity on multiples. -/
theorem grid_pos_eq {w a : Nat} (hw : 0 < w) (hd : w ∣ a) :
    ((a + w - 1) / w) * w = a := by
  obtain ⟨t, ht⟩ := hd
  have hdiv : (a + w - 1) / w = t := by
    rw [ht]
    have h1 : w * t + w - 1 = w * t + (w - 1) := by omega
    rw [h1, Nat.mul_add_div hw]
    have h2 : (w - 1) / w = 0 := Nat.div_eq_of_lt (by omega)
    omega
  rw [hdiv, ht]
  ring

/-- On a block list whose blocks are power-of-two sized and aligned, the
aligned-scan of `align_alloc` coincides with the first-fit scan of
`alloc` (the alignment gap of every candidate is zero). -/
theorem alignFind_eq_allocFind {want ww : Nat} (hww : want = 2 ^ ww) :
    ∀ bs : List (Nat × MemoryBlock),
      (∀ p ∈ bs, ∃ k, p.2.size = 2 ^ k ∧ 2 ^ k ∣ p.1) →
      alignFind want bs = allocFind want bs := by
  intro bs
  induction bs with
  | nil => intro _; rfl
  | cons p t ih =>
    intro hinv
    obtain ⟨a, b⟩ := p
    rw [alignFind, allocFind]
    by_cases hc : b.is_free = true ∧ want ≤ b.size
    · rw [if_pos hc]
      have hskip : ¬ (¬ b.is_free = true ∨ b.size < want) := by
        push_neg
        exact ⟨hc.1, hc.2⟩
      rw [if_neg hskip]
      obtain ⟨k, hksz, hkdvd⟩ := hinv (a, b) (List.mem_cons_self _ _)
      have hwk : ww ≤ k := by
        have := hc.2
        rw [hww, hksz] at this
        exact (Nat.pow_le_pow_iff_right (by decide)).mp this
      have hdvd : want ∣ a := by
        rw [hww]
        exact dvd_trans (pow_dvd_pow 2 hwk) (hksz ▸ hkdvd)
      have hgrid : ((a + want - 1) / want) * want = a :=
        grid_pos_eq (by rw [hww]; exact pow_pos (by decide) ww) hdvd
      rw [hgrid]
      simp only [Nat.sub_self, Nat.zero_add]
      rw [if_pos hc.2]
    · rw [if_neg hc]
      have hskip : ¬ b.is_free = true ∨ b.size < want := by
        by_cases hf : b.is_free = true
        · right
          by_contra hns
          exact hc ⟨hf, by omega⟩
        · left; exact hf
      rw [if_pos hskip]
      exact ih (fun q hq => hinv q (List.mem_cons_of_mem _ hq))

/-- The alignment pre-splitting loop does nothing when the offset is
zero. -/
theorem alignLoop1_zero :
    ∀ (fuel addr sz : Nat) (bs : List (Nat × MemoryBlock)),
      alignLoop1 fuel addr sz 0 bs = (addr, sz, bs) := by
  intro fuel addr sz bs
  cases fuel with
  | zero => rfl
  | succ f =>
    rw [alignLoop1, if_neg (lt_irrefl 0)]

/-- Under the pointwise block invariant, `align_alloc` coincides with
`alloc`: the same block is found, the alignment loop never runs, and the
split and final marking are identical. -/
theorem align_eq_alloc_of_aligned {m : MemoryAllocator}
    (hinv : ∀ p ∈ m.blocks, ∃ k, 4 ≤ k ∧ p.2.size = 2 ^ k ∧ 2 ^ k ∣ p.1) (r : Nat) :
    m.align_alloc r = m.alloc r := by
  unfold MemoryAllocator.align_alloc MemoryAllocator.alloc
  by_cases h0 : r = 0
  · rw [if_pos h0, if_pos h0]
  · rw [if_neg h0, if_neg h0]
    simp only []
    obtain ⟨w, hw4, hw⟩ := calculate_block_size_pow2 r
    have hinv' : ∀ p ∈ m.blocks, ∃ k, p.2.size = 2 ^ k ∧ 2 ^ k ∣ p.1 := by
      intro p hp
      obtain ⟨k, _, h1, h2⟩ := hinv p hp
      exact ⟨k, h1, h2⟩
    rw [alignFind_eq_allocFind hw m.blocks hinv']
    cases hfa : allocFind (calculate_block_size r) m.blocks with
    | none => rfl
    | some ab =>
      obtain ⟨addr, b⟩ := ab
      simp only []
      obtain ⟨hmem, hfree, hsz⟩ := allocFind_mem hfa
      obtain ⟨K, hK4, hKsz, hKdvd⟩ := hinv (addr, b) hmem
      have hwK : w ≤ K := by
        rw [hw, hKsz] at hsz
        exact (Nat.pow_le_pow_iff_right (by decide)).mp hsz
      have hdvd : calculate_block_size r ∣ addr := by
        rw [hw]
        exact dvd_trans (pow_dvd_pow 2 hwK) (hKsz ▸ hKdvd)
      have hgrid : ((addr + calculate_block_size r - 1) / calculate_block_size r) *
          calculate_block_size r = addr :=
        grid_pos_eq (by rw [hw]; exact pow_pos (by decide) w) hdvd
      rw [hgrid]
      simp only [Nat.sub_self]
      rw [alignLoop1_zero]

/-- In the degenerate initial states (arena smaller than `MIN`), every
operation is stuck: nonzero allocations fail, zero allocations return the
state unchanged, and every `dealloc` raises. -/
theorem degenerate_ops {m : MemoryAllocator}
    (hb : m.blocks = [(0, ⟨m.total_size, 0, true⟩)]) (ht : m.total_size < MIN_BLOCK_SIZE) :
    (∀ r, m.alloc r = if r = 0 then some (0, m) else none) ∧
    (∀ r, m.align_alloc r = if r = 0 then some (0, m) else none) ∧
    ∀ a, ∃ e, m.dealloc a = .error e := by
  refine ⟨?_, ?_, ?_⟩
  · intro r
    by_cases hr : r = 0
    · rw [if_pos hr]
      unfold MemoryAllocator.alloc
      rw [if_pos hr]
    · rw [if_neg hr]
      unfold MemoryAllocator.alloc
      rw [if_neg hr]
      simp only []
      have hfind : allocFind (calculate_block_size r) m.blocks = none := by
        rw [hb, allocFind]
        have hcond : ¬ ((⟨m.total_size, 0, true⟩ : MemoryBlock).is_free = true ∧
            calculate_block_size r ≤ (⟨m.total_size, 0, true⟩ : MemoryBlock).size) := by
          intro hc
          have h1 : calculate_block_size r ≤ m.total_size := hc.2
          have h2 : MIN_BLOCK_SIZE ≤ calculate_block_size r := le_max_right _ _
          omega
        rw [if_neg hcond]
        rfl
      rw [hfind]
  · intro r
    by_cases hr : r = 0
    · rw [if_pos hr]
      unfold MemoryAllocator.align_alloc
      rw [if_pos hr]
    · rw [if_neg hr]
      unfold MemoryAllocator.align_alloc
      rw [if_neg hr]
      simp only []
      have hfind : alignFind (calculate_block_size r) m.blocks = none := by
        rw [hb, alignFind]
        have hcond : ¬ (⟨m.total_size, 0, true⟩ : MemoryBlock).is_free = true ∨
            (⟨m.total_size, 0, true⟩ : MemoryBlock).size < calculate_block_size r := by
          right
          show m.total_size < calculate_block_size r
          have h2 : MIN_BLOCK_SIZE ≤ calculate_block_size r := le_max_right _ _
          omega
        rw [if_pos hcond]
        rfl
      rw [hfind]
  · intro a
    unfold MemoryAllocator.dealloc
    by_cases ha : (0 : Nat) = a
    · have hfind : mapFind? a m.blocks = some ⟨m.total_size, 0, true⟩ := by
        rw [hb, mapFind?, if_pos ha]
      rw [hfind]
      refine ⟨.invalidDealloc, ?_⟩
      simp only [if_true]
    · have hfind : mapFind? a m.blocks = none := by
        rw [hb, mapFind?, if_neg ha]
        rfl
      rw [hfind]
      exact ⟨.invalidDealloc, rfl⟩

/-- Every reachable buddy state satisfies the pointwise block invariant,
except the degenerate initial arenas (total size below `MIN`), which are
stuck. -/
theorem breach_aligned {m : MemoryAllocator} (h : BReach m) :
    (∀ p ∈ m.blocks, ∃ k, 4 ≤ k ∧ p.2.size = 2 ^ k ∧ 2 ^ k ∣ p.1) ∨
    (m.blocks = [(0, ⟨m.total_size, 0, true⟩)] ∧ m.total_size < MIN_BLOCK_SIZE) := by
  induction h with
  | init n =>
    rcases next_power_2_pow2 n with h0 | ⟨k, _, hk⟩
    · right
      refine ⟨rfl, ?_⟩
      show next_power_2 n < MIN_BLOCK_SIZE
      rw [h0]
      decide
    · by_cases h4 : 4 ≤ k
      · left
        intro p hp
        have hp' : p = (0, ⟨next_power_2 n, 0, true⟩) := by
          simpa [mkAllocator] using hp
        rw [hp']
        exact ⟨k, h4, hk, dvd_zero _⟩
      · right
        refine ⟨rfl, ?_⟩
        show next_power_2 n < MIN_BLOCK_SIZE
        rw [hk]
        calc 2 ^ k ≤ 2 ^ 3 := Nat.pow_le_pow_right (by decide) (by omega)
          _ < MIN_BLOCK_SIZE := by decide
  | @alloc m' x r hm hx ih =>
    rcases ih with hinv | hdeg
    · exact Or.inl (alloc_preserves_aligned hinv hx)
    · rw [(degenerate_ops hdeg.1 hdeg.2).1 r] at hx
      by_cases hr : r = 0
      · rw [if_pos hr] at hx
        cases hx
        exact Or.inr hdeg
      · rw [if_neg hr] at hx
        cases hx
  | @dealloc m' x a hm hx ih =>
    rcases ih with hinv | hdeg
    · exact Or.inl (dealloc_preserves_aligned hinv hx)
    · obtain ⟨e, he⟩ := (degenerate_ops hdeg.1 hdeg.2).2.2 a
      rw [he] at hx
      cases hx
  | @align m' x r hm hx ih =>
    rcases ih with hinv | hdeg
    · have hx' : m'.alloc r = some x := by
        rw [← align_eq_alloc_of_aligned hinv r]
        exact hx
      exact Or.inl (alloc_preserves_aligned hinv hx')
    · rw [(degenerate_ops hdeg.1 hdeg.2).2.1 r] at hx
      by_cases hr : r = 0
      · rw [if_pos hr] at hx
        cases hx
        exact Or.inr hdeg
      · rw [if_neg hr] at hx
        cases hx

end Buddy

/-- C10: in every buddy state reachable through the public interface,
every block's offset is a multiple of its size, and `align_alloc(r)`
selects the same block, returns the same offset, and produces the same
final state as `alloc(r)` (the alignment pre-splitting loop never
executes in such states). -/
theorem buddy_align_alloc_refines_alloc (m : Buddy.MemoryAllocator)
    (h : Buddy.BReach m) (r : Nat) :
    (∀ p ∈ m.blocks, p.2.size ∣ p.1) ∧ m.align_alloc r = m.alloc r := by
  rcases Buddy.breach_aligned h with hinv | hdeg
  · constructor
    · intro p hp
      obtain ⟨k, _, hsz, hdvd⟩ := hinv p hp
      rw [hsz]
      exact hdvd
    · exact Buddy.align_eq_alloc_of_aligned hinv r
  · constructor
    · intro p hp
      rw [hdeg.1] at hp
      have hp' : p = (0, ⟨m.total_size, 0, true⟩) := by simpa using hp
      rw [hp']
      exact dvd_zero _
    · rw [(Buddy.degenerate_ops hdeg.1 hdeg.2).1 r,
        (Buddy.degenerate_ops hdeg.1 hdeg.2).2.1 r]

/-- C10 witness: the fresh 1024-byte buddy arena is reachable, its single
block is aligned, and `align_alloc 100` coincides with `alloc 100`. -/
theorem buddy_align_alloc_refines_alloc_witness :
    (∀ p ∈ (mkAllocator 1024).blocks, p.2.size ∣ p.1) ∧
    (mkAllocator 1024).align_alloc 100 = (mkAllocator 1024).alloc 100 :=
  buddy_align_alloc_refines_alloc (mkAllocator 1024) (Buddy.BReach.init 1024) 100

/-- C3 (amended, buddy half): in every reachable buddy state, a
successful `align_alloc(r)` with `r > 0` returns an offset that is a
multiple of `want = max(nextPow2(r), MIN)` (the TLSF half of the original
claim is refuted by the counterexample). -/
theorem buddy_align_alloc_aligned (m : Buddy.MemoryAllocator) (h : Buddy.BReach m)
    (r p : Nat) (mp : Buddy.MemoryAllocator) (hr : 0 < r)
    (hx : m.align_alloc r = some (p, mp)) :
    p % Buddy.calculate_block_size r = 0 := by
  rcases Buddy.breach_aligned h with hinv | hdeg
  · rw [Buddy.align_eq_alloc_of_aligned hinv r] at hx
    unfold Buddy.MemoryAllocator.alloc at hx
    rw [if_neg (by omega)] at hx
    simp only [] at hx
    cases hfa : Buddy.allocFind (Buddy.calculate_block_size r) m.blocks with
    | none => rw [hfa] at hx; cases hx
    | some ab =>
      rw [hfa] at hx
      obtain ⟨addr, b⟩ := ab
      simp only [] at hx
      obtain ⟨hmem, hfree, hsz⟩ := Buddy.allocFind_mem hfa
      obtain ⟨K, hK4, hKsz, hKdvd⟩ := hinv (addr, b) hmem
      obtain ⟨w, hw4, hw⟩ := Buddy.calculate_block_size_pow2 r
      have hwK : w ≤ K := by
        rw [hw, hKsz] at hsz
        exact (Nat.pow_le_pow_iff_right (by decide)).mp hsz
      have hdvd : Buddy.calculate_block_size r ∣ addr := by
        rw [hw]
        exact dvd_trans (pow_dvd_pow 2 hwK) (hKsz ▸ hKdvd)
      cases hx
      obtain ⟨c, hc⟩ := hdvd
      rw [hc]
      exact Nat.mul_mod_right _ _
  · rw [(Buddy.degenerate_ops hdeg.1 hdeg.2).2.1 r, if_neg (by omega)] at hx
    cases hx

/-- C3 witness: on the fresh 1024-byte arena, `align_alloc 100` succeeds
at offset 0, which is a multiple of `want = 128`. -/
theorem buddy_align_alloc_aligned_witness :
    0 < 100 ∧
    (mkAllocator 1024).align_alloc 100 =
      some (0, Buddy.afterAlign (mkAllocator 1024) 100) ∧
    0 % Buddy.calculate_block_size 100 = 0 :=
  ⟨by decide, by decide,
    buddy_align_alloc_aligned (mkAllocator 1024) (Buddy.BReach.init 1024) 100 0
      (Buddy.afterAlign (mkAllocator 1024) 100) (by decide) (by decide)⟩

namespace Buddy

/-- A tiled segment ends at or after its start. -/
theorem tilesB_le_end (t : Nat) :
    ∀ (bs : List (Nat × MemoryBlock)) (a : Nat), tilesB t a bs = true → a ≤ t := by
  intro bs
  induction bs with
  | nil =>
    intro a h
    simp only [tilesB, beq_iff_eq] at h
    omega
  | cons p r ih =>
    intro a h
    obtain ⟨x, b⟩ := p
    simp only [tilesB, Bool.and_eq_true, beq_iff_eq] at h
    have := ih (a + b.size) h.2
    omega

/-- Decomposition of the tiling checker over an append. -/
theorem tilesB_append (t : Nat) :
    ∀ (L M : List (Nat × MemoryBlock)) (a : Nat),
      tilesB t a (L ++ M) = true ↔
        ∃ c, tilesB c a L = true ∧ tilesB t c M = true := by
  intro L
  induction L with
  | nil =>
    intro M a
    constructor
    · intro h
      exact ⟨a, by simp [tilesB], h⟩
    · rintro ⟨c, hc, hm⟩
      simp only [tilesB, beq_iff_eq] at hc
      rw [hc]
      exact hm
  | cons p r ih =>
    intro M a
    obtain ⟨x, b⟩ := p
    simp only [List.cons_append, tilesB, Bool.and_eq_true, beq_iff_eq]
    constructor
    · rintro ⟨hx, h⟩
      obtain ⟨c, hc, hm⟩ := (ih M (a + b.size)).mp h
      exact ⟨c, ⟨hx, hc⟩, hm⟩
    · rintro ⟨c, ⟨hx, hc⟩, hm⟩
      exact ⟨hx, (ih M (a + b.size)).mpr ⟨c, hc, hm⟩⟩

/-- Every address inside a tiled segment is covered by a block. -/
theorem tilesB_cover (t : Nat) :
    ∀ (bs : List (Nat × MemoryBlock)) (a addr : Nat), tilesB t a bs = true →
      a ≤ addr → addr < t →
      ∃ x c, (x, c) ∈ bs ∧ x ≤ addr ∧ addr < x + c.size := by
  intro bs
  induction bs with
  | nil =>
    intro a addr h h1 h2
    simp only [tilesB, beq_iff_eq] at h
    omega
  | cons p r ih =>
    intro a addr h h1 h2
    obtain ⟨x, b⟩ := p
    simp only [tilesB, Bool.and_eq_true, beq_iff_eq] at h
    by_cases hc : addr < a + b.size
    · exact ⟨x, b, List.mem_cons_self _ _, by omega, by rw [h.1]; omega⟩
    · obtain ⟨y, c, hm, hy1, hy2⟩ := ih (a + b.size) addr h.2 (by omega) h2
      exact ⟨y, c, List.mem_cons_of_mem _ hm, hy1, hy2⟩

/-- All blocks of a tiled segment lie within its bounds, starting at or
after the running address. -/
theorem tilesB_bounds (t : Nat) :
    ∀ (bs : List (Nat × MemoryBlock)) (a : Nat), tilesB t a bs = true →
      ∀ p ∈ bs, a ≤ p.1 ∧ p.1 + p.2.size ≤ t := by
  intro bs
  induction bs with
  | nil => intro a _ p hp; cases hp
  | cons q r ih =>
    intro a h p hp
    obtain ⟨x, b⟩ := q
    simp only [tilesB, Bool.and_eq_true, beq_iff_eq] at h
    rcases List.mem_cons.mp hp with heq | htl
    · rw [heq]
      have hend := tilesB_le_end t r (a + b.size) h.2
      have hxa := h.1
      refine ⟨?_, ?_⟩
      · show a ≤ x
        omega
      · show x + b.size ≤ t
        omega
    · have := ih (a + b.size) h.2 p htl
      omega

/-- The block covering an address in a tiled segment is unique. -/
theorem tilesB_cover_unique (t : Nat) :
    ∀ (bs : List (Nat × MemoryBlock)) (a addr x y : Nat) (c d : MemoryBlock),
      tilesB t a bs = true →
      (x, c) ∈ bs → (y, d) ∈ bs →
      x ≤ addr → addr < x + c.size → y ≤ addr → addr < y + d.size →
      x = y ∧ c = d := by
  intro bs
  induction bs with
  | nil => intro a addr x y c d _ hx; cases hx
  | cons q r ih =>
    intro a addr x y c d h hx hy hx1 hx2 hy1 hy2
    obtain ⟨z, e⟩ := q
    simp only [tilesB, Bool.and_eq_true, beq_iff_eq] at h
    rcases List.mem_cons.mp hx with hxh | hxt <;> rcases List.mem_cons.mp hy with hyh | hyt
    · cases hxh; cases hyh; exact ⟨rfl, rfl⟩
    · exfalso
      cases hxh
      have hb := tilesB_bounds t r (a + c.size) h.2 (y, d) hyt
      have hza := h.1
      omega
    · exfalso
      cases hyh
      have hb := tilesB_bounds t r (a + d.size) h.2 (x, c) hxt
      have hza := h.1
      omega
    · exact ih (a + e.size) addr x y c d h.2 hxt hyt hx1 hx2 hy1 hy2

/-- A list of positively-sized blocks tiling an empty interval is
empty. -/
theorem tilesB_nil_of_end (t : Nat) :
    ∀ (bs : List (Nat × MemoryBlock)), tilesB t t bs = true →
      (∀ p ∈ bs, 0 < p.2.size) → bs = [] := by
  intro bs h hpos
  cases bs with
  | nil => rfl
  | cons q r =>
    exfalso
    obtain ⟨x, b⟩ := q
    simp only [tilesB, Bool.and_eq_true, beq_iff_eq] at h
    have h1 := tilesB_le_end t r (t + b.size) h.2
    have h2 : 0 < b.size := hpos (x, b) (List.mem_cons_self _ _)
    omega

/-- Between distinct multiples of `d` there is room for a whole `d`. -/
theorem dvd_lt_add {d a b : Nat} (hd : d ∣ a) (hb : d ∣ b) (h : a < b) :
    a + d ≤ b := by
  obtain ⟨qa, hqa⟩ := hd
  obtain ⟨qb, hqb⟩ := hb
  have hdpos : 0 < d := by
    by_contra hc
    push_neg at hc
    interval_cases d
    omega
  have hq : qa < qb := by
    by_contra hc
    push_neg at hc
    have := Nat.mul_le_mul_left d hc
    omega
  calc a + d = d * (qa + 1) := by rw [hqa]; ring
    _ ≤ d * qb := Nat.mul_le_mul_left d (by omega)
    _ = b := hqb.symm

/-- The split-off upper halves tile the upper part of the block
exactly. -/
theorem tiles_splinters (addr : Nat) :
    ∀ (d w : Nat),
      tilesB (addr + 2 ^ (w + d)) (addr + 2 ^ w) (splinters addr w d) = true := by
  intro d
  induction d with
  | zero =>
    intro w
    simp [splinters, tilesB]
  | succ n ih =>
    intro w
    simp only [splinters, tilesB, Bool.and_eq_true, beq_iff_eq]
    constructor
    · trivial
    · have h1 : addr + 2 ^ w + 2 ^ w = addr + 2 ^ (w + 1) := by
        have : 2 ^ (w + 1) = 2 ^ w + 2 ^ w := by rw [pow_succ]; ring
        omega
      have h2 : w + (n + 1) = (w + 1) + n := by omega
      rw [h1, h2]
      exact ih (w + 1)

/-- Membership in the splinter list. -/
theorem mem_splinters (addr : Nat) :
    ∀ (d w : Nat) (q : Nat × MemoryBlock), q ∈ splinters addr w d →
      ∃ j, w ≤ j ∧ j < w + d ∧ q = (addr + 2 ^ j, ⟨2 ^ j, 0, true⟩) := by
  intro d
  induction d with
  | zero => intro w q hq; cases hq
  | succ n ih =>
    intro w q hq
    rcases List.mem_cons.mp hq with heq | htl
    · exact ⟨w, le_rfl, by omega, heq⟩
    · obtain ⟨j, h1, h2, h3⟩ := ih (w + 1) q htl
      exact ⟨j, by omega, by omega, h3⟩

/-- The next splinter list extends the previous one at the top. -/
theorem splinters_snoc (addr : Nat) :
    ∀ (d w : Nat),
      splinters addr w (d + 1) =
        splinters addr w d ++ [(addr + 2 ^ (w + d), ⟨2 ^ (w + d), 0, true⟩)] := by
  intro d
  induction d with
  | zero =>
    intro w
    simp [splinters]
  | succ n ih =>
    intro w
    rw [splinters, ih (w + 1), splinters]
    simp only [List.cons_append]
    have : w + 1 + n = w + (n + 1) := by omega
    rw [this]

/-- Parity characterization of the `addr & size` test on an aligned
address. -/
theorem and_pow2_eq_zero_iff (a k : Nat) :
    a &&& 2 ^ k = 0 ↔ (a / 2 ^ k) % 2 = 0 := by
  rw [Nat.and_two_pow]
  cases htb : a.testBit k with
  | false =>
    rw [Nat.testBit_to_div_mod] at htb
    have := of_decide_eq_false htb
    simp only [Bool.toNat_false, Nat.zero_mul]
    constructor
    · intro _
      omega
    · intro _
      trivial
  | true =>
    rw [Nat.testBit_to_div_mod] at htb
    have := of_decide_eq_true htb
    simp only [Bool.toNat_true, Nat.one_mul]
    have hp : 0 < 2 ^ k := pow_pos (by decide) k
    constructor
    · intro hc
      omega
    · intro hc
      omega

/-- `buddyAddr` is an involution on `2^k`-aligned addresses. -/
theorem buddyAddr_involutive {x k : Nat} (hd : 2 ^ k ∣ x) :
    buddyAddr (buddyAddr x (2 ^ k)) (2 ^ k) = x := by
  obtain ⟨q, hq⟩ := hd
  have hp : 0 < 2 ^ k := pow_pos (by decide) k
  have hdiv : x / 2 ^ k = q := by
    rw [hq]
    exact Nat.mul_div_cancel_left q hp
  unfold buddyAddr
  by_cases h0 : x &&& 2 ^ k = 0
  · rw [if_pos h0]
    have hq2 : q % 2 = 0 := by
      have := (and_pow2_eq_zero_iff x k).mp h0
      omega
    have hdiv2 : (x + 2 ^ k) / 2 ^ k = q + 1 := by
      rw [Nat.add_div_right _ hp, hdiv]
    have hb2 : ¬ ((x + 2 ^ k) &&& 2 ^ k = 0) := by
      rw [and_pow2_eq_zero_iff, hdiv2]
      omega
    rw [if_neg hb2]
    omega
  · rw [if_neg h0]
    have hq2 : q % 2 = 1 := by
      have := (and_pow2_eq_zero_iff x k).not.mp h0
      omega
    have hqpos : 1 ≤ q := by omega
    have hxk : 2 ^ k ≤ x := by
      rw [hq]
      calc 2 ^ k = 2 ^ k * 1 := by ring
        _ ≤ 2 ^ k * q := Nat.mul_le_mul_left _ hqpos
    have hsub : x - 2 ^ k = 2 ^ k * (q - 1) := by
      have h1 : 2 ^ k * q = 2 ^ k * (q - 1) + 2 ^ k := by
        have h2 : q = (q - 1) + 1 := by omega
        conv_lhs => rw [h2]
        ring
      omega
    have hdiv2 : (x - 2 ^ k) / 2 ^ k = q - 1 := by
      rw [hsub]
      exact Nat.mul_div_cancel_left _ hp
    have hb2 : (x - 2 ^ k) &&& 2 ^ k = 0 := by
      rw [and_pow2_eq_zero_iff, hdiv2]
      omega
    rw [if_pos hb2]
    omega

/-- `buddyAddr` moves an aligned address. -/
theorem buddyAddr_ne {x k : Nat} (hd : 2 ^ k ∣ x) : buddyAddr x (2 ^ k) ≠ x := by
  have hp : 0 < 2 ^ k := pow_pos (by decide) k
  unfold buddyAddr
  by_cases h0 : x &&& 2 ^ k = 0
  · rw [if_pos h0]
    omega
  · rw [if_neg h0]
    obtain ⟨q, hq⟩ := hd
    have hdiv : x / 2 ^ k = q := by
      rw [hq]
      exact Nat.mul_div_cancel_left q hp
    have hq2 : q % 2 = 1 := by
      have := (and_pow2_eq_zero_iff x k).not.mp h0
      omega
    have hxk : 2 ^ k ≤ x := by
      rw [hq]
      calc 2 ^ k = 2 ^ k * 1 := by ring
        _ ≤ 2 ^ k * q := Nat.mul_le_mul_left _ (by omega)
    omega

/-- The buddy of a fresh upper-half splinter is the block it was split
from. -/
theorem buddyAddr_splinter {addr j : Nat} (hd : 2 ^ (j + 1) ∣ addr) :
    buddyAddr (addr + 2 ^ j) (2 ^ j) = addr := by
  obtain ⟨q, hq⟩ := hd
  have hp : 0 < 2 ^ j := pow_pos (by decide) j
  have hdiv : (addr + 2 ^ j) / 2 ^ j = 2 * q + 1 := by
    rw [Nat.add_div_right _ hp, hq, pow_succ]
    have : 2 ^ j * 2 * q = 2 ^ j * (2 * q) := by ring
    rw [this, Nat.mul_div_cancel_left _ hp]
  have hb : ¬ ((addr + 2 ^ j) &&& 2 ^ j = 0) := by
    rw [and_pow2_eq_zero_iff, hdiv]
    omega
  unfold buddyAddr
  rw [if_neg hb]
  omega

/-- Splitting a sorted association list at a member. -/
theorem sorted_split :
    ∀ {bs : List (Nat × MemoryBlock)} {addr : Nat} {b : MemoryBlock},
      SortedKeys bs → (addr, b) ∈ bs →
      ∃ L R, bs = L ++ (addr, b) :: R ∧
        (∀ p ∈ L, p.1 < addr) ∧ (∀ p ∈ R, addr < p.1) := by
  intro bs
  induction bs with
  | nil => intro addr b _ hm; cases hm
  | cons q t ih =>
    intro addr b hs hm
    obtain ⟨x, c⟩ := q
    rcases List.mem_cons.mp hm with heq | htl
    · cases heq
      refine ⟨[], t, rfl, ?_, ?_⟩
      · intro p hp
        cases hp
      · intro p hp
        exact (List.pairwise_cons.mp hs).1 p hp
    · obtain ⟨L, R, hsp, hL, hR⟩ := ih (List.pairwise_cons.mp hs).2 htl
      refine ⟨(x, c) :: L, R, by rw [hsp]; rfl, ?_, hR⟩
      intro p hp
      rcases List.mem_cons.mp hp with hph | hpt
      · rw [hph]
        have := (List.pairwise_cons.mp hs).1 (addr, b) htl
        exact this
      · exact hL p hpt

/-- `mapInsert` on an existing key replaces in place. -/
theorem mapInsert_replace (k : Nat) (v b : MemoryBlock) :
    ∀ (L R : List (Nat × MemoryBlock)), (∀ p ∈ L, p.1 < k) →
      mapInsert k v (L ++ (k, b) :: R) = L ++ (k, v) :: R := by
  intro L
  induction L with
  | nil =>
    intro R _
    rw [List.nil_append, mapInsert]
    rw [if_neg (lt_irrefl k), if_pos rfl]
    rfl
  | cons q t ih =>
    intro R hL
    obtain ⟨x, c⟩ := q
    have hx : x < k := hL (x, c) (List.mem_cons_self _ _)
    rw [List.cons_append, mapInsert]
    rw [if_neg (by omega), if_neg (by omega)]
    rw [ih R (fun p hp => hL p (List.mem_cons_of_mem _ hp))]
    rfl

/-- `mapInsert` before every key of the list prepends. -/
theorem mapInsert_lt_head (k : Nat) (v : MemoryBlock) :
    ∀ (R : List (Nat × MemoryBlock)), (∀ p ∈ R, k < p.1) →
      mapInsert k v R = (k, v) :: R := by
  intro R hR
  cases R with
  | nil => rfl
  | cons q t =>
    obtain ⟨y, d⟩ := q
    have hy : k < y := hR (y, d) (List.mem_cons_self _ _)
    rw [mapInsert, if_pos hy]

/-- `mapInsert` of a key lying strictly between a marked entry and the
tail inserts right after the entry. -/
theorem mapInsert_between (k : Nat) (v : MemoryBlock) (x : Nat) (b : MemoryBlock) :
    ∀ (L M : List (Nat × MemoryBlock)), (∀ p ∈ L, p.1 < k) → x < k →
      (∀ p ∈ M, k < p.1) →
      mapInsert k v (L ++ (x, b) :: M) = L ++ (x, b) :: (k, v) :: M := by
  intro L
  induction L with
  | nil =>
    intro M _ hx hM
    rw [List.nil_append, mapInsert]
    rw [if_neg (by omega), if_neg (by omega), mapInsert_lt_head k v M hM]
    rfl
  | cons q t ih =>
    intro M hL hx hM
    obtain ⟨z, c⟩ := q
    have hz : z < k := hL (z, c) (List.mem_cons_self _ _)
    rw [List.cons_append, mapInsert]
    rw [if_neg (by omega), if_neg (by omega)]
    rw [ih M (fun p hp => hL p (List.mem_cons_of_mem _ hp)) hx hM]
    rfl

/-- `mapErase` removes a marked entry. -/
theorem mapErase_marked (k : Nat) (b : MemoryBlock) :
    ∀ (L R : List (Nat × MemoryBlock)), (∀ p ∈ L, p.1 ≠ k) →
      mapErase k (L ++ (k, b) :: R) = L ++ R := by
  intro L
  induction L with
  | nil =>
    intro R _
    rw [List.nil_append, mapErase, if_pos rfl]
    rfl
  | cons q t ih =>
    intro R hL
    obtain ⟨x, c⟩ := q
    have hx : x ≠ k := hL (x, c) (List.mem_cons_self _ _)
    rw [List.cons_append, mapErase, if_neg hx]
    rw [ih R (fun p hp => hL p (List.mem_cons_of_mem _ hp))]
    rfl

/-- Closed form of the split loop on a spliced block list: the upper-half
splinters are inserted right after the chosen block, in ascending
order. -/
theorem splitLoopB_splice {w : Nat} (hw4 : 4 ≤ w) (addr : Nat)
    (L : List (Nat × MemoryBlock)) (b : MemoryBlock)
    (hL : ∀ p ∈ L, p.1 < addr) :
    ∀ (d fuel : Nat) (M : List (Nat × MemoryBlock)), w + d ≤ fuel →
      (∀ p ∈ M, addr + 2 ^ (w + d) ≤ p.1) →
      (splitLoopB addr (2 ^ w) fuel (2 ^ (w + d)) (L ++ (addr, b) :: M)).2 =
        L ++ (addr, b) :: (splinters addr w d ++ M) := by
  intro d
  induction d with
  | zero =>
    intro fuel M _ _
    cases fuel with
    | zero => simp [splitLoopB, splinters]
    | succ f =>
      rw [splitLoopB, if_neg (by intro hc; exact absurd hc.1 (by simp))]
      simp [splinters]
  | succ n ih =>
    intro fuel M hf hM
    cases fuel with
    | zero => exact absurd hf (by omega)
    | succ f =>
      rw [show w + (n + 1) = (w + n) + 1 from rfl]
      rw [splitLoopB]
      have hg : 2 ^ w < 2 ^ ((w + n) + 1) ∧ MIN_BLOCK_SIZE < 2 ^ ((w + n) + 1) := by
        constructor
        · exact Nat.pow_lt_pow_right (by decide) (by omega)
        · calc MIN_BLOCK_SIZE = 2 ^ 4 := by decide
            _ < 2 ^ ((w + n) + 1) := Nat.pow_lt_pow_right (by decide) (by omega)
      rw [if_pos hg]
      have hdiv : 2 ^ ((w + n) + 1) / 2 = 2 ^ (w + n) := by
        rw [pow_succ]
        exact Nat.mul_div_cancel _ (by decide)
      rw [hdiv]
      simp only []
      have hins : mapInsert (addr + 2 ^ (w + n)) ⟨2 ^ (w + n), 0, true⟩
          (L ++ (addr, b) :: M) =
          L ++ (addr, b) :: (addr + 2 ^ (w + n), ⟨2 ^ (w + n), 0, true⟩) :: M := by
        apply mapInsert_between
        · intro p hp
          have := hL p hp
          have hpow : 0 < 2 ^ (w + n) := pow_pos (by decide) _
          omega
        · have hpow : 0 < 2 ^ (w + n) := pow_pos (by decide) _
          omega
        · intro p hp
          have := hM p hp
          have hpow : 2 ^ (w + (n + 1)) = 2 ^ (w + n) + 2 ^ (w + n) := by
            rw [show w + (n + 1) = (w + n) + 1 from rfl, pow_succ]
            ring
          have hpos : 0 < 2 ^ (w + n) := pow_pos (by decide) _
          omega
      rw [hins]
      have hrec := ih f ((addr + 2 ^ (w + n), ⟨2 ^ (w + n), 0, true⟩) :: M)
        (by omega)
        (by
          intro p hp
          rcases List.mem_cons.mp hp with heq | htl
          · rw [heq]
          · have := hM p htl
            have hpow : 2 ^ (w + (n + 1)) = 2 ^ (w + n) + 2 ^ (w + n) := by
              rw [show w + (n + 1) = (w + n) + 1 from rfl, pow_succ]
              ring
            have hpos : 0 < 2 ^ (w + n) := pow_pos (by decide) _
            omega)
      rw [hrec, splinters_snoc]
      simp [List.append_assoc]

/-- Closed form of a successful nonzero `alloc`: the chosen block is
replaced in place by the allocated lower part followed by the ascending
free splinters. -/
theorem alloc_splice {m : MemoryAllocator} {r : Nat} {x : Nat × MemoryAllocator}
    (hs : SortedKeys m.blocks)
    (ht : tilesB m.total_size 0 m.blocks = true)
    (hinv : ∀ p ∈ m.blocks, ∃ k, 4 ≤ k ∧ p.2.size = 2 ^ k ∧ 2 ^ k ∣ p.1)
    (hr : r ≠ 0) (h : m.alloc r = some x) :
    ∃ L R b K w, m.blocks = L ++ (x.1, b) :: R ∧ b.is_free = true ∧
      b.size = 2 ^ K ∧ calculate_block_size r = 2 ^ w ∧ 4 ≤ w ∧ w ≤ K ∧
      2 ^ K ∣ x.1 ∧
      x.2.blocks = L ++ (x.1, ⟨2 ^ w, r, false⟩) ::
        (splinters x.1 w (K - w) ++ R) ∧
      x.2.total_size = m.total_size ∧
      (∀ p ∈ L, p.1 < x.1) ∧ (∀ p ∈ R, x.1 < p.1) ∧
      (∀ p ∈ R, x.1 + 2 ^ K ≤ p.1) := by
  unfold MemoryAllocator.alloc at h
  rw [if_neg hr] at h
  simp only [] at h
  cases hfa : allocFind (calculate_block_size r) m.blocks with
  | none => rw [hfa] at h; cases h
  | some ab =>
    rw [hfa] at h
    obtain ⟨addr, b⟩ := ab
    simp only [] at h
    obtain ⟨hmem, hfree, hsz⟩ := allocFind_mem hfa
    obtain ⟨K, hK4, hKsz, hKdvd⟩ := hinv (addr, b) hmem
    have hKsz2 : b.size = 2 ^ K := hKsz
    have hKdvd2 : 2 ^ K ∣ addr := hKdvd
    obtain ⟨w, hw4, hw⟩ := calculate_block_size_pow2 r
    have hwK : w ≤ K := by
      rw [hw, hKsz2] at hsz
      exact (Nat.pow_le_pow_iff_right (by decide)).mp hsz
    obtain ⟨L, R, hsp, hL, hR⟩ := sorted_split hs hmem
    have hRbound : ∀ p ∈ R, addr + 2 ^ K ≤ p.1 := by
      rw [hsp] at ht
      obtain ⟨c, hcL, hcR⟩ := (tilesB_append m.total_size L ((addr, b) :: R) 0).mp ht
      simp only [tilesB, Bool.and_eq_true, beq_iff_eq] at hcR
      obtain ⟨hca, hcR2⟩ := hcR
      rw [← hca, hKsz2] at hcR2
      intro p hp
      exact (tilesB_bounds m.total_size R (addr + 2 ^ K) hcR2 p hp).1
    have hKd : K = w + (K - w) := by omega
    rw [hw, hKsz2, hsp] at h
    have hone := (@splitLoopB_spec (2 ^ w) w hw4 rfl addr K (2 ^ K)
      (L ++ (addr, b) :: R) hwK (le_of_lt (Nat.lt_two_pow K))).1
    rw [hone] at h
    have htwo := splitLoopB_splice (w := w) hw4 addr L b hL (K - w) (2 ^ K) R
      (by
        have := Nat.lt_two_pow K
        omega)
      (by rw [← hKd]; exact hRbound)
    rw [← hKd] at htwo
    rw [htwo] at h
    rw [mapInsert_replace addr ⟨2 ^ w, r, false⟩ b L
      (splinters addr w (K - w) ++ R) hL] at h
    cases h
    exact ⟨L, R, b, K, w, hsp, hfree, hKsz2, hw, hw4, hwK, hKdvd2, rfl, rfl, hL, hR, hRbound⟩

/-- Splinter keys are strictly increasing. -/
theorem splinters_pairwise (addr : Nat) :
    ∀ (d w : Nat), List.Pairwise (fun x y => x.1 < y.1) (splinters addr w d) := by
  intro d
  induction d with
  | zero => intro w; exact List.Pairwise.nil
  | succ n ih =>
    intro w
    rw [splinters]
    refine List.pairwise_cons.mpr ⟨?_, ih (w + 1)⟩
    intro q hq
    obtain ⟨j, hj1, _, hj3⟩ := mem_splinters addr n (w + 1) q hq
    rw [hj3]
    show addr + 2 ^ w < addr + 2 ^ j
    have : 2 ^ w < 2 ^ j := Nat.pow_lt_pow_right (by decide) (by omega)
    omega

/-- A successful `alloc` preserves the full buddy invariant and the
arena size. -/
theorem alloc_preserves_inv {m : MemoryAllocator} {r : Nat} {x : Nat × MemoryAllocator}
    (hi : Inv m) (h : m.alloc r = some x) :
    Inv x.2 ∧ x.2.total_size = m.total_size := by
  obtain ⟨hs, ht, hp, hn⟩ := hi
  by_cases hr : r = 0
  · unfold MemoryAllocator.alloc at h
    rw [if_pos hr] at h
    cases h
    exact ⟨⟨hs, ht, hp, hn⟩, rfl⟩
  · obtain ⟨L, R, b, K, w, hsp, hfree, hbsz, hw, hw4, hwK, hdvd, hblocks, htot, hL, hR, hRb⟩ :=
      alloc_splice hs ht hp hr h
    have hpnew : ∀ p ∈ x.2.blocks, ∃ k, 4 ≤ k ∧ p.2.size = 2 ^ k ∧ 2 ^ k ∣ p.1 :=
      alloc_preserves_aligned hp h
    have hmemsplit : ∀ p ∈ x.2.blocks,
        p ∈ L ∨ p = (x.1, ⟨2 ^ w, r, false⟩) ∨ p ∈ splinters x.1 w (K - w) ∨ p ∈ R := by
      intro p hp2
      rw [hblocks] at hp2
      rcases List.mem_append.mp hp2 with hl | hc
      · exact Or.inl hl
      · rcases List.mem_cons.mp hc with he | hm
        · exact Or.inr (Or.inl he)
        · rcases List.mem_append.mp hm with hsp2 | hr2
          · exact Or.inr (Or.inr (Or.inl hsp2))
          · exact Or.inr (Or.inr (Or.inr hr2))
    have hspl_key : ∀ q ∈ splinters x.1 w (K - w),
        ∃ j, w ≤ j ∧ j < K ∧ q = (x.1 + 2 ^ j, ⟨2 ^ j, 0, true⟩) := by
      intro q hq
      obtain ⟨j, h1, h2, h3⟩ := mem_splinters x.1 (K - w) w q hq
      exact ⟨j, h1, by omega, h3⟩
    refine ⟨⟨?_, ?_, hpnew, ?_⟩, htot⟩
    · -- sorted keys
      rw [hsp] at hs
      obtain ⟨hsL, hsC, hcross⟩ := List.pairwise_append.mp hs
      have hsR := (List.pairwise_cons.mp hsC).2
      rw [hblocks]
      refine List.pairwise_append.mpr ⟨hsL, ?_, ?_⟩
      · refine List.pairwise_cons.mpr ⟨?_, ?_⟩
        · intro q hq
          rcases List.mem_append.mp hq with hqs | hqr
          · obtain ⟨j, _, _, h3⟩ := hspl_key q hqs
            rw [h3]
            show x.1 < x.1 + 2 ^ j
            have := pow_pos (by decide : (0:Nat) < 2) j
            omega
          · exact hR q hqr
        · refine List.pairwise_append.mpr ⟨splinters_pairwise x.1 (K - w) w, hsR, ?_⟩
          intro q hq q' hq'
          obtain ⟨j, _, hjK, h3⟩ := hspl_key q hq
          have := hRb q' hq'
          rw [h3]
          show x.1 + 2 ^ j < q'.1
          have hlt : 2 ^ j < 2 ^ K := Nat.pow_lt_pow_right (by decide) hjK
          omega
      · intro p hp2 q hq
        have hpa : p.1 < x.1 := hL p hp2
        rcases List.mem_cons.mp hq with he | hm
        · rw [he]
          exact hpa
        · rcases List.mem_append.mp hm with hqs | hqr
          · obtain ⟨j, _, _, h3⟩ := hspl_key q hqs
            rw [h3]
            show p.1 < x.1 + 2 ^ j
            have hj0 : 0 < 2 ^ j := pow_pos (by decide) j
            omega
          · have := hR q hqr
            omega
    · -- tiling
      rw [hsp] at ht
      obtain ⟨c, hcL, hcR⟩ := (tilesB_append m.total_size L ((x.1, b) :: R) 0).mp ht
      simp only [tilesB, Bool.and_eq_true, beq_iff_eq] at hcR
      obtain ⟨hca, hcR2⟩ := hcR
      rw [← hca] at hcL hcR2
      rw [hbsz] at hcR2
      rw [hblocks]
      apply (tilesB_append x.2.total_size L _ 0).mpr
      refine ⟨x.1, by rw [htot] at *; exact hcL, ?_⟩
      simp only [tilesB, Bool.and_eq_true, beq_iff_eq]
      refine ⟨by trivial, ?_⟩
      apply (tilesB_append x.2.total_size (splinters x.1 w (K - w)) R _).mpr
      refine ⟨x.1 + 2 ^ K, ?_, by rw [htot]; exact hcR2⟩
      have := tiles_splinters x.1 (K - w) w
      rw [show w + (K - w) = K by omega] at this
      show tilesB (x.1 + 2 ^ K) ((x.1 : Nat) + 2 ^ w) (splinters x.1 w (K - w)) = true
      exact this
    · -- NFP
      intro p hp2 q hq2 hpf hqf hsize hbud
      have hpmem := hmemsplit p hp2
      have hqmem := hmemsplit q hq2
      have hLRp : ∀ z : Nat × MemoryBlock, z ∈ L ∨ z ∈ R → z ∈ m.blocks := by
        intro z hc
        rw [hsp]
        rcases hc with hc | hc
        · exact List.mem_append_left _ hc
        · exact List.mem_append_right _ (List.mem_cons_of_mem _ hc)
      have hLRkey : ∀ z : Nat × MemoryBlock, z ∈ L ∨ z ∈ R → z.1 ≠ x.1 := by
        intro z hz
        rcases hz with hz | hz
        · have := hL z hz; omega
        · have := hR z hz; omega
      have hold : p ∈ m.blocks → q ∈ m.blocks → False := fun hpm hqm =>
        hn p hpm q hqm hpf hqf hsize hbud
      have hpe_case : p = (x.1, ⟨2 ^ w, r, false⟩) → False := by
        intro he
        rw [he] at hpf
        cases hpf
      have hqe_case : q = (x.1, ⟨2 ^ w, r, false⟩) → False := by
        intro he
        rw [he] at hqf
        cases hqf
      have hss : p ∈ splinters x.1 w (K - w) → q ∈ splinters x.1 w (K - w) → False := by
        intro hps hqs
        obtain ⟨j, hj1, hj2, hj3⟩ := hspl_key p hps
        obtain ⟨j', hj1', hj2', hj3'⟩ := hspl_key q hqs
        have hsz2 : (2 : Nat) ^ j = 2 ^ j' := by
          rw [hj3, hj3'] at hsize
          exact hsize
        have hjj : j = j' := Nat.pow_right_injective (by decide) hsz2
        have hbud2 : x.1 + 2 ^ j = buddyAddr (x.1 + 2 ^ j) (2 ^ j) := by
          rw [hj3, hj3', ← hjj] at hbud
          exact hbud
        have hdj : 2 ^ j ∣ x.1 + 2 ^ j :=
          Dvd.dvd.add (dvd_trans (pow_dvd_pow 2 (le_of_lt hj2)) hdvd) dvd_rfl
        exact buddyAddr_ne hdj hbud2.symm
      have hps_case : p ∈ splinters x.1 w (K - w) → (q ∈ L ∨ q ∈ R) → False := by
        intro hps hqLR
        obtain ⟨j, hj1, hj2, hj3⟩ := hspl_key p hps
        have hdj1 : 2 ^ (j + 1) ∣ x.1 := dvd_trans (pow_dvd_pow 2 hj2) hdvd
        have hq1 : q.1 = x.1 := by
          have hb2 : q.1 = buddyAddr (x.1 + 2 ^ j) (2 ^ j) := by
            rw [hj3] at hbud
            exact hbud
          rw [buddyAddr_splinter hdj1] at hb2
          exact hb2
        exact hLRkey q hqLR hq1
      have hqs_case : (p ∈ L ∨ p ∈ R) → q ∈ splinters x.1 w (K - w) → False := by
        intro hpLR hqs
        obtain ⟨j, hj1, hj2, hj3⟩ := hspl_key q hqs
        have hpm := hLRp p hpLR
        obtain ⟨kp, _, hkpsz, hkpdvd⟩ := hp p hpm
        have hsz2 : p.2.size = 2 ^ j := by
          rw [hj3] at hsize
          exact hsize
        have hpow2 : (2 : Nat) ^ kp = 2 ^ j := by rw [← hkpsz, hsz2]
        have hkpj : kp = j := Nat.pow_right_injective (by decide) hpow2
        rw [hkpj] at hkpdvd
        have hb2 : buddyAddr p.1 (2 ^ j) = x.1 + 2 ^ j := by
          have hb0 : x.1 + 2 ^ j = buddyAddr p.1 p.2.size := by
            rw [hj3] at hbud
            exact hbud
          rw [hsz2] at hb0
          exact hb0.symm
        have hinv2 := buddyAddr_involutive hkpdvd
        rw [hb2] at hinv2
        have hdj1 : 2 ^ (j + 1) ∣ x.1 := dvd_trans (pow_dvd_pow 2 hj2) hdvd
        rw [buddyAddr_splinter hdj1] at hinv2
        exact hLRkey p hpLR hinv2.symm
      rcases hpmem with hpL | hpe | hps | hpR <;>
        rcases hqmem with hqL | hqe | hqs | hqR
      · exact hold (hLRp p (Or.inl hpL)) (hLRp q (Or.inl hqL))
      · exact hqe_case hqe
      · exact hqs_case (Or.inl hpL) hqs
      · exact hold (hLRp p (Or.inl hpL)) (hLRp q (Or.inr hqR))
      · exact hpe_case hpe
      · exact hpe_case hpe
      · exact hpe_case hpe
      · exact hpe_case hpe
      · exact hps_case hps (Or.inl hqL)
      · exact hqe_case hqe
      · exact hss hps hqs
      · exact hps_case hps (Or.inr hqR)
      · exact hold (hLRp p (Or.inr hpR)) (hLRp q (Or.inl hqL))
      · exact hqe_case hqe
      · exact hqs_case (Or.inr hpR) hqs
      · exact hold (hLRp p (Or.inr hpR)) (hLRp q (Or.inr hqR))

/-- An absent key has no member. -/
theorem mapFind?_none_mem {k : Nat} :
    ∀ {bs : List (Nat × MemoryBlock)}, mapFind? k bs = none →
      ∀ p ∈ bs, p.1 ≠ k := by
  intro bs
  induction bs with
  | nil => intro _ p hp; cases hp
  | cons q t ih =>
    intro h p hp
    obtain ⟨x, c⟩ := q
    rw [mapFind?] at h
    by_cases hx : x = k
    · rw [if_pos hx] at h
      cases h
    · rw [if_neg hx] at h
      rcases List.mem_cons.mp hp with heq | htl
      · rw [heq]
        exact hx
      · exact ih h p htl

/-- If no merge is possible at the distinguished address, "no free buddy
pairs except at that address" collapses to full NFP. -/
theorem nfp_of_blocked {bs : List (Nat × MemoryBlock)} {addr : Nat}
    (hs : SortedKeys bs)
    (hp : ∀ p ∈ bs, ∃ k, 4 ≤ k ∧ p.2.size = 2 ^ k ∧ 2 ^ k ∣ p.1)
    (hQ : ∀ p ∈ bs, ∀ q ∈ bs, p.2.is_free = true → q.2.is_free = true →
      p.2.size = q.2.size → q.1 = buddyAddr p.1 p.2.size → p.1 = addr ∨ q.1 = addr)
    (hstop : ∀ b, mapFind? addr bs = some b →
      ∀ bd, mapFind? (buddyAddr addr b.size) bs = some bd →
        ¬ (bd.is_free = true ∧ bd.size = b.size)) :
    NFP bs := by
  intro p hpm q hqm hpf hqf hsz hbud
  rcases hQ p hpm q hqm hpf hqf hsz hbud with hpa | hqa
  · have hfp : mapFind? addr bs = some p.2 := by
      rw [← hpa]
      exact mapFind?_of_mem_sorted hs hpm
    have hfq : mapFind? (buddyAddr addr p.2.size) bs = some q.2 := by
      rw [← hpa, ← hbud]
      exact mapFind?_of_mem_sorted hs hqm
    exact hstop p.2 hfp q.2 hfq ⟨hqf, hsz.symm⟩
  · have hfq : mapFind? addr bs = some q.2 := by
      rw [← hqa]
      exact mapFind?_of_mem_sorted hs hqm
    obtain ⟨kp, _, hkpsz, hkpdvd⟩ := hp p hpm
    have h1 : buddyAddr p.1 (2 ^ kp) = addr := by
      rw [← hkpsz]
      exact hbud.symm.trans hqa
    have h2 : p.1 = buddyAddr addr (2 ^ kp) := by
      have hi := buddyAddr_involutive hkpdvd
      rw [h1] at hi
      exact hi.symm
    have hfp : mapFind? (buddyAddr addr q.2.size) bs = some p.2 := by
      rw [← hsz, hkpsz, ← h2]
      exact mapFind?_of_mem_sorted hs hpm
    exact hstop q.2 hfq p.2 hfp ⟨hpf, hsz⟩

/-- A single block at offset 0 has no free buddy pair. -/
theorem nfp_singleton {c : MemoryBlock} {k : Nat} (hsz : c.size = 2 ^ k) :
    NFP [(0, c)] := by
  intro p hpm q hqm _ _ _ hbud
  have hp1 : p = (0, c) := by simpa using hpm
  have hq1 : q = (0, c) := by simpa using hqm
  rw [hp1, hq1] at hbud
  have hz : (0 : Nat) &&& c.size = 0 := Nat.zero_and _
  unfold buddyAddr at hbud
  rw [if_pos hz] at hbud
  have : (0 : Nat) < c.size := by
    rw [hsz]
    exact pow_pos (by decide) k
  simp only [] at hbud
  omega

/-- A block as large as the whole tiled arena is the only block, at
offset 0. -/
theorem tiles_singleton {bs : List (Nat × MemoryBlock)} {total left : Nat}
    {c : MemoryBlock}
    (hs : SortedKeys bs)
    (ht : tilesB total 0 bs = true)
    (hp : ∀ p ∈ bs, ∃ k, 4 ≤ k ∧ p.2.size = 2 ^ k ∧ 2 ^ k ∣ p.1)
    (hm : (left, c) ∈ bs) (hsz : total ≤ c.size) :
    bs = [(left, c)] ∧ left = 0 ∧ c.size = total := by
  have hpos : ∀ p ∈ bs, 0 < p.2.size := by
    intro p hpm
    obtain ⟨k, _, hk, _⟩ := hp p hpm
    rw [hk]
    exact pow_pos (by decide) k
  have hb := tilesB_bounds total bs 0 ht (left, c) hm
  have hc1 : left = 0 := by
    have := hb.2
    simp only [] at this
    omega
  have hc2 : c.size = total := by
    have := hb.2
    simp only [] at this
    omega
  obtain ⟨L, R, hsp, hL, hR⟩ := sorted_split hs hm
  rw [hsp] at ht
  obtain ⟨d, hdL, hdR⟩ := (tilesB_append total L ((left, c) :: R) 0).mp ht
  simp only [tilesB, Bool.and_eq_true, beq_iff_eq] at hdR
  obtain ⟨hdl, hdR2⟩ := hdR
  have hd0 : d = 0 := by omega
  have hLnil : L = [] := by
    apply tilesB_nil_of_end 0 L
    · rw [hd0] at hdL
      exact hdL
    · intro p hpm
      exact hpos p (by rw [hsp]; exact List.mem_append_left _ hpm)
  have hRnil : R = [] := by
    apply tilesB_nil_of_end total R
    · rw [hd0, hc2, Nat.zero_add] at hdR2
      exact hdR2
    · intro p hpm
      exact hpos p (by
        rw [hsp]
        exact List.mem_append_right _ (List.mem_cons_of_mem _ hpm))
  refine ⟨?_, hc1, hc2⟩
  rw [hsp, hLnil, hRnil]
  rfl

/-- The coalescing loop preserves the full buddy invariant: starting from
a state whose only possible free buddy pairs involve the current address,
enough fuel yields a sorted, tiled, aligned state with no free buddy
pairs at all. -/
theorem mergeGo_preserves_inv (total : Nat) :
    ∀ (fuel addr : Nat) (bs : List (Nat × MemoryBlock)),
      bs.length < fuel →
      SortedKeys bs →
      tilesB total 0 bs = true →
      (∀ p ∈ bs, ∃ k, 4 ≤ k ∧ p.2.size = 2 ^ k ∧ 2 ^ k ∣ p.1) →
      (∀ p ∈ bs, ∀ q ∈ bs, p.2.is_free = true → q.2.is_free = true →
        p.2.size = q.2.size → q.1 = buddyAddr p.1 p.2.size →
        p.1 = addr ∨ q.1 = addr) →
      SortedKeys (mergeGo total fuel addr bs).2 ∧
      tilesB total 0 (mergeGo total fuel addr bs).2 = true ∧
      (∀ p ∈ (mergeGo total fuel addr bs).2,
        ∃ k, 4 ≤ k ∧ p.2.size = 2 ^ k ∧ 2 ^ k ∣ p.1) ∧
      NFP (mergeGo total fuel addr bs).2 := by
  intro fuel
  induction fuel with
  | zero =>
    intro addr bs hlen
    exact absurd hlen (by omega)
  | succ f ih =>
    intro addr bs hlen hs ht hp hQ
    rw [mergeGo]
    cases hfa : mapFind? addr bs with
    | none =>
      refine ⟨hs, ht, hp, ?_⟩
      refine nfp_of_blocked hs hp hQ ?_
      intro b hb
      rw [hfa] at hb
      cases hb
    | some b =>
      simp only []
      obtain ⟨kb, hkb4, hkbsz0, hkbdvd0⟩ := hp (addr, b) (mapFind?_mem hfa)
      have hkbsz : b.size = 2 ^ kb := hkbsz0
      have hkbdvd : 2 ^ kb ∣ addr := hkbdvd0
      cases hfb : mapFind? (if addr &&& b.size = 0 then addr + b.size else addr - b.size) bs with
      | none =>
        refine ⟨hs, ht, hp, ?_⟩
        refine nfp_of_blocked hs hp hQ ?_
        intro b' hb' bd hbd
        rw [hfa] at hb'
        cases hb'
        unfold buddyAddr at hbd
        rw [hfb] at hbd
        cases hbd
      | some bd =>
        simp only []
        set buddy := if addr &&& b.size = 0 then addr + b.size else addr - b.size with hbdef
        by_cases hg : bd.is_free = true ∧ bd.size = b.size
        · rw [if_pos hg]
          -- sizes agree
          obtain ⟨kd, hkd4, hkdsz0, hkddvd0⟩ := hp (buddy, bd) (mapFind?_mem hfb)
          have hkdsz : bd.size = 2 ^ kd := hkdsz0
          have hkddvd : 2 ^ kd ∣ buddy := hkddvd0
          have hpowdb : (2 : Nat) ^ kd = 2 ^ kb := by
            rw [← hkdsz, ← hkbsz]
            exact hg.2
          have hkdb : kd = kb := Nat.pow_right_injective (by decide) hpowdb
          rw [hkdb] at hkdsz hkddvd
          -- split the old sortedness
          by_cases hlt : buddy < addr
          · rw [if_pos hlt]
            -- left merge: addr is the right buddy
            have hand : ¬ (addr &&& b.size = 0) := by
              intro h0
              rw [hbdef, if_pos h0] at hlt
              omega
            have hand' : addr &&& 2 ^ kb ≠ 0 := by
              rw [← hkbsz]; exact hand
            have hbd_eq : buddy = addr - 2 ^ kb := by
              rw [hbdef, if_neg hand, hkbsz]
            obtain ⟨hka, hkdvd1⟩ := and_pow2_ne_zero hkbdvd hand'
            have hadj : buddy + 2 ^ kb = addr := by omega
            obtain ⟨L, R, hsp, hL, hR⟩ := sorted_split hs (mapFind?_mem hfb)
            have hsRall : SortedKeys R := by
              rw [hsp] at hs
              exact (List.pairwise_cons.mp (List.pairwise_append.mp hs).2.1).2
            have htdec := ht
            rw [hsp] at htdec
            obtain ⟨d, hdL, hdR⟩ := (tilesB_append total L ((buddy, bd) :: R) 0).mp htdec
            simp only [tilesB, Bool.and_eq_true, beq_iff_eq] at hdR
            obtain ⟨hdl, hdR2⟩ := hdR
            rw [← hdl] at hdL hdR2
            rw [hkdsz, hadj] at hdR2
            -- the block at addr is next in the list
            have hmemb : (addr, b) ∈ R := by
              have hmb := mapFind?_mem hfa
              rw [hsp] at hmb
              rcases List.mem_append.mp hmb with hc | hc
              · have := hL _ hc
                omega
              · rcases List.mem_cons.mp hc with hc2 | hc2
                · have hba : addr = buddy := congrArg Prod.fst hc2
                  omega
                · exact hc2
            cases hre : R with
            | nil =>
              rw [hre] at hmemb
              cases hmemb
            | cons ye R' =>
              obtain ⟨y, e⟩ := ye
              rw [hre] at hdR2
              simp only [tilesB, Bool.and_eq_true, beq_iff_eq] at hdR2
              obtain ⟨hya, hdR3⟩ := hdR2
              have heb : e = b := by
                rw [hre] at hmemb
                rcases List.mem_cons.mp hmemb with hc | hc
                · cases hc
                  rfl
                · rw [hre] at hsRall
                  have := (List.pairwise_cons.mp hsRall).1 (addr, b) hc
                  rw [hya] at this
                  simp only [] at this
                  omega
              rw [heb, hya] at hre
              -- now bs = L ++ (buddy, bd) :: (addr, b) :: R'
              have hsp2 : bs = L ++ (buddy, bd) :: (addr, b) :: R' := by
                rw [hsp, hre]
              have hR' : ∀ p ∈ R', addr < p.1 := by
                intro p hpm
                rw [hre] at hsRall
                exact (List.pairwise_cons.mp hsRall).1 p hpm
              rw [heb] at hdR3
              rw [hkbsz] at hdR3
              -- the merged state
              have herase : mapErase addr bs = L ++ (buddy, bd) :: R' := by
                rw [hsp2]
                have := mapErase_marked addr b (L ++ [(buddy, bd)]) R'
                  (by
                    intro p hpm
                    rcases List.mem_append.mp hpm with hc | hc
                    · have := hL p hc
                      omega
                    · have : p = (buddy, bd) := by simpa using hc
                      rw [this]
                      simp only []
                      omega)
                simp only [List.append_assoc, List.cons_append, List.nil_append] at this
                exact this
              have hins : mapInsert buddy ⟨bd.size * 2, bd.allocated, bd.is_free⟩
                  (L ++ (buddy, bd) :: R') = L ++ (buddy, ⟨bd.size * 2, bd.allocated, bd.is_free⟩) :: R' :=
                mapInsert_replace buddy _ bd L R' hL
              rw [herase, hins]
              set merged : MemoryBlock := ⟨bd.size * 2, bd.allocated, bd.is_free⟩ with hmdef
              set bs' : List (Nat × MemoryBlock) := L ++ (buddy, merged) :: R' with hbs'
              have hmsz : merged.size = 2 ^ (kb + 1) := by
                show bd.size * 2 = 2 ^ (kb + 1)
                rw [hkdsz, pow_succ]
              -- invariants of bs'
              have hs' : SortedKeys bs' := by
                rw [hsp] at hs
                obtain ⟨hsL, hsC, hcross⟩ := List.pairwise_append.mp hs
                refine List.pairwise_append.mpr ⟨hsL, ?_, ?_⟩
                · refine List.pairwise_cons.mpr ⟨?_, ?_⟩
                  · intro p hpm
                    have := hR p (by rw [hre]; exact List.mem_cons_of_mem _ hpm)
                    exact this
                  · rw [hre] at hsRall
                    exact (List.pairwise_cons.mp hsRall).2
                · intro p hpm q hqm
                  have hpk := hL p hpm
                  rcases List.mem_cons.mp hqm with hc | hc
                  · rw [hc]
                    exact hpk
                  · have := hR q (by rw [hre]; exact List.mem_cons_of_mem _ hc)
                    show p.1 < q.1
                    omega
              have ht' : tilesB total 0 bs' = true := by
                apply (tilesB_append total L ((buddy, merged) :: R') 0).mpr
                refine ⟨buddy, hdL, ?_⟩
                simp only [tilesB, Bool.and_eq_true, beq_iff_eq]
                refine ⟨by trivial, ?_⟩
                have hmsz2 : bd.size * 2 = 2 ^ (kb + 1) := hmsz
                rw [hmsz2]
                have : buddy + 2 ^ (kb + 1) = addr + 2 ^ kb := by
                  rw [pow_succ]
                  omega
                rw [this]
                exact hdR3
              have hp' : ∀ p ∈ bs', ∃ k, 4 ≤ k ∧ p.2.size = 2 ^ k ∧ 2 ^ k ∣ p.1 := by
                intro p hpm
                rcases List.mem_append.mp hpm with hc | hc
                · exact hp p (by rw [hsp]; exact List.mem_append_left _ hc)
                · rcases List.mem_cons.mp hc with hc2 | hc2
                  · rw [hc2]
                    refine ⟨kb + 1, by omega, hmsz, ?_⟩
                    show 2 ^ (kb + 1) ∣ buddy
                    rw [hbd_eq]
                    exact hkdvd1
                  · exact hp p (by
                      rw [hsp2]
                      exact List.mem_append_right _
                        (List.mem_cons_of_mem _ (List.mem_cons_of_mem _ hc2)))
              have hQ' : ∀ p ∈ bs', ∀ q ∈ bs', p.2.is_free = true → q.2.is_free = true →
                  p.2.size = q.2.size → q.1 = buddyAddr p.1 p.2.size →
                  p.1 = buddy ∨ q.1 = buddy := by
                intro p hpm q hqm hpf hqf hsz hbud
                have hmemsplit : ∀ z : Nat × MemoryBlock, z ∈ bs' →
                    z = (buddy, merged) ∨ (z ∈ bs ∧ z.1 ≠ addr ∧ z.1 ≠ buddy) := by
                  intro z hzm
                  rcases List.mem_append.mp hzm with hc | hc
                  · refine Or.inr ⟨by rw [hsp]; exact List.mem_append_left _ hc, ?_, ?_⟩
                    · have := hL z hc
                      omega
                    · have := hL z hc
                      omega
                  · rcases List.mem_cons.mp hc with hc2 | hc2
                    · exact Or.inl hc2
                    · refine Or.inr ⟨by
                        rw [hsp2]
                        exact List.mem_append_right _
                          (List.mem_cons_of_mem _ (List.mem_cons_of_mem _ hc2)), ?_, ?_⟩
                      · have := hR' z hc2
                        omega
                      · have := hR' z hc2
                        omega
                rcases hmemsplit p hpm with hc | ⟨hpbs, hpna, hpnb⟩
                · left
                  rw [hc]
                rcases hmemsplit q hqm with hc | ⟨hqbs, hqna, hqnb⟩
                · right
                  rw [hc]
                rcases hQ p hpbs q hqbs hpf hqf hsz hbud with hc | hc
                · exact absurd hc hpna
                · exact absurd hc hqna
              by_cases hsz2 : b.size * 2 < total
              · rw [if_pos hsz2]
                apply ih buddy bs' ?_ hs' ht' hp' hQ'
                have hlen1 : bs.length = L.length + 2 + R'.length := by
                  rw [hsp2]
                  simp [List.length_append]
                  omega
                have hlen2 : bs'.length = L.length + 1 + R'.length := by
                  rw [hbs']
                  simp [List.length_append]
                  omega
                omega
              · rw [if_neg hsz2]
                refine ⟨hs', ht', hp', ?_⟩
                have htot : total ≤ merged.size := by
                  rw [hmsz, pow_succ, ← hkbsz]
                  omega
                obtain ⟨hsingle, hb0, hbt⟩ := tiles_singleton hs' ht' hp'
                  (List.mem_append_right _ (List.mem_cons_self _ _)) htot
                show NFP bs'
                rw [hsingle, hb0]
                exact nfp_singleton hmsz
          · rw [if_neg hlt]
            -- right merge: addr is the left buddy
            have hand0 : addr &&& b.size = 0 := by
              by_contra hc
              have hc' : addr &&& 2 ^ kb ≠ 0 := by
                rw [← hkbsz]; exact hc
              have hle := (and_pow2_ne_zero hkbdvd hc').1
              rw [hbdef, if_neg hc] at hlt
              have hk1 : 1 ≤ 2 ^ kb := Nat.one_le_two_pow
              rw [hkbsz] at hlt
              omega
            have hand0' : addr &&& 2 ^ kb = 0 := by
              rw [← hkbsz]; exact hand0
            have hbd_eq : buddy = addr + 2 ^ kb := by
              rw [hbdef, if_pos hand0, hkbsz]
            have hdvd1 : 2 ^ (kb + 1) ∣ addr := and_pow2_eq_zero_dvd hkbdvd hand0'
            obtain ⟨L, R, hsp, hL, hR⟩ := sorted_split hs (mapFind?_mem hfa)
            have hsRall : SortedKeys R := by
              rw [hsp] at hs
              exact (List.pairwise_cons.mp (List.pairwise_append.mp hs).2.1).2
            have htdec := ht
            rw [hsp] at htdec
            obtain ⟨d, hdL, hdR⟩ := (tilesB_append total L ((addr, b) :: R) 0).mp htdec
            simp only [tilesB, Bool.and_eq_true, beq_iff_eq] at hdR
            obtain ⟨hdl, hdR2⟩ := hdR
            rw [← hdl] at hdL hdR2
            rw [hkbsz] at hdR2
            have hmemb : (buddy, bd) ∈ R := by
              have hmb := mapFind?_mem hfb
              rw [hsp] at hmb
              rcases List.mem_append.mp hmb with hc | hc
              · have := hL _ hc
                have hk1 : 1 ≤ 2 ^ kb := Nat.one_le_two_pow
                omega
              · rcases List.mem_cons.mp hc with hc2 | hc2
                · have hba : buddy = addr := congrArg Prod.fst hc2
                  have hk1 : 1 ≤ 2 ^ kb := Nat.one_le_two_pow
                  omega
                · exact hc2
            cases hre : R with
            | nil =>
              rw [hre] at hmemb
              cases hmemb
            | cons ye R' =>
              obtain ⟨y, e⟩ := ye
              rw [hre] at hdR2
              simp only [tilesB, Bool.and_eq_true, beq_iff_eq] at hdR2
              obtain ⟨hya, hdR3⟩ := hdR2
              have hyb : y = buddy := by
                rw [hbd_eq]
                omega
              have heb : e = bd := by
                rw [hre] at hmemb
                rcases List.mem_cons.mp hmemb with hc | hc
                · cases hc
                  rfl
                · rw [hre] at hsRall
                  have := (List.pairwise_cons.mp hsRall).1 (buddy, bd) hc
                  rw [hya] at this
                  simp only [] at this
                  rw [hbd_eq] at this
                  omega
              rw [heb, hyb] at hre
              have hsp2 : bs = L ++ (addr, b) :: (buddy, bd) :: R' := by
                rw [hsp, hre]
              have hR' : ∀ p ∈ R', buddy < p.1 := by
                intro p hpm
                rw [hre] at hsRall
                exact (List.pairwise_cons.mp hsRall).1 p hpm
              rw [heb] at hdR3
              rw [hkdsz] at hdR3
              have herase : mapErase buddy bs = L ++ (addr, b) :: R' := by
                rw [hsp2]
                have := mapErase_marked buddy bd (L ++ [(addr, b)]) R'
                  (by
                    intro p hpm
                    rcases List.mem_append.mp hpm with hc | hc
                    · have h1 := hL p hc
                      have hk1 : 1 ≤ 2 ^ kb := Nat.one_le_two_pow
                      rw [hbd_eq]
                      omega
                    · have : p = (addr, b) := by simpa using hc
                      rw [this]
                      simp only []
                      have hk1 : 1 ≤ 2 ^ kb := Nat.one_le_two_pow
                      rw [hbd_eq]
                      omega)
                simp only [List.append_assoc, List.cons_append, List.nil_append] at this
                exact this
              have hins : mapInsert addr ⟨b.size * 2, b.allocated, b.is_free⟩
                  (L ++ (addr, b) :: R') = L ++ (addr, ⟨b.size * 2, b.allocated, b.is_free⟩) :: R' :=
                mapInsert_replace addr _ b L R' hL
              rw [herase, hins]
              set merged : MemoryBlock := ⟨b.size * 2, b.allocated, b.is_free⟩ with hmdef
              set bs' : List (Nat × MemoryBlock) := L ++ (addr, merged) :: R' with hbs'
              have hmsz : merged.size = 2 ^ (kb + 1) := by
                show b.size * 2 = 2 ^ (kb + 1)
                rw [hkbsz, pow_succ]
              have hs' : SortedKeys bs' := by
                rw [hsp] at hs
                obtain ⟨hsL, hsC, hcross⟩ := List.pairwise_append.mp hs
                refine List.pairwise_append.mpr ⟨hsL, ?_, ?_⟩
                · refine List.pairwise_cons.mpr ⟨?_, ?_⟩
                  · intro p hpm
                    have h1 := hR p (by rw [hre]; exact List.mem_cons_of_mem _ hpm)
                    exact h1
                  · rw [hre] at hsRall
                    exact (List.pairwise_cons.mp hsRall).2
                · intro p hpm q hqm
                  have hpk := hL p hpm
                  rcases List.mem_cons.mp hqm with hc | hc
                  · rw [hc]
                    exact hpk
                  · have h1 := hR q (by rw [hre]; exact List.mem_cons_of_mem _ hc)
                    show p.1 < q.1
                    omega
              have ht' : tilesB total 0 bs' = true := by
                apply (tilesB_append total L ((addr, merged) :: R') 0).mpr
                refine ⟨addr, hdL, ?_⟩
                simp only [tilesB, Bool.and_eq_true, beq_iff_eq]
                refine ⟨by trivial, ?_⟩
                have hmsz2 : b.size * 2 = 2 ^ (kb + 1) := hmsz
                rw [hmsz2]
                have heq2 : addr + 2 ^ (kb + 1) = addr + 2 ^ kb + 2 ^ kb := by
                  rw [pow_succ]
                  omega
                rw [heq2]
                exact hdR3
              have hp' : ∀ p ∈ bs', ∃ k, 4 ≤ k ∧ p.2.size = 2 ^ k ∧ 2 ^ k ∣ p.1 := by
                intro p hpm
                rcases List.mem_append.mp hpm with hc | hc
                · exact hp p (by rw [hsp]; exact List.mem_append_left _ hc)
                · rcases List.mem_cons.mp hc with hc2 | hc2
                  · rw [hc2]
                    exact ⟨kb + 1, by omega, hmsz, hdvd1⟩
                  · exact hp p (by
                      rw [hsp2]
                      exact List.mem_append_right _
                        (List.mem_cons_of_mem _ (List.mem_cons_of_mem _ hc2)))
              have hQ' : ∀ p ∈ bs', ∀ q ∈ bs', p.2.is_free = true → q.2.is_free = true →
                  p.2.size = q.2.size → q.1 = buddyAddr p.1 p.2.size →
                  p.1 = addr ∨ q.1 = addr := by
                intro p hpm q hqm hpf hqf hsz hbud
                have hmemsplit : ∀ z : Nat × MemoryBlock, z ∈ bs' →
                    z = (addr, merged) ∨ (z ∈ bs ∧ z.1 ≠ addr) := by
                  intro z hzm
                  rcases List.mem_append.mp hzm with hc | hc
                  · refine Or.inr ⟨by rw [hsp]; exact List.mem_append_left _ hc, ?_⟩
                    have := hL z hc
                    omega
                  · rcases List.mem_cons.mp hc with hc2 | hc2
                    · exact Or.inl hc2
                    · refine Or.inr ⟨by
                        rw [hsp2]
                        exact List.mem_append_right _
                          (List.mem_cons_of_mem _ (List.mem_cons_of_mem _ hc2)), ?_⟩
                      have h1 := hR' z hc2
                      have hk1 : 1 ≤ 2 ^ kb := Nat.one_le_two_pow
                      rw [hbd_eq] at h1
                      omega
                rcases hmemsplit p hpm with hc | ⟨hpbs, hpna⟩
                · left
                  rw [hc]
                rcases hmemsplit q hqm with hc | ⟨hqbs, hqna⟩
                · right
                  rw [hc]
                rcases hQ p hpbs q hqbs hpf hqf hsz hbud with hc | hc
                · exact absurd hc hpna
                · exact absurd hc hqna
              by_cases hsz2 : b.size * 2 < total
              · rw [if_pos hsz2]
                apply ih addr bs' ?_ hs' ht' hp' hQ'
                have hlen1 : bs.length = L.length + 2 + R'.length := by
                  rw [hsp2]
                  simp [List.length_append]
                  omega
                have hlen2 : bs'.length = L.length + 1 + R'.length := by
                  rw [hbs']
                  simp [List.length_append]
                  omega
                omega
              · rw [if_neg hsz2]
                refine ⟨hs', ht', hp', ?_⟩
                have htot : total ≤ merged.size := by
                  rw [hmsz, pow_succ, ← hkbsz]
                  omega
                obtain ⟨hsingle, hb0, hbt⟩ := tiles_singleton hs' ht' hp'
                  (List.mem_append_right _ (List.mem_cons_self _ _)) htot
                show NFP bs'
                rw [hsingle, hb0]
                exact nfp_singleton hmsz
        · rw [if_neg hg]
          refine ⟨hs, ht, hp, ?_⟩
          refine nfp_of_blocked hs hp hQ ?_
          intro b' hb' bd' hbd'
          rw [hfa] at hb'
          cases hb'
          unfold buddyAddr at hbd'
          rw [← hbdef] at hbd'
          rw [hfb] at hbd'
          cases hbd'
          exact hg

/-- A successful `dealloc` preserves the full buddy invariant and the
arena size. -/
theorem dealloc_preserves_inv {m m2 : MemoryAllocator} {a : Nat}
    (hi : Inv m) (h : m.dealloc a = .ok m2) :
    Inv m2 ∧ m2.total_size = m.total_size := by
  obtain ⟨hs, ht, hp, hn⟩ := hi
  unfold MemoryAllocator.dealloc at h
  cases hfa : mapFind? a m.blocks with
  | none => rw [hfa] at h; cases h
  | some b =>
    rw [hfa] at h
    simp only [] at h
    by_cases hf : b.is_free = true
    · rw [if_pos hf] at h
      cases h
    · rw [if_neg hf] at h
      obtain ⟨kb, hkb4, hkbsz0, hkbdvd0⟩ := hp (a, b) (mapFind?_mem hfa)
      have hkbsz : b.size = 2 ^ kb := hkbsz0
      have hkbdvd : 2 ^ kb ∣ a := hkbdvd0
      obtain ⟨L, R, hsp, hL, hR⟩ := sorted_split hs (mapFind?_mem hfa)
      have hins : mapInsert a ⟨b.size, 0, true⟩ m.blocks =
          L ++ (a, ⟨b.size, 0, true⟩) :: R := by
        rw [hsp]
        exact mapInsert_replace a _ b L R hL
      rw [hins] at h
      have hs1 : SortedKeys (L ++ (a, ⟨b.size, 0, true⟩) :: R) := by
        rw [hsp] at hs
        obtain ⟨hsL, hsC, hcross⟩ := List.pairwise_append.mp hs
        refine List.pairwise_append.mpr ⟨hsL, ?_, ?_⟩
        · refine List.pairwise_cons.mpr ⟨?_, (List.pairwise_cons.mp hsC).2⟩
          intro q hq
          exact hR q hq
        · intro p hpm q hqm
          have hpk := hL p hpm
          rcases List.mem_cons.mp hqm with hc | hc
          · rw [hc]
            exact hpk
          · have := hR q hc
            show p.1 < q.1
            omega
      have ht1 : tilesB m.total_size 0 (L ++ (a, ⟨b.size, 0, true⟩) :: R) = true := by
        rw [hsp] at ht
        obtain ⟨d, hdL, hdR⟩ := (tilesB_append m.total_size L ((a, b) :: R) 0).mp ht
        simp only [tilesB, Bool.and_eq_true, beq_iff_eq] at hdR
        obtain ⟨hdl, hdR2⟩ := hdR
        rw [← hdl] at hdL hdR2
        apply (tilesB_append m.total_size L _ 0).mpr
        refine ⟨a, hdL, ?_⟩
        simp only [tilesB, Bool.and_eq_true, beq_iff_eq]
        exact ⟨by trivial, hdR2⟩
      have hp1 : ∀ p ∈ L ++ (a, ⟨b.size, 0, true⟩) :: R,
          ∃ k, 4 ≤ k ∧ p.2.size = 2 ^ k ∧ 2 ^ k ∣ p.1 := by
        intro p hpm
        rcases List.mem_append.mp hpm with hc | hc
        · exact hp p (by rw [hsp]; exact List.mem_append_left _ hc)
        · rcases List.mem_cons.mp hc with hc2 | hc2
          · rw [hc2]
            exact ⟨kb, hkb4, hkbsz, hkbdvd⟩
          · exact hp p (by
              rw [hsp]
              exact List.mem_append_right _ (List.mem_cons_of_mem _ hc2))
      have hQ1 : ∀ p ∈ L ++ (a, ⟨b.size, 0, true⟩) :: R,
          ∀ q ∈ L ++ (a, ⟨b.size, 0, true⟩) :: R,
          p.2.is_free = true → q.2.is_free = true →
          p.2.size = q.2.size → q.1 = buddyAddr p.1 p.2.size →
          p.1 = a ∨ q.1 = a := by
        intro p hpm q hqm hpf hqf hsz hbud
        have hmemsplit : ∀ z : Nat × MemoryBlock, z ∈ L ++ (a, ⟨b.size, 0, true⟩) :: R →
            z.1 = a ∨ z ∈ m.blocks := by
          intro z hzm
          rcases List.mem_append.mp hzm with hc | hc
          · exact Or.inr (by rw [hsp]; exact List.mem_append_left _ hc)
          · rcases List.mem_cons.mp hc with hc2 | hc2
            · left
              rw [hc2]
            · exact Or.inr (by
                rw [hsp]
                exact List.mem_append_right _ (List.mem_cons_of_mem _ hc2))
        rcases hmemsplit p hpm with hc | hpbs
        · exact Or.inl hc
        rcases hmemsplit q hqm with hc | hqbs
        · exact Or.inr hc
        exact absurd (hn p hpbs q hqbs hpf hqf hsz hbud) (by intro hfalse; exact hfalse)
      have hmg := mergeGo_preserves_inv m.total_size
        ((L ++ (a, ⟨b.size, 0, true⟩) :: R).length + 1) a
        (L ++ (a, ⟨b.size, 0, true⟩) :: R) (by omega) hs1 ht1 hp1 hQ1
      cases h
      exact ⟨⟨hmg.1, hmg.2.1, hmg.2.2.1, hmg.2.2.2⟩, rfl⟩

/-- Every nonempty list of blocks has one of minimal size. -/
theorem exists_min_size :
    ∀ (bs : List (Nat × MemoryBlock)), bs ≠ [] →
      ∃ x ∈ bs, ∀ y ∈ bs, x.2.size ≤ y.2.size := by
  intro bs
  induction bs with
  | nil => intro h; exact absurd rfl h
  | cons p t ih =>
    intro _
    cases t with
    | nil =>
      exact ⟨p, List.mem_cons_self _ _, by
        intro y hy
        have : y = p := by simpa using hy
        rw [this]⟩
    | cons q t2 =>
      obtain ⟨x, hxm, hxmin⟩ := ih (by intro hc; cases hc)
      by_cases hc : p.2.size ≤ x.2.size
      · refine ⟨p, List.mem_cons_self _ _, ?_⟩
        intro y hy
        rcases List.mem_cons.mp hy with he | ht2
        · rw [he]
        · have := hxmin y ht2
          omega
      · refine ⟨x, List.mem_cons_of_mem _ hxm, ?_⟩
        intro y hy
        rcases List.mem_cons.mp hy with he | ht2
        · rw [he]
          omega
        · exact hxmin y ht2

/-- Two multiples of `d` within distance `d` coincide. -/
theorem dvd_between {d x y : Nat} (hx : d ∣ x) (hy : d ∣ y)
    (h1 : x ≤ y) (h2 : y < x + d) : x = y := by
  have hsub : d ∣ y - x := Nat.dvd_sub' hy hx
  have := Nat.eq_zero_of_dvd_of_lt hsub (by omega)
  omega

/-- Every reachable buddy state satisfies the full invariant with a
power-of-two arena, except the degenerate stuck initial arenas. -/
theorem breach_inv {m : MemoryAllocator} (h : BReach m) :
    (Inv m ∧ ∃ T, m.total_size = 2 ^ T) ∨
    (m.blocks = [(0, ⟨m.total_size, 0, true⟩)] ∧ m.total_size < MIN_BLOCK_SIZE) := by
  induction h with
  | init n =>
    rcases next_power_2_pow2 n with h0 | ⟨k, _, hk⟩
    · right
      refine ⟨rfl, ?_⟩
      show next_power_2 n < MIN_BLOCK_SIZE
      rw [h0]
      decide
    · by_cases h4 : 4 ≤ k
      · left
        refine ⟨⟨?_, ?_, ?_, ?_⟩, k, hk⟩
        · exact List.pairwise_singleton _ _
        · show tilesB (next_power_2 n) 0 [(0, ⟨next_power_2 n, 0, true⟩)] = true
          simp [tilesB]
        · intro p hp
          have hp' : p = (0, ⟨next_power_2 n, 0, true⟩) := by
            simpa [mkAllocator] using hp
          rw [hp']
          exact ⟨k, h4, hk, dvd_zero _⟩
        · show NFP [(0, ⟨next_power_2 n, 0, true⟩)]
          exact nfp_singleton (c := ⟨next_power_2 n, 0, true⟩) (k := k) hk
      · right
        refine ⟨rfl, ?_⟩
        show next_power_2 n < MIN_BLOCK_SIZE
        rw [hk]
        calc 2 ^ k ≤ 2 ^ 3 := Nat.pow_le_pow_right (by decide) (by omega)
          _ < MIN_BLOCK_SIZE := by decide
  | @alloc m' x r hm hx ih =>
    rcases ih with ⟨hinv, T, hT⟩ | hdeg
    · obtain ⟨hi2, htot⟩ := alloc_preserves_inv hinv hx
      exact Or.inl ⟨hi2, T, by rw [htot, hT]⟩
    · rw [(degenerate_ops hdeg.1 hdeg.2).1 r] at hx
      by_cases hr : r = 0
      · rw [if_pos hr] at hx
        cases hx
        exact Or.inr hdeg
      · rw [if_neg hr] at hx
        cases hx
  | @dealloc m' x a hm hx ih =>
    rcases ih with ⟨hinv, T, hT⟩ | hdeg
    · obtain ⟨hi2, htot⟩ := dealloc_preserves_inv hinv hx
      exact Or.inl ⟨hi2, T, by rw [htot, hT]⟩
    · obtain ⟨e, he⟩ := (degenerate_ops hdeg.1 hdeg.2).2.2 a
      rw [he] at hx
      cases hx
  | @align m' x r hm hx ih =>
    rcases ih with ⟨hinv, T, hT⟩ | hdeg
    · have hx' : m'.alloc r = some x := by
        rw [← align_eq_alloc_of_aligned hinv.2.2.1 r]
        exact hx
      obtain ⟨hi2, htot⟩ := alloc_preserves_inv hinv hx'
      exact Or.inl ⟨hi2, T, by rw [htot, hT]⟩
    · rw [(degenerate_ops hdeg.1 hdeg.2).2.1 r] at hx
      by_cases hr : r = 0
      · rw [if_pos hr] at hx
        cases hx
        exact Or.inr hdeg
      · rw [if_neg hr] at hx
        cases hx

/-- Coalescing completeness core: under the full invariant on a
power-of-two arena, an all-free state is a single block spanning the
arena. -/
theorem all_free_single {m : MemoryAllocator} (hi : Inv m)
    (hT : ∃ T, m.total_size = 2 ^ T)
    (hfree : ∀ p ∈ m.blocks, p.2.is_free = true) :
    ∃ b, m.blocks = [(0, b)] ∧ b.size = m.total_size ∧ b.is_free = true := by
  obtain ⟨hs, ht, hp, hn⟩ := hi
  obtain ⟨T, hT2⟩ := hT
  have hTpos : 0 < m.total_size := by
    rw [hT2]
    exact pow_pos (by decide) T
  have hne : m.blocks ≠ [] := by
    intro hc
    rw [hc] at ht
    simp only [tilesB, beq_iff_eq] at ht
    omega
  obtain ⟨⟨a, c⟩, hmem, hminimal⟩ := exists_min_size m.blocks hne
  obtain ⟨k, hk4, hksz0, hkdvd0⟩ := hp (a, c) hmem
  have hksz : c.size = 2 ^ k := hksz0
  have hkdvd : 2 ^ k ∣ a := hkdvd0
  by_cases hcs : m.total_size ≤ c.size
  · obtain ⟨hsingle, h0, hsz⟩ := tiles_singleton hs ht hp hmem hcs
    exact ⟨c, by rw [hsingle, h0], hsz, hfree _ hmem⟩
  · exfalso
    push_neg at hcs
    have hbound := tilesB_bounds m.total_size m.blocks 0 ht (a, c) hmem
    have haK : a + c.size ≤ m.total_size := hbound.2
    have hkT : k < T := by
      have : (2 : Nat) ^ k < 2 ^ T := by
        rw [← hksz, ← hT2]
        exact hcs
      exact (Nat.pow_lt_pow_iff_right (by decide)).mp this
    have hdvdT : 2 ^ (k + 1) ∣ m.total_size := by
      rw [hT2]
      exact pow_dvd_pow 2 hkT
    have hkpos : 0 < 2 ^ k := pow_pos (by decide) k
    have halt : a < m.total_size := by
      rw [hksz] at haK
      omega
    -- the buddy address and its key facts
    by_cases hbit : a &&& 2 ^ k = 0
    · -- left half: buddy is the upper half
      have hdvd1 : 2 ^ (k + 1) ∣ a := and_pow2_eq_zero_dvd hkdvd hbit
      have hab : buddyAddr a (2 ^ k) = a + 2 ^ k := by
        unfold buddyAddr
        rw [if_pos hbit]
      have habT : a + 2 ^ (k + 1) ≤ m.total_size :=
        dvd_lt_add hdvd1 hdvdT halt
      have habI : a + 2 ^ k < m.total_size := by
        rw [pow_succ] at habT
        omega
      obtain ⟨x, e, hxm, hx1, hx2⟩ := tilesB_cover m.total_size m.blocks 0 (a + 2 ^ k)
        ht (by omega) habI
      obtain ⟨ke, _, hkesz0, hkedvd0⟩ := hp (x, e) hxm
      have hkesz : e.size = 2 ^ ke := hkesz0
      have hkedvd : 2 ^ ke ∣ x := hkedvd0
      have hkke : k ≤ ke := by
        have h1 := hminimal (x, e) hxm
        rw [hksz, hkesz] at h1
        exact (Nat.pow_le_pow_iff_right (by decide)).mp h1
      by_cases hke : ke = k
      · -- same size: a genuine free buddy pair
        rw [hke] at hkesz hkedvd
        have hxab : x = a + 2 ^ k := by
          apply dvd_between hkedvd (Dvd.dvd.add hkdvd dvd_rfl) hx1
          rw [hkesz] at hx2
          exact hx2
        apply hn (a, c) hmem (x, e) hxm (hfree _ hmem) (hfree _ hxm)
        · show c.size = e.size
          rw [hksz, hkesz]
        · show x = buddyAddr a c.size
          rw [hksz, hab, hxab]
      · -- larger cover: it would cover our block too, contradiction
        have hklt : k + 1 ≤ ke := by omega
        have hdvdx : 2 ^ (k + 1) ∣ x := dvd_trans (pow_dvd_pow 2 hklt) hkedvd
        have hxa : x ≤ a := by
          by_contra hcx
          push_neg at hcx
          have := dvd_lt_add hdvd1 hdvdx hcx
          rw [pow_succ] at this
          omega
        have hcov : a < x + e.size := by omega
        obtain ⟨hxeq, heeq⟩ := tilesB_cover_unique m.total_size m.blocks 0 a a x c e
          ht hmem hxm le_rfl (by rw [hksz]; omega) hxa hcov
        rw [← heeq] at hkesz
        rw [hksz] at hkesz
        have : k = ke := Nat.pow_right_injective (by decide) hkesz
        omega
    · -- right half: buddy is the lower half
      obtain ⟨hka, hdvd1⟩ := and_pow2_ne_zero hkdvd hbit
      have hab : buddyAddr a (2 ^ k) = a - 2 ^ k := by
        unfold buddyAddr
        rw [if_neg hbit]
      have habI : a - 2 ^ k < m.total_size := by omega
      obtain ⟨x, e, hxm, hx1, hx2⟩ := tilesB_cover m.total_size m.blocks 0 (a - 2 ^ k)
        ht (by omega) habI
      obtain ⟨ke, _, hkesz0, hkedvd0⟩ := hp (x, e) hxm
      have hkesz : e.size = 2 ^ ke := hkesz0
      have hkedvd : 2 ^ ke ∣ x := hkedvd0
      have hkke : k ≤ ke := by
        have h1 := hminimal (x, e) hxm
        rw [hksz, hkesz] at h1
        exact (Nat.pow_le_pow_iff_right (by decide)).mp h1
      by_cases hke : ke = k
      · rw [hke] at hkesz hkedvd
        have hxab : x = a - 2 ^ k := by
          apply dvd_between hkedvd ?_ hx1
          · rw [hkesz] at hx2
            exact hx2
          · exact dvd_trans (pow_dvd_pow 2 (Nat.le_succ k)) hdvd1
        apply hn (a, c) hmem (x, e) hxm (hfree _ hmem) (hfree _ hxm)
        · show c.size = e.size
          rw [hksz, hkesz]
        · show x = buddyAddr a c.size
          rw [hksz, hab, hxab]
      · have hklt : k + 1 ≤ ke := by omega
        have hdvdx : 2 ^ (k + 1) ∣ x := dvd_trans (pow_dvd_pow 2 hklt) hkedvd
        have hxa : x ≤ a - 2 ^ k := hx1
        have hxesum : 2 ^ (k + 1) ∣ x + e.size := by
          apply Dvd.dvd.add hdvdx
          rw [hkesz]
          exact pow_dvd_pow 2 hklt
        have hstep : a - 2 ^ k + 2 ^ (k + 1) ≤ x + e.size :=
          dvd_lt_add hdvd1 hxesum hx2
        have hcov : a < x + e.size := by
          rw [pow_succ] at hstep
          omega
        have hxa2 : x ≤ a := by omega
        obtain ⟨hxeq, heeq⟩ := tilesB_cover_unique m.total_size m.blocks 0 a a x c e
          ht hmem hxm le_rfl (by rw [hksz]; omega) hxa2 hcov
        rw [← heeq] at hkesz
        rw [hksz] at hkesz
        have : k = ke := Nat.pow_right_injective (by decide) hkesz
        omega

end Buddy

/-- C5: Buddy coalescing completeness. In every state reachable through
the public interface in which every block is free, the arena is a single
free block at offset 0 spanning the whole (power-of-two-rounded) arena.
Concretely (B1, N = 1024): alloc(100) returns 0 with block size 128,
alloc(50) returns 128 with block size 64, and dealloc(0) followed by
dealloc(128) coalesces the arena back to one free block of size 1024. -/
theorem buddy_coalescing_complete :
    (∀ m : Buddy.MemoryAllocator, Buddy.BReach m →
      (∀ p ∈ m.blocks, p.2.is_free = true) →
      ∃ b, m.blocks = [(0, b)] ∧ b.size = m.total_size ∧ b.is_free = true) ∧
    ∃ m1 m2 m3 m4 : Buddy.MemoryAllocator,
      (Buddy.mkAllocator 1024).alloc 100 = some (0, m1) ∧
      Buddy.mapFind? 0 m1.blocks = some ⟨128, 100, false⟩ ∧
      m1.alloc 50 = some (128, m2) ∧
      Buddy.mapFind? 128 m2.blocks = some ⟨64, 50, false⟩ ∧
      m2.dealloc 0 = Except.ok m3 ∧
      m3.dealloc 128 = Except.ok m4 ∧
      m4.blocks = [(0, ⟨1024, 0, true⟩)] ∧ m4.total_size = 1024 := by
  constructor
  · intro m h hfree
    rcases Buddy.breach_inv h with ⟨hinv, hT⟩ | ⟨hdeg, _⟩
    · exact Buddy.all_free_single hinv hT hfree
    · exact ⟨⟨m.total_size, 0, true⟩, hdeg, rfl, rfl⟩
  · refine ⟨⟨1024, 100, 0,
        [(0, ⟨128, 100, false⟩), (128, ⟨128, 0, true⟩),
         (256, ⟨256, 0, true⟩), (512, ⟨512, 0, true⟩)]⟩,
      ⟨1024, 150, 0,
        [(0, ⟨128, 100, false⟩), (128, ⟨64, 50, false⟩), (192, ⟨64, 0, true⟩),
         (256, ⟨256, 0, true⟩), (512, ⟨512, 0, true⟩)]⟩,
      ⟨1024, 50, 0,
        [(0, ⟨128, 0, true⟩), (128, ⟨64, 50, false⟩), (192, ⟨64, 0, true⟩),
         (256, ⟨256, 0, true⟩), (512, ⟨512, 0, true⟩)]⟩,
      ⟨1024, 0, 0, [(0, ⟨1024, 0, true⟩)]⟩,
      ?_, ?_, ?_, ?_, ?_, ?_, ?_, ?_⟩ <;> decide

/-- C5 witness: the fresh arena of size 1024 is reachable and all-free,
and the theorem yields its single spanning free block. -/
theorem buddy_coalescing_complete_witness :
    ∃ b, (Buddy.mkAllocator 1024).blocks = [(0, b)] ∧
      b.size = (Buddy.mkAllocator 1024).total_size ∧ b.is_free = true :=
  buddy_coalescing_complete.1 (Buddy.mkAllocator 1024)
    (Buddy.BReach.init 1024) (by decide)

/-- C4: TLSF chain consistency fails. (i) Already in the initial state of
`TLSFAllocator(1024)` the physical chain terminates at `N + sizeof(H) =
1072`, not at `N = 1024` as claimed. (ii) A five-call alloc/dealloc trace
(no align_alloc) reaches a state whose arena still tiles into headers at
0, 64 and 1008, but the last block's `prev_physical` is the stale offset
216 instead of its physical predecessor 64: the forward merge that fused
the blocks at 64 and 216 bounds its fix-up probe by `total_size = 1024`
while the chain extends to 1072, so the last block's back-link is never
updated. The chain-consistency predicate therefore fails on a state
reachable without align_alloc. -/
theorem tlsf_chain_consistency_violated :
    (TLSF.chainCheck (TLSF.mkTLSF 1024).mem 1072 0 none [0] = true ∧
     TLSF.chainCheck (TLSF.mkTLSF 1024).mem 1024 0 none [0] = false) ∧
    ((TLSF.mkTLSF 1024).alloc 16 = some (.ok (0, TLSF.chainT1)) ∧
     TLSF.chainT1.alloc 100 = some (.ok (64, TLSF.chainT2)) ∧
     TLSF.chainT2.alloc 744 = some (.ok (216, TLSF.chainT3)) ∧
     TLSF.chainT3.dealloc 216 = some (.ok TLSF.chainT4) ∧
     TLSF.chainT4.dealloc 64 = some (.ok TLSF.chainT5)) ∧
    ((TLSF.getH TLSF.chainT5.mem 0).map TLSF.Block.size = some 16 ∧
     (TLSF.getH TLSF.chainT5.mem 64).map TLSF.Block.size = some 896 ∧
     (TLSF.getH TLSF.chainT5.mem 1008).map TLSF.Block.size = some 16 ∧
     TLSF.walkEnd TLSF.chainT5.mem 8 0 = 1072) ∧
    ((TLSF.getH TLSF.chainT5.mem 1008).map TLSF.Block.prev_physical =
        some (some 216) ∧
     TLSF.chainCheck TLSF.chainT5.mem 1072 0 none [0, 64, 1008] = false) := by
  decide

end AllocModel
